import Mathlib

set_option maxHeartbeats 1000000
set_option maxRecDepth 8000

/-!
Verification development for the mind-map layout engine (`32.py`).

The Python floating point arithmetic is embedded over an abstract linear
ordered field `α` with a floor function; the spatial-index claims are proved
generically (so they hold for `ℝ`) while witnesses instantiate `α := ℚ`,
where every definition is executable.  Node names (Python strings) are
embedded as `ℕ`: the code treats them as opaque dictionary keys.
-/

namespace MyMmap

variable {α : Type} [LinearOrderedField α] [FloorRing α]

/-- Python `round` (round-half-to-even, "banker's rounding") on a value of
the embedding field, as used by `MindMapScene._snap`
(`round(p.x() / step)`). -/
def pyround (x : α) : ℤ :=
  if Int.fract x < 1/2 then ⌊x⌋
  else if 1/2 < Int.fract x then ⌊x⌋ + 1
  else if Even ⌊x⌋ then ⌊x⌋ else ⌊x⌋ + 1

/-- `MindMapScene._snap`: quantize both coordinates of a point to the grid,
`round(v / step) * step` per coordinate. -/
def snap (step : α) (p : α × α) : α × α :=
  (step * pyround (p.1 / step), step * pyround (p.2 / step))

theorem abs_pyround_sub_le (x : α) : |(pyround x : α) - x| ≤ 1/2 := by
  have h0 : (⌊x⌋ : α) ≤ x := Int.floor_le x
  have h1 : x < ⌊x⌋ + 1 := Int.lt_floor_add_one x
  unfold pyround
  unfold Int.fract
  split_ifs with hc1 hc2 hc3
  · rw [abs_sub_le_iff]; constructor <;> linarith
  · push_cast
    rw [abs_sub_le_iff]; constructor <;> linarith
  · have hx : x - ⌊x⌋ = 1/2 := le_antisymm (not_lt.mp hc2) (not_lt.mp hc1)
    rw [abs_sub_le_iff]; constructor <;> linarith
  · have hx : x - ⌊x⌋ = 1/2 := le_antisymm (not_lt.mp hc2) (not_lt.mp hc1)
    push_cast
    rw [abs_sub_le_iff]; constructor <;> linarith

/-- Evaluation of `pyround` strictly inside a half-open rounding cell. -/
theorem pyround_eq_of_mem (x : α) (z : ℤ) (hlo : (z : α) - 1/2 < x)
    (hhi : x < (z : α) + 1/2) : pyround x = z := by
  have habs := abs_pyround_sub_le x
  rw [abs_sub_le_iff] at habs
  have h1 : (pyround x : α) < (z : α) + 1 := by linarith [habs.1, habs.2]
  have h2 : (z : α) - 1 < (pyround x : α) := by linarith [habs.1, habs.2]
  have h1' : pyround x < z + 1 := by exact_mod_cast h1
  have h2' : z - 1 < pyround x := by exact_mod_cast h2
  omega

/-- `pyround` commutes with the cast `ℚ → K`; this lets the witnesses
evaluate the real-valued models at rational inputs. -/
theorem pyround_ratCast {K : Type} [LinearOrderedField K] [FloorRing K]
    (q : ℚ) : pyround ((q : K)) = pyround q := by
  unfold pyround
  rw [Rat.floor_cast]
  have key : Int.fract ((q : K)) = ((Int.fract q : ℚ) : K) := by
    unfold Int.fract
    rw [Rat.floor_cast]
    push_cast
    ring
  have hhalf : (1 : K)/2 = ((1/2 : ℚ) : K) := by norm_num
  simp only [key, hhalf, Rat.cast_lt]

/-- If two inputs are more than one rounding cell apart, the rounded values
are strictly ordered.  (Note `pyround` is *not* shift invariant —
`round(1.5) = round(2.5) = 2` — so a gap of exactly one cell is not enough;
the engine's configuration keeps `snap_step < TARGET_EDGE`.) -/
theorem pyround_lt_of_gap (a b : α) (h : a + 1 < b) : pyround a < pyround b := by
  have ha := abs_pyround_sub_le a
  have hb := abs_pyround_sub_le b
  rw [abs_sub_le_iff] at ha hb
  have : (pyround a : α) < (pyround b : α) := by linarith [ha.1, ha.2, hb.1, hb.2]
  exact_mod_cast this

/-! ## `_SpatialHash` (32.py lines 38–84)

The grid is modelled as a total function `(ℤ × ℤ) → Finset ℕ`; a bucket that
Python prunes from the `dict` is the empty set here (pruning only bounds
memory and is invisible to membership).  A second, association-list-backed
model `SpatialHashL` below makes bucket *presence* observable for the
frame-effect claim C10. -/

/-- State of `_SpatialHash`: cell size, grid buckets, radius cache. -/
structure SpatialHash (α : Type) where
  cell : ℤ
  grid : ℤ × ℤ → Finset ℕ
  radius : ℕ → Option α

/-- `_SpatialHash.__init__`: `self.cell = max(40, int(cell))`, empty grid and
radius cache. -/
def SpatialHash.init (cell : ℤ) : SpatialHash α :=
  ⟨max 40 cell, fun _ => ∅, fun _ => none⟩

/-- `_SpatialHash._keys_for`: all grid cells whose index lies in
`[int((x-r)//c), int((x+r)//c)] × [int((y-r)//c), int((y+r)//c)]` (Python
float floor-division is the mathematical floor). -/
def keysFor (c : ℤ) (x y r : α) : Finset (ℤ × ℤ) :=
  Finset.Icc ⌊(x - r) / (c : α)⌋ ⌊(x + r) / (c : α)⌋ ×ˢ
    Finset.Icc ⌊(y - r) / (c : α)⌋ ⌊(y + r) / (c : α)⌋

/-- `_SpatialHash.insert`: record the radius, add the name to every covered
cell. -/
def SpatialHash.insert (s : SpatialHash α) (n : ℕ) (x y r : α) :
    SpatialHash α :=
  { cell := s.cell
    grid := fun k =>
      if k ∈ keysFor s.cell x y r then Insert.insert n (s.grid k) else s.grid k
    radius := Function.update s.radius n (some r) }

/-- `_SpatialHash.remove`: using the cached radius (default `0.0`), discard
the name from every covered cell (buckets that become empty are pruned in
Python, which the functional grid renders invisible), then drop the cache
entry. -/
def SpatialHash.remove (s : SpatialHash α) (n : ℕ) (x y : α) :
    SpatialHash α :=
  { cell := s.cell
    grid := fun k =>
      if k ∈ keysFor s.cell x y ((s.radius n).getD 0) then (s.grid k).erase n
      else s.grid k
    radius := Function.update s.radius n none }

/-- `_SpatialHash.move`: remove from `old − new` cells, add to `new − old`
cells, leave the radius cache untouched. -/
def SpatialHash.move (s : SpatialHash α) (n : ℕ) (ox oy nx ny : α) :
    SpatialHash α :=
  { cell := s.cell
    grid := fun k =>
      if k ∈ keysFor s.cell ox oy ((s.radius n).getD 0) \
            keysFor s.cell nx ny ((s.radius n).getD 0) then (s.grid k).erase n
      else if k ∈ keysFor s.cell nx ny ((s.radius n).getD 0) \
            keysFor s.cell ox oy ((s.radius n).getD 0) then
        Insert.insert n (s.grid k)
      else s.grid k
    radius := s.radius }

/-- `_SpatialHash.neighbors`: union of the buckets of every cell covered by
the query circle's bounding box. -/
def SpatialHash.neighbors (s : SpatialHash α) (x y r : α) : Finset ℕ :=
  (keysFor s.cell x y r).biUnion s.grid

/-! ### Operation sequences and the data-model invariants (claims C2, C3) -/

/-- One index operation. -/
inductive Op (α : Type) where
  | insert (n : ℕ) (x y r : α)
  | remove (n : ℕ) (x y : α)
  | move (n : ℕ) (ox oy nx ny : α)

/-- Run one operation on the hash. -/
def SpatialHash.exec (s : SpatialHash α) : Op α → SpatialHash α
  | .insert n x y r => s.insert n x y r
  | .remove n x y => s.remove n x y
  | .move n ox oy nx ny => s.move n ox oy nx ny

/-- Run a list of operations. -/
def SpatialHash.execList (s : SpatialHash α) (ops : List (Op α)) :
    SpatialHash α :=
  ops.foldl SpatialHash.exec s

/-- The abstract registry: which circle each id is currently registered
with. -/
def Registry (α : Type) := ℕ → Option (α × α × α)

/-- The empty registry. -/
def emptyReg : Registry α := fun _ => none

/-- Registry semantics of one operation (`move` keeps the cached radius, as
the code does). -/
def regExec (reg : Registry α) : Op α → Registry α
  | .insert n x y r => Function.update reg n (some (x, y, r))
  | .remove n _ _ => Function.update reg n none
  | .move n _ _ nx ny =>
      Function.update reg n ((reg n).map fun t => (nx, ny, t.2.2))

/-- Run a list of operations on the registry. -/
def regExecList (reg : Registry α) (ops : List (Op α)) : Registry α :=
  ops.foldl regExec reg

/-- Side conditions of the claims: `remove`/`move` are called with the id's
currently registered coordinates; inserted radii are nonnegative (they are
node sizes). -/
def LegalOp (reg : Registry α) : Op α → Prop
  | .insert _ _ _ r => 0 ≤ r
  | .remove n x y =>
      match reg n with
      | some (a, b, _) => a = x ∧ b = y
      | none => False
  | .move n ox oy _ _ =>
      match reg n with
      | some (a, b, _) => a = ox ∧ b = oy
      | none => False

/-- Every operation of the trace is legal in the registry state it runs
in. -/
def LegalTrace (reg : Registry α) : List (Op α) → Prop
  | [] => True
  | op :: rest => LegalOp reg op ∧ LegalTrace (regExec reg op) rest

/-- Conservative ("no false negative") invariant: every registered id has
its registered radius cached (nonnegative) and appears in at least every
cell its circle covers. -/
def SupInv (reg : Registry α) (s : SpatialHash α) : Prop :=
  0 < s.cell ∧ ∀ n x y r, reg n = some (x, y, r) →
    0 ≤ r ∧ s.radius n = some r ∧ ∀ k ∈ keysFor s.cell x y r, n ∈ s.grid k

/-- Exact data-model invariant of the spec (§3): a registered id appears in
exactly the cells its circle covers; an unregistered id appears in no cell
and has no cached radius. -/
def ExactInv (reg : Registry α) (s : SpatialHash α) : Prop :=
  0 < s.cell ∧ ∀ n,
    (∀ x y r, reg n = some (x, y, r) →
      s.radius n = some r ∧ ∀ k, n ∈ s.grid k ↔ k ∈ keysFor s.cell x y r) ∧
    (reg n = none → s.radius n = none ∧ ∀ k, n ∉ s.grid k)

theorem supInv_init (cell : ℤ) : SupInv (emptyReg : Registry α)
    (SpatialHash.init cell) := by
  constructor
  · simp [SpatialHash.init]
  · intro n x y r h
    simp [emptyReg] at h

theorem exactInv_init (cell : ℤ) : ExactInv (emptyReg : Registry α)
    (SpatialHash.init cell) := by
  constructor
  · simp [SpatialHash.init]
  · intro n
    constructor
    · intro x y r h
      simp [emptyReg] at h
    · intro _
      simp [SpatialHash.init]


theorem supInv_exec (reg : Registry α) (s : SpatialHash α) (op : Op α)
    (hInv : SupInv reg s) (hLegal : LegalOp reg op) :
    SupInv (regExec reg op) (s.exec op) := by
  obtain ⟨hc, hmem⟩ := hInv
  cases op with
  | insert n x y r =>
      refine ⟨hc, ?_⟩
      intro m mx my mr hm
      simp only [regExec, Function.update_apply] at hm
      by_cases hmn : m = n
      · rw [if_pos hmn] at hm
        simp only [Option.some.injEq, Prod.mk.injEq] at hm
        obtain ⟨hx, hy, hr⟩ := hm
        subst hx; subst hy; subst hr; subst hmn
        refine ⟨hLegal, ?_, ?_⟩
        · simp [SpatialHash.exec, SpatialHash.insert]
        · intro k hk
          simp only [SpatialHash.exec, SpatialHash.insert] at hk ⊢
          rw [if_pos hk]
          exact Finset.mem_insert_self _ _
      · rw [if_neg hmn] at hm
        obtain ⟨h0, h1, h2⟩ := hmem m mx my mr hm
        refine ⟨h0, ?_, ?_⟩
        · simpa [SpatialHash.exec, SpatialHash.insert,
            Function.update_noteq hmn] using h1
        · intro k hk
          simp only [SpatialHash.exec, SpatialHash.insert]
          split_ifs with hcov
          · exact Finset.mem_insert_of_mem (h2 k hk)
          · exact h2 k hk
  | remove n x y =>
      refine ⟨hc, ?_⟩
      intro m mx my mr hm
      simp only [regExec, Function.update_apply] at hm
      by_cases hmn : m = n
      · rw [if_pos hmn] at hm
        exact absurd hm (by simp)
      · rw [if_neg hmn] at hm
        obtain ⟨h0, h1, h2⟩ := hmem m mx my mr hm
        refine ⟨h0, ?_, ?_⟩
        · simpa [SpatialHash.exec, SpatialHash.remove,
            Function.update_noteq hmn] using h1
        · intro k hk
          simp only [SpatialHash.exec, SpatialHash.remove]
          split_ifs with hcov
          · exact Finset.mem_erase_of_ne_of_mem hmn (h2 k hk)
          · exact h2 k hk
  | move n ox oy nx ny =>
      refine ⟨hc, ?_⟩
      rcases hr : reg n with _ | ⟨a, b, rr⟩
      · rw [LegalOp, hr] at hLegal
        exact absurd hLegal (by simp)
      · rw [LegalOp, hr] at hLegal
        obtain ⟨ha, hb⟩ := hLegal
        rw [ha, hb] at hr
        obtain ⟨h0, hrad, hcov⟩ := hmem n ox oy rr hr
        have hgetD : (s.radius n).getD 0 = rr := by rw [hrad]; rfl
        intro m mx my mr hm
        simp only [regExec, Function.update_apply, hr, Option.map_some'] at hm
        by_cases hmn : m = n
        · rw [if_pos hmn] at hm
          simp only [Option.some.injEq, Prod.mk.injEq] at hm
          obtain ⟨hx, hy, hrr⟩ := hm
          subst hx; subst hy; subst hrr; subst hmn
          refine ⟨h0, ?_, ?_⟩
          · simpa [SpatialHash.exec, SpatialHash.move] using hrad
          · intro k hk
            simp only [SpatialHash.exec, SpatialHash.move, hgetD]
            split_ifs with hco hcn
            · exact absurd hk (by simpa using (Finset.mem_sdiff.mp hco).2)
            · exact Finset.mem_insert_self _ _
            · have hkold : k ∈ keysFor s.cell ox oy rr := by
                by_contra hko
                exact hcn (Finset.mem_sdiff.mpr ⟨hk, hko⟩)
              exact hcov k hkold
        · rw [if_neg hmn] at hm
          obtain ⟨h0', h1', h2'⟩ := hmem m mx my mr hm
          refine ⟨h0', ?_, ?_⟩
          · simpa [SpatialHash.exec, SpatialHash.move] using h1'
          · intro k hk
            simp only [SpatialHash.exec, SpatialHash.move]
            split_ifs with hco hcn
            · exact Finset.mem_erase_of_ne_of_mem hmn (h2' k hk)
            · exact Finset.mem_insert_of_mem (h2' k hk)
            · exact h2' k hk

theorem supInv_execList (reg : Registry α) (s : SpatialHash α)
    (ops : List (Op α)) (hInv : SupInv reg s) (hLegal : LegalTrace reg ops) :
    SupInv (regExecList reg ops) (s.execList ops) := by
  induction ops generalizing reg s with
  | nil => exact hInv
  | cons op rest ih =>
      obtain ⟨h1, h2⟩ := hLegal
      exact ih (regExec reg op) (s.exec op) (supInv_exec reg s op hInv h1) h2

/-- Circle overlap forces a shared grid cell, hence membership in the query
result: the geometric core of the no-false-negative property. -/
theorem mem_neighbors_of_overlap (reg : Registry α) (s : SpatialHash α)
    (hInv : SupInv reg s) (n : ℕ) (x y r qx qy qr : α)
    (hreg : reg n = some (x, y, r)) (hqr : 0 ≤ qr)
    (hover : (x - qx) ^ 2 + (y - qy) ^ 2 ≤ (r + qr) ^ 2) :
    n ∈ s.neighbors qx qy qr := by
  obtain ⟨hc, hmem⟩ := hInv
  obtain ⟨hr0, _hrad, hcov⟩ := hmem n x y r hreg
  have hcα : (0 : α) < (s.cell : α) := by exact_mod_cast hc
  have fdiv : ∀ a b : α, a ≤ b →
      ⌊a / (s.cell : α)⌋ ≤ ⌊b / (s.cell : α)⌋ := fun a b hab =>
    Int.floor_le_floor ((div_le_div_right hcα).mpr hab)
  have hsum : 0 ≤ r + qr := add_nonneg hr0 hqr
  have hdx1 : x - qx ≤ r + qr := by
    nlinarith [sq_nonneg (y - qy), sq_nonneg (x - qx - (r + qr))]
  have hdx2 : -(r + qr) ≤ x - qx := by
    nlinarith [sq_nonneg (y - qy), sq_nonneg (x - qx + (r + qr))]
  have hdy1 : y - qy ≤ r + qr := by
    nlinarith [sq_nonneg (x - qx), sq_nonneg (y - qy - (r + qr))]
  have hdy2 : -(r + qr) ≤ y - qy := by
    nlinarith [sq_nonneg (x - qx), sq_nonneg (y - qy + (r + qr))]
  refine Finset.mem_biUnion.mpr
    ⟨(max ⌊(x - r) / (s.cell : α)⌋ ⌊(qx - qr) / (s.cell : α)⌋,
      max ⌊(y - r) / (s.cell : α)⌋ ⌊(qy - qr) / (s.cell : α)⌋), ?_, ?_⟩
  · rw [keysFor, Finset.mem_product]
    refine ⟨Finset.mem_Icc.mpr ⟨le_max_right _ _, ?_⟩,
      Finset.mem_Icc.mpr ⟨le_max_right _ _, ?_⟩⟩
    · exact max_le (fdiv _ _ (by linarith)) (fdiv _ _ (by linarith))
    · exact max_le (fdiv _ _ (by linarith)) (fdiv _ _ (by linarith))
  · refine hcov _ ?_
    rw [keysFor, Finset.mem_product]
    refine ⟨Finset.mem_Icc.mpr ⟨le_max_left _ _, ?_⟩,
      Finset.mem_Icc.mpr ⟨le_max_left _ _, ?_⟩⟩
    · exact max_le (fdiv _ _ (by linarith)) (fdiv _ _ (by linarith))
    · exact max_le (fdiv _ _ (by linarith)) (fdiv _ _ (by linarith))

theorem exactInv_insert (reg : Registry α) (s : SpatialHash α)
    (h : ExactInv reg s) (n : ℕ) (x y r : α) (hn : reg n = none) :
    ExactInv (Function.update reg n (some (x, y, r))) (s.insert n x y r) := by
  obtain ⟨hc, hm⟩ := h
  refine ⟨hc, ?_⟩
  intro m
  constructor
  · intro mx my mr hmr
    rw [Function.update_apply] at hmr
    by_cases hmn : m = n
    · rw [if_pos hmn] at hmr
      simp only [Option.some.injEq, Prod.mk.injEq] at hmr
      obtain ⟨hx, hy, hr⟩ := hmr
      subst hx; subst hy; subst hr; subst hmn
      obtain ⟨_, habs⟩ := hm m
      obtain ⟨_, hnone⟩ := habs hn
      refine ⟨by simp [SpatialHash.insert], ?_⟩
      intro k
      simp only [SpatialHash.insert]
      split_ifs with hk
      · simp [hk]
      · simp [hnone k, hk]
    · rw [if_neg hmn] at hmr
      obtain ⟨hreg, _⟩ := hm m
      obtain ⟨h1, h2⟩ := hreg mx my mr hmr
      refine ⟨by simpa [SpatialHash.insert, Function.update_noteq hmn] using h1, ?_⟩
      intro k
      simp only [SpatialHash.insert]
      split_ifs with hk
      · rw [Finset.mem_insert]
        simp [hmn, h2 k]
      · exact h2 k
  · intro hmr
    rw [Function.update_apply] at hmr
    by_cases hmn : m = n
    · rw [if_pos hmn] at hmr
      exact absurd hmr (by simp)
    · rw [if_neg hmn] at hmr
      obtain ⟨_, habs⟩ := hm m
      obtain ⟨h1, h2⟩ := habs hmr
      refine ⟨by simpa [SpatialHash.insert, Function.update_noteq hmn] using h1, ?_⟩
      intro k
      simp only [SpatialHash.insert]
      split_ifs with hk
      · rw [Finset.mem_insert]
        simp [hmn, h2 k]
      · exact h2 k

theorem exactInv_remove (reg : Registry α) (s : SpatialHash α)
    (h : ExactInv reg s) (n : ℕ) (x y r : α) (hn : reg n = some (x, y, r)) :
    ExactInv (Function.update reg n none) (s.remove n x y) := by
  obtain ⟨hc, hm⟩ := h
  obtain ⟨hrad, hgrid⟩ := (hm n).1 x y r hn
  have hgetD : (s.radius n).getD 0 = r := by rw [hrad]; rfl
  refine ⟨hc, ?_⟩
  intro m
  constructor
  · intro mx my mr hmr
    rw [Function.update_apply] at hmr
    by_cases hmn : m = n
    · rw [if_pos hmn] at hmr
      exact absurd hmr (by simp)
    · rw [if_neg hmn] at hmr
      obtain ⟨h1, h2⟩ := (hm m).1 mx my mr hmr
      refine ⟨by simpa [SpatialHash.remove, Function.update_noteq hmn] using h1, ?_⟩
      intro k
      simp only [SpatialHash.remove, hgetD]
      split_ifs with hk
      · rw [Finset.mem_erase]
        simp [hmn, h2 k]
      · exact h2 k
  · intro hmr
    rw [Function.update_apply] at hmr
    by_cases hmn : m = n
    · subst hmn
      refine ⟨by simp [SpatialHash.remove], ?_⟩
      intro k
      simp only [SpatialHash.remove, hgetD]
      split_ifs with hk
      · simp
      · simp [hgrid k, hk]
    · rw [if_neg hmn] at hmr
      obtain ⟨h1, h2⟩ := (hm m).2 hmr
      refine ⟨by simpa [SpatialHash.remove, Function.update_noteq hmn] using h1, ?_⟩
      intro k
      simp only [SpatialHash.remove, hgetD]
      split_ifs with hk
      · rw [Finset.mem_erase]
        simp [h2 k]
      · exact h2 k

theorem exactInv_move (reg : Registry α) (s : SpatialHash α)
    (h : ExactInv reg s) (n : ℕ) (ox oy r nx ny : α)
    (hn : reg n = some (ox, oy, r)) :
    ExactInv (Function.update reg n (some (nx, ny, r))) (s.move n ox oy nx ny) := by
  obtain ⟨hc, hm⟩ := h
  obtain ⟨hrad, hgrid⟩ := (hm n).1 ox oy r hn
  have hgetD : (s.radius n).getD 0 = r := by rw [hrad]; rfl
  refine ⟨hc, ?_⟩
  intro m
  constructor
  · intro mx my mr hmr
    rw [Function.update_apply] at hmr
    by_cases hmn : m = n
    · rw [if_pos hmn] at hmr
      simp only [Option.some.injEq, Prod.mk.injEq] at hmr
      obtain ⟨hx, hy, hr⟩ := hmr
      subst hx; subst hy; subst hr; subst hmn
      refine ⟨by simpa [SpatialHash.move] using hrad, ?_⟩
      intro k
      simp only [SpatialHash.move, hgetD]
      split_ifs with hko hkn
      · rw [Finset.mem_sdiff] at hko
        simp [Finset.mem_erase, hko.2]
      · rw [Finset.mem_sdiff] at hkn
        simp [hkn.1]
      · rw [Finset.mem_sdiff] at hko hkn
        push_neg at hko hkn
        rw [hgrid k]
        constructor
        · intro hold
          exact hko hold
        · intro hnew
          exact hkn hnew
    · rw [if_neg hmn] at hmr
      obtain ⟨h1, h2⟩ := (hm m).1 mx my mr hmr
      refine ⟨by simpa [SpatialHash.move] using h1, ?_⟩
      intro k
      simp only [SpatialHash.move, hgetD]
      split_ifs with hko hkn
      · rw [Finset.mem_erase]
        simp [hmn, h2 k]
      · rw [Finset.mem_insert]
        simp [hmn, h2 k]
      · exact h2 k
  · intro hmr
    rw [Function.update_apply] at hmr
    by_cases hmn : m = n
    · rw [if_pos hmn] at hmr
      exact absurd hmr (by simp)
    · rw [if_neg hmn] at hmr
      obtain ⟨h1, h2⟩ := (hm m).2 hmr
      refine ⟨by simpa [SpatialHash.move] using h1, ?_⟩
      intro k
      simp only [SpatialHash.move, hgetD]
      split_ifs with hko hkn
      · rw [Finset.mem_erase]
        simp [h2 k]
      · rw [Finset.mem_insert]
        simp [hmn, h2 k]
      · exact h2 k

/-! ### Claim theorems C2 and C3 -/

/-- C2: after any legal sequence of `insert`/`move`/`remove` (remove/move at
the currently registered coordinates), `neighbors(x, y, r)` contains every
registered id whose circle (current position, cached radius) overlaps the
query circle — the result is a superset of the exact overlap set, with no
false negatives. -/
theorem C2_neighbors_no_false_negatives (cell : ℤ) (ops : List (Op α))
    (hLegal : LegalTrace (emptyReg (α := α)) ops) (n : ℕ) (x y r qx qy qr : α)
    (hreg : regExecList emptyReg ops n = some (x, y, r)) (hqr : 0 ≤ qr)
    (hover : (x - qx) ^ 2 + (y - qy) ^ 2 ≤ (r + qr) ^ 2) :
    n ∈ ((SpatialHash.init cell : SpatialHash α).execList ops).neighbors qx qy qr :=
  mem_neighbors_of_overlap _ _
    (supInv_execList _ _ ops (supInv_init cell) hLegal) n x y r qx qy qr
    hreg hqr hover

/-- Witness for C2: a concrete insert/move/insert trace over `ℚ`; the node
moved to `(300, 300)` with radius `100` overlaps the query circle
`(250, 250, 60)` and is reported by `neighbors`. -/
theorem C2_witness :
    LegalTrace (emptyReg (α := ℚ))
      [Op.insert 1 0 0 100, Op.move 1 0 0 300 300, Op.insert 2 10 10 5] ∧
    regExecList (emptyReg (α := ℚ))
      [Op.insert 1 0 0 100, Op.move 1 0 0 300 300, Op.insert 2 10 10 5] 1 =
      some (300, 300, 100) ∧
    1 ∈ ((SpatialHash.init 120 : SpatialHash ℚ).execList
      [Op.insert 1 0 0 100, Op.move 1 0 0 300 300, Op.insert 2 10 10 5]).neighbors
      250 250 60 := by
  have hLegal : LegalTrace (emptyReg (α := ℚ))
      [Op.insert 1 0 0 100, Op.move 1 0 0 300 300, Op.insert 2 10 10 5] := by
    refine ⟨by norm_num [LegalOp], ?_, by norm_num [LegalOp], trivial⟩
    simp [LegalOp, regExec, emptyReg, Function.update]
  have hreg : regExecList (emptyReg (α := ℚ))
      [Op.insert 1 0 0 100, Op.move 1 0 0 300 300, Op.insert 2 10 10 5] 1 =
      some (300, 300, 100) := by
    simp [regExecList, regExec, emptyReg, Function.update]
  refine ⟨hLegal, hreg, ?_⟩
  exact C2_neighbors_no_false_negatives 120 _ hLegal 1 300 300 100 250 250 60
    hreg (by norm_num) (by norm_num)

/-- C3: the exact data-model invariant (a cached id sits in exactly the
cells its registered circle covers, an uncached id sits in no cell) is
preserved by `insert` of a fresh id, by `remove` at the registered position,
and by `move` from the registered position. -/
theorem C3_invariant_preserved (reg : Registry α) (s : SpatialHash α)
    (h : ExactInv reg s) :
    (∀ n x y r, reg n = none →
      ExactInv (Function.update reg n (some (x, y, r))) (s.insert n x y r)) ∧
    (∀ n x y r, reg n = some (x, y, r) →
      ExactInv (Function.update reg n none) (s.remove n x y)) ∧
    (∀ n ox oy r nx ny, reg n = some (ox, oy, r) →
      ExactInv (Function.update reg n (some (nx, ny, r))) (s.move n ox oy nx ny)) :=
  ⟨fun n x y r hn => exactInv_insert reg s h n x y r hn,
   fun n x y r hn => exactInv_remove reg s h n x y r hn,
   fun n ox oy r nx ny hn => exactInv_move reg s h n ox oy r nx ny hn⟩

/-- Witness for C3: the invariant holds for the freshly initialised index
over `ℚ`, so all three preservation statements apply to it. -/
theorem C3_witness :
    ExactInv (emptyReg (α := ℚ)) (SpatialHash.init 120) ∧
    ((∀ n x y r, emptyReg (α := ℚ) n = none →
      ExactInv (Function.update (emptyReg (α := ℚ)) n (some (x, y, r)))
        ((SpatialHash.init 120 : SpatialHash ℚ).insert n x y r)) ∧
    (∀ n x y r, emptyReg (α := ℚ) n = some (x, y, r) →
      ExactInv (Function.update (emptyReg (α := ℚ)) n none)
        ((SpatialHash.init 120 : SpatialHash ℚ).remove n x y)) ∧
    (∀ n ox oy r nx ny, emptyReg (α := ℚ) n = some (ox, oy, r) →
      ExactInv (Function.update (emptyReg (α := ℚ)) n (some (nx, ny, r)))
        ((SpatialHash.init 120 : SpatialHash ℚ).move n ox oy nx ny))) :=
  ⟨exactInv_init 120, C3_invariant_preserved _ _ (exactInv_init 120)⟩

/-! ## Association-list model of the grid dictionary (claim C10)

`_SpatialHash.grid` is a `defaultdict(set)`; subscripting (`grid[key]`)
would materialize an empty bucket for a missing key, but `neighbors` reads
with `self.grid.get(key, set())`, which returns the default without
inserting.  The list-backed state makes bucket presence observable. -/

/-- Dictionary-backed state: buckets are explicit entries, so an absent
bucket is distinguishable from an empty one. -/
structure SpatialHashL (α : Type) where
  cell : ℤ
  grid : List ((ℤ × ℤ) × Finset ℕ)
  radius : List (ℕ × α)

/-- Integer range `[a, b]` as a list (the iteration space of
`range(x0, x1 + 1)`). -/
def intRange (a b : ℤ) : List ℤ :=
  (List.range (b + 1 - a).toNat).map fun i => a + i

/-- `_keys_for` in generator order: `ix` outer, `iy` inner. -/
def keysList (c : ℤ) (x y r : α) : List (ℤ × ℤ) :=
  (intRange ⌊(x - r) / (c : α)⌋ ⌊(x + r) / (c : α)⌋).flatMap fun ix =>
    (intRange ⌊(y - r) / (c : α)⌋ ⌊(y + r) / (c : α)⌋).map fun iy => (ix, iy)

/-- `dict.get(key, set())`: return the stored bucket or the default, and the
dictionary as it is afterwards — unchanged, because `.get` never inserts
(unlike `defaultdict.__getitem__`). -/
def dictGet (g : List ((ℤ × ℤ) × Finset ℕ)) (k : ℤ × ℤ) :
    Finset ℕ × List ((ℤ × ℤ) × Finset ℕ) :=
  (((g.find? fun e => e.1 == k).map Prod.snd).getD ∅, g)

/-- `_SpatialHash.neighbors` on the dictionary-backed state, threading the
state through every bucket access: `hits |= self.grid.get(key, set())`. -/
def SpatialHashL.neighbors (s : SpatialHashL α) (x y r : α) :
    Finset ℕ × SpatialHashL α :=
  let out := (keysList s.cell x y r).foldl
    (fun acc k =>
      let hv := dictGet acc.2 k
      (acc.1 ∪ hv.1, hv.2))
    ((∅ : Finset ℕ), s.grid)
  (out.1, ⟨s.cell, out.2, s.radius⟩)

theorem neighborsL_foldl_grid (l : List (ℤ × ℤ)) (g : List ((ℤ × ℤ) × Finset ℕ))
    (acc : Finset ℕ) :
    (l.foldl (fun acc k =>
      let hv := dictGet acc.2 k
      (acc.1 ∪ hv.1, hv.2)) (acc, g)).2 = g := by
  induction l generalizing acc with
  | nil => rfl
  | cons k rest ih => exact ih _

/-- C10: `neighbors` is a pure read-only query: the grid mapping and the
radius cache are exactly as before the call (reading cells with no bucket
does not materialize a bucket, since the code uses non-inserting
`dict.get`), and two identical consecutive queries on the unmutated index
return equal hit sets. -/
theorem C10_neighbors_readonly (s : SpatialHashL α) (x y r : α) :
    (s.neighbors x y r).2 = s ∧
    ((s.neighbors x y r).2.neighbors x y r).1 = (s.neighbors x y r).1 := by
  have hstate : (s.neighbors x y r).2 = s := by
    show (⟨s.cell, _, s.radius⟩ : SpatialHashL α) = s
    rw [neighborsL_foldl_grid]
  exact ⟨hstate, by rw [hstate]⟩

/-! ## Rooted spanning trees

`arrange_tree` and `arrange_radial` both run on the BFS spanning tree of the
graph (`nx.bfs_tree`, an external library call) with children sorted by
lower-cased name.  The models take that spanning tree, children already in
the engine's deterministic order, as input. -/

/-- A rooted tree of node names. -/
inductive RTree where
  | node (name : ℕ) (children : List RTree)

/-- Root name. -/
def RTree.name : RTree → ℕ
  | .node n _ => n

/-- Children list (already in the engine's deterministic order). -/
def RTree.children : RTree → List RTree
  | .node _ c => c

/-! ## `arrange_tree` (claim C9)

`arrange_tree` is trig-free; it is embedded over `ℚ` and fully
executable. -/

/-- One entry of the position dictionary, tagged with whether it was
produced by the leaf branch of `dfs` (`if not ch:`). -/
structure PosEntry where
  name : ℕ
  x : ℚ
  y : ℚ
  leaf : Bool
  deriving DecidableEq

mutual

/-- `arrange_tree.dfs`: a leaf takes the next horizontal slot
`(order * x_spacing, depth * y_spacing)`; an internal node is the mean of
its children's x at its own depth, appended after its subtree (Python dict
insertion order).  Returns (new order counter, own x, emitted entries). -/
def treeDfs (xs ys : ℚ) (depth order : ℕ) : RTree → ℕ × ℚ × List PosEntry
  | .node n ch =>
    match ch with
    | [] => (order + 1, (order : ℚ) * xs,
        [⟨n, (order : ℚ) * xs, (depth : ℚ) * ys, true⟩])
    | c :: cs =>
      let r := treeDfsList xs ys (depth + 1) order (c :: cs)
      let mx := r.2.1.sum / (r.2.1.length : ℚ)
      (r.1, mx, r.2.2 ++ [⟨n, mx, (depth : ℚ) * ys, false⟩])

/-- Left-to-right traversal of a child list, threading the slot counter and
collecting each child's x. -/
def treeDfsList (xs ys : ℚ) (depth : ℕ) (order : ℕ) :
    List RTree → ℕ × List ℚ × List PosEntry
  | [] => (order, [], [])
  | c :: cs =>
    let rc := treeDfs xs ys depth order c
    let rs := treeDfsList xs ys depth rc.1 cs
    (rs.1, rc.2.1 :: rs.2.1, rc.2.2 ++ rs.2.2)

end

/-- `min` over the nonempty position coordinate lists (`min(xs)` etc.). -/
def qmin : List ℚ → ℚ
  | [] => 0
  | a :: r => r.foldl min a

/-- `max` over the nonempty position coordinate lists. -/
def qmax : List ℚ → ℚ
  | [] => 0
  | a :: r => r.foldl max a

/-- The recenter-and-snap transform applied to every entry:
`self._snap(QPointF(center.x() + (x - cx), center.y() + (y - cy)))`. -/
def recenterSnap (ss : ℚ) (center : ℚ × ℚ) (cx cy : ℚ) (e : PosEntry) :
    PosEntry :=
  ⟨e.name, (snap ss (center.1 + (e.x - cx), center.2 + (e.y - cy))).1,
   (snap ss (center.1 + (e.x - cx), center.2 + (e.y - cy))).2, e.leaf⟩

/-- `arrange_tree`: run `dfs` from the root with
`x_spacing = TARGET_EDGE`, `y_spacing = TARGET_EDGE * 0.9`, then recenter
the bounding box (`cx = (min(xs)+max(xs))/2`, likewise `cy`) on the
viewport center and snap every position.  (The `else` branch for an empty
dict is dead: `dfs` always emits the root.) -/
def arrangeTree (targetEdge snapStep : ℚ) (center : ℚ × ℚ) (t : RTree) :
    List PosEntry :=
  if ((treeDfs targetEdge (targetEdge * (9/10)) 0 0 t).2.2).isEmpty then
    [⟨t.name, (snap snapStep center).1, (snap snapStep center).2, true⟩]
  else
    ((treeDfs targetEdge (targetEdge * (9/10)) 0 0 t).2.2).map
      (recenterSnap snapStep center
        ((qmin (((treeDfs targetEdge (targetEdge * (9/10)) 0 0 t).2.2).map
            PosEntry.x) +
          qmax (((treeDfs targetEdge (targetEdge * (9/10)) 0 0 t).2.2).map
            PosEntry.x)) / 2)
        ((qmin (((treeDfs targetEdge (targetEdge * (9/10)) 0 0 t).2.2).map
            PosEntry.y) +
          qmax (((treeDfs targetEdge (targetEdge * (9/10)) 0 0 t).2.2).map
            PosEntry.y)) / 2))

mutual

/-- Number of leaves of a tree (the number of slots `dfs` consumes). -/
def numLeaves : RTree → ℕ
  | .node _ [] => 1
  | .node _ (c :: cs) => numLeavesList (c :: cs)

/-- Number of leaves of a forest. -/
def numLeavesList : List RTree → ℕ
  | [] => 0
  | c :: cs => numLeaves c + numLeavesList cs

end

/-- The x coordinates of the leaf entries of a position list, in order. -/
def leafXs (l : List PosEntry) : List ℚ :=
  (l.filter fun e => e.leaf).map PosEntry.x

theorem leafXs_append (l1 l2 : List PosEntry) :
    leafXs (l1 ++ l2) = leafXs l1 ++ leafXs l2 := by
  simp [leafXs]

mutual

theorem treeDfs_leafXs (xs ys : ℚ) (depth order : ℕ) (t : RTree) :
    (treeDfs xs ys depth order t).1 = order + numLeaves t ∧
    leafXs (treeDfs xs ys depth order t).2.2 =
      (List.range (numLeaves t)).map fun i => ((order + i : ℕ) : ℚ) * xs := by
  cases t with
  | node n ch =>
    cases ch with
    | nil =>
        constructor
        · simp [treeDfs, numLeaves]
        · simp [treeDfs, numLeaves, leafXs, List.range_succ]
    | cons c cs =>
        obtain ⟨h1, h2⟩ := treeDfsList_leafXs xs ys (depth + 1) order (c :: cs)
        constructor
        · simpa [treeDfs, numLeaves] using h1
        · rw [show (treeDfs xs ys depth order (.node n (c :: cs))).2.2 =
              (treeDfsList xs ys (depth + 1) order (c :: cs)).2.2 ++
                [⟨n, (treeDfsList xs ys (depth + 1) order (c :: cs)).2.1.sum /
                  ((treeDfsList xs ys (depth + 1) order (c :: cs)).2.1.length : ℚ),
                  (depth : ℚ) * ys, false⟩] from rfl]
          rw [leafXs_append, h2]
          simp [leafXs, numLeaves]

theorem treeDfsList_leafXs (xs ys : ℚ) (depth order : ℕ) (l : List RTree) :
    (treeDfsList xs ys depth order l).1 = order + numLeavesList l ∧
    leafXs (treeDfsList xs ys depth order l).2.2 =
      (List.range (numLeavesList l)).map fun i => ((order + i : ℕ) : ℚ) * xs := by
  cases l with
  | nil => simp [treeDfsList, numLeavesList, leafXs]
  | cons c cs =>
      obtain ⟨hc1, hc2⟩ := treeDfs_leafXs xs ys depth order c
      obtain ⟨hs1, hs2⟩ := treeDfsList_leafXs xs ys depth
        (treeDfs xs ys depth order c).1 cs
      constructor
      · rw [show (treeDfsList xs ys depth order (c :: cs)).1 =
            (treeDfsList xs ys depth (treeDfs xs ys depth order c).1 cs).1
            from rfl]
        rw [hs1, hc1, numLeavesList]
        omega
      · rw [show (treeDfsList xs ys depth order (c :: cs)).2.2 =
            (treeDfs xs ys depth order c).2.2 ++
              (treeDfsList xs ys depth (treeDfs xs ys depth order c).1 cs).2.2
            from rfl]
        rw [leafXs_append, hc2, hs2, hc1]
        rw [show numLeavesList (c :: cs) = numLeaves c + numLeavesList cs
            from rfl]
        rw [List.range_add, List.map_append, List.map_map]
        congr 1
        apply List.map_congr_left
        intro i _
        simp only [Function.comp_apply]
        congr 2
        omega

end

theorem treeDfs_pos_ne_nil (xs ys : ℚ) (depth order : ℕ) (t : RTree) :
    (treeDfs xs ys depth order t).2.2 ≠ [] := by
  cases t with
  | node n ch =>
    cases ch with
    | nil => simp [treeDfs]
    | cons c cs => simp [treeDfs]

theorem chainLt_map_range (m : ℕ) (f : ℕ → ℚ) (hf : ∀ i, f i < f (i + 1)) :
    List.Chain' (· < ·) ((List.range m).map f) := by
  rw [List.chain'_iff_get]
  intro i hi
  simp only [List.get_eq_getElem, List.getElem_map, List.getElem_range]
  exact hf i

theorem leafXs_map_recenterSnap (ss : ℚ) (center : ℚ × ℚ) (cx cy : ℚ)
    (l : List PosEntry) :
    leafXs (l.map (recenterSnap ss center cx cy)) =
      (leafXs l).map fun x => ss * (pyround ((center.1 + (x - cx)) / ss) : ℚ) := by
  unfold leafXs
  rw [List.filter_map, List.map_map, List.map_map]
  rfl

theorem snapx_strict (ss : ℚ) (hss : 0 < ss) (c u v : ℚ) (h : u + ss < v) :
    ss * (pyround ((c + u) / ss) : ℚ) < ss * (pyround ((c + v) / ss) : ℚ) := by
  have hdiff : (c + v) / ss - ((c + u) / ss + 1) = (v - u - ss) / ss := by
    field_simp
    ring
  have hpos : (0 : ℚ) < (v - u - ss) / ss := div_pos (by linarith) hss
  have hlt : (c + u) / ss + 1 < (c + v) / ss := by linarith
  have hz := pyround_lt_of_gap ((c + u) / ss) ((c + v) / ss) hlt
  have hzq : ((pyround ((c + u) / ss) : ℤ) : ℚ) < ((pyround ((c + v) / ss) : ℤ) : ℚ) := by
    exact_mod_cast hz
  exact mul_lt_mul_of_pos_left hzq hss

/-- C9: in `arrange_tree`, the leaves — in depth-first traversal order with
the engine's deterministic child ordering — receive strictly increasing
final x coordinates.  The hypotheses `0 < snapStep < targetEdge` reflect
the engine configuration (`SNAP_STEP ∈ [10, 80]`,
`TARGET_EDGE ∈ [120, 320]`); with `snapStep = targetEdge` two adjacent
slots could snap onto one x because Python `round` is half-to-even. -/
theorem C9_tree_leaves_strictly_increasing (te ss : ℚ) (hss : 0 < ss)
    (hlt : ss < te) (center : ℚ × ℚ) (t : RTree) :
    List.Chain' (· < ·) (leafXs (arrangeTree te ss center t)) := by
  unfold arrangeTree
  rw [if_neg (by simpa [List.isEmpty_iff] using
    treeDfs_pos_ne_nil te (te * (9/10)) 0 0 t)]
  rw [leafXs_map_recenterSnap]
  rw [(treeDfs_leafXs te (te * (9/10)) 0 0 t).2]
  rw [List.map_map]
  apply chainLt_map_range
  intro i
  simp only [Function.comp_apply]
  apply snapx_strict ss hss
  push_cast
  linarith

/-- Witness for C9: the default configuration (`TARGET_EDGE = 180`,
`SNAP_STEP = 40`) on a three-node tree. -/
theorem C9_witness :
    (0 : ℚ) < 40 ∧ (40 : ℚ) < 180 ∧
    List.Chain' (· < ·) (leafXs (arrangeTree 180 40 (0, 0)
      (.node 0 [.node 1 [], .node 2 []]))) :=
  ⟨by norm_num, by norm_num,
    C9_tree_leaves_strictly_increasing 180 40 (by norm_num) (by norm_num)
      (0, 0) (.node 0 [.node 1 [], .node 2 []])⟩

/-! ## `arrange_radial` (claims C7, C8)

Embedded over `ℝ` (the code uses `sin`/`cos`/`asin`).  Configuration values
are the scene attributes read at the top of `arrange_radial`. -/

/-- Configuration of `arrange_radial`: `BASE_R = RADIAL_BASE_R`,
`RING = TARGET_EDGE`, `MIN_CHORD = avg_diagonal * 1.5 * MIN_CHORD_RATIO`,
`maxCone/pad` in radians, `STRETCH_STEP`,
`MAX_EXTRA_STRETCH = MAX_EXTRA_STRETCH * TARGET_EDGE`, and the snap step. -/
structure RadialCfg where
  baseR : ℝ
  ring : ℝ
  minChord : ℝ
  maxCone : ℝ
  pad : ℝ
  stretchStep : ℝ
  maxExtra : ℝ
  snapStep : ℝ

/-- `clamp_sector_to_cone`: intersect `[a0, a1]` with the cone
`[c - cw/2, c + cw/2]`; on a degenerate intersection fall back to the
quarter-width slice around the midpoint. -/
noncomputable def clampSectorToCone (a0 a1 c cw : ℝ) : ℝ × ℝ :=
  if min a1 (c + cw / 2) ≤ max a0 (c - cw / 2) then
    ((a0 + a1) / 2 - min cw (a1 - a0) * (1/4),
     (a0 + a1) / 2 + min cw (a1 - a0) * (1/4))
  else (max a0 (c - cw / 2), min a1 (c + cw / 2))

/-- The usable interval of `assign`: pad both ends; for non-root depths also
clamp to a cone of width `min(MAX_CONE_NONROOT, raw_a1 - raw_a0)` centered
on the direction `parent_dir` under which this node was placed. -/
noncomputable def useInterval (cfg : RadialCfg) (depth : ℕ) (a0 a1 pd : ℝ) :
    ℝ × ℝ :=
  if depth = 0 then (a0 + cfg.pad, a1 - cfg.pad)
  else clampSectorToCone (a0 + cfg.pad) (a1 - cfg.pad) pd
    (min cfg.maxCone ((a1 - cfg.pad) - (a0 + cfg.pad)))

/-- `step = usable_width / (m - 1)` with
`usable_width = max(0.0, use_a1 - use_a0)`. -/
noncomputable def childStep (u0 u1 : ℝ) (m : ℕ) : ℝ :=
  max 0 (u1 - u0) / ((m : ℝ) - 1)

/-- The evenly spaced child angles: `[use_a0 + i * step]` for `m ≥ 2`, the
interval midpoint for one child. -/
noncomputable def childAngles (u0 u1 : ℝ) (m : ℕ) : List ℝ :=
  if m = 1 then [(u0 + u1) / 2]
  else (List.range m).map fun i => u0 + i * childStep u0 u1 m

/-- `mids[i] = (angles[i] + angles[i+1]) / 2`. -/
noncomputable def midAt (u0 u1 : ℝ) (m i : ℕ) : ℝ :=
  ((u0 + i * childStep u0 u1 m) + (u0 + (i + 1) * childStep u0 u1 m)) / 2

/-- The sectors forwarded to the children: `(use_a0, use_a1)` for a single
child; otherwise `(use_a0, mids[0] - pad/2)`, the inner slices
`(mids[i] + pad/2, mids[i+1] - pad/2)`, and `(mids[m-2] + pad/2, use_a1)`. -/
noncomputable def boundaries (pad u0 u1 : ℝ) (m : ℕ) : List (ℝ × ℝ) :=
  if m = 1 then [(u0, u1)]
  else
    (u0, midAt u0 u1 m 0 - pad * (1/2)) ::
      ((List.range (m - 2)).map fun j =>
        (midAt u0 u1 m j + pad * (1/2), midAt u0 u1 m (j + 1) - pad * (1/2))) ++
      [(midAt u0 u1 m (m - 2) + pad * (1/2), u1)]

theorem childStep_nonneg (u0 u1 : ℝ) (m : ℕ) (hm : 2 ≤ m) :
    0 ≤ childStep u0 u1 m := by
  apply div_nonneg (le_max_left _ _)
  have : (2 : ℝ) ≤ (m : ℝ) := by exact_mod_cast hm
  linarith

theorem midAt_mono (u0 u1 : ℝ) (m : ℕ) (hm : 2 ≤ m) (i j : ℕ) (hij : i ≤ j) :
    midAt u0 u1 m i ≤ midAt u0 u1 m j := by
  have hs := childStep_nonneg u0 u1 m hm
  have hij' : (i : ℝ) ≤ (j : ℝ) := by exact_mod_cast hij
  unfold midAt
  nlinarith [mul_nonneg (sub_nonneg.mpr hij') hs]

/-- Any two distinct sectors in the boundaries list are separated:
the earlier one ends strictly before the later one starts. -/
theorem boundaries_pairwise (pad u0 u1 : ℝ) (hp : 0 < pad) (m : ℕ) :
    List.Pairwise (fun s1 s2 => s1.2 < s2.1) (boundaries pad u0 u1 m) := by
  by_cases hm : m = 1
  · simp [boundaries, hm]
  · rcases Nat.lt_or_ge m 2 with hm2 | hm2
    · have hm0 : m = 0 := by omega
      subst hm0
      unfold boundaries
      rw [if_neg hm]
      refine List.pairwise_cons.mpr ⟨?_, by simp⟩
      intro s hs
      simp at hs
      subst hs
      simp only
      linarith
    · unfold boundaries
      rw [if_neg hm]
      refine List.pairwise_cons.mpr ?_
      constructor
      · intro s hs
        rcases List.mem_append.mp hs with hmid | hlast
        · obtain ⟨j, _, rfl⟩ := List.mem_map.mp hmid
          have := midAt_mono u0 u1 m hm2 0 j (Nat.zero_le j)
          simp only
          linarith
        · rw [List.mem_singleton] at hlast
          subst hlast
          have := midAt_mono u0 u1 m hm2 0 (m - 2) (Nat.zero_le _)
          simp only
          linarith
      · refine List.pairwise_append.mpr ⟨?_, by simp, ?_⟩
        · rw [List.pairwise_map]
          have hr : List.Pairwise (· < ·) (List.range (m - 2)) :=
            List.pairwise_lt_range _
          refine hr.imp ?_
          intro i j hij
          have := midAt_mono u0 u1 m hm2 (i + 1) j (by omega)
          simp only
          linarith
        · intro s hsm s2 hs2
          obtain ⟨j, hj, rfl⟩ := List.mem_map.mp hsm
          rw [List.mem_singleton] at hs2
          subst hs2
          rw [List.mem_range] at hj
          have := midAt_mono u0 u1 m hm2 (j + 1) (m - 2) (by omega)
          simp only
          linarith

theorem clampSectorToCone_sub (r0 r1 c cw : ℝ) (hcw : 0 ≤ r1 - r0 → 0 ≤ cw)
    (h : (clampSectorToCone r0 r1 c cw).1 ≤ (clampSectorToCone r0 r1 c cw).2) :
    r0 ≤ (clampSectorToCone r0 r1 c cw).1 ∧
      (clampSectorToCone r0 r1 c cw).2 ≤ r1 := by
  unfold clampSectorToCone at h ⊢
  split_ifs at h ⊢ with hdeg
  · rcases le_or_lt r0 r1 with hr | hr
    · have h1 : min cw (r1 - r0) ≤ r1 - r0 := min_le_right _ _
      have h2 : (0:ℝ) ≤ min cw (r1 - r0) := le_min (hcw (by linarith)) (by linarith)
      exact ⟨by simp only; linarith, by simp only; linarith⟩
    · exfalso
      have h1 : min cw (r1 - r0) ≤ r1 - r0 := min_le_right _ _
      simp only at h
      linarith
  · exact ⟨le_max_left _ _, min_le_left _ _⟩

theorem useInterval_sub (cfg : RadialCfg) (hp : 0 < cfg.pad)
    (hcone : 0 ≤ cfg.maxCone) (depth : ℕ) (a0 a1 pd : ℝ)
    (hne : (useInterval cfg depth a0 a1 pd).1 ≤ (useInterval cfg depth a0 a1 pd).2) :
    a0 ≤ (useInterval cfg depth a0 a1 pd).1 ∧
      (useInterval cfg depth a0 a1 pd).2 ≤ a1 := by
  unfold useInterval at hne ⊢
  split_ifs at hne ⊢ with hd
  · exact ⟨by simp only; linarith, by simp only; linarith⟩
  · have key := clampSectorToCone_sub (a0 + cfg.pad) (a1 - cfg.pad) pd
      (min cfg.maxCone ((a1 - cfg.pad) - (a0 + cfg.pad)))
      (fun hge => le_min hcone hge) hne
    exact ⟨by linarith [key.1], by linarith [key.2]⟩

/-- A sector of the boundaries list, when nonempty, lies inside the usable
interval `[u0, u1]`. -/
theorem boundaries_within (pad u0 u1 : ℝ) (hp : 0 < pad) (m : ℕ)
    (hm1 : 1 ≤ m) (s : ℝ × ℝ) (hs : s ∈ boundaries pad u0 u1 m)
    (hne : s.1 ≤ s.2) : u0 ≤ s.1 ∧ s.2 ≤ u1 := by
  unfold boundaries at hs
  by_cases hm : m = 1
  · rw [if_pos hm] at hs
    simp at hs
    subst hs
    exact ⟨le_refl _, le_refl _⟩
  · rw [if_neg hm] at hs
    rcases Nat.lt_or_ge m 2 with hm2 | hm2
    · omega
    · have hs0 := childStep_nonneg u0 u1 m hm2
      have hmc : (2 : ℝ) ≤ (m : ℝ) := by exact_mod_cast hm2
      have hm1 : ((m : ℝ) - 1) ≠ 0 := by linarith
      have hsum : ((m : ℝ) - 1) * childStep u0 u1 m = max 0 (u1 - u0) := by
        unfold childStep
        field_simp
      have hmaxle : u1 - u0 ≤ max 0 (u1 - u0) := le_max_right _ _
      rcases List.mem_cons.mp hs with rfl | hs'
      · -- first sector (use_a0, mids[0] - pad/2)
        simp only at hne ⊢
        unfold midAt at hne ⊢
        have hstp : pad ≤ childStep u0 u1 m := by push_cast at hne; linarith
        have hpos : 0 < max 0 (u1 - u0) := by nlinarith
        have hu : 0 < u1 - u0 := by
          by_contra hcon
          push_neg at hcon
          rw [max_eq_left (by linarith)] at hpos
          linarith
        have hmax : max 0 (u1 - u0) = u1 - u0 := max_eq_right (le_of_lt hu)
        rw [hmax] at hsum
        constructor
        · exact le_refl _
        · push_cast
          nlinarith
      · rcases List.mem_append.mp hs' with hmid | hlast
        · obtain ⟨j, hj, rfl⟩ := List.mem_map.mp hmid
          rw [List.mem_range] at hj
          have hjc : (j : ℝ) ≤ (m : ℝ) - 3 := by
            have hj3 : j + 3 ≤ m := by omega
            have hj3' : ((j : ℝ) + 3) ≤ (m : ℝ) := by exact_mod_cast hj3
            linarith
          have hj0 : (0 : ℝ) ≤ (j : ℝ) := Nat.cast_nonneg j
          simp only at hne ⊢
          unfold midAt at hne ⊢
          have hstp : pad ≤ childStep u0 u1 m := by push_cast at hne; linarith
          have hpos : 0 < max 0 (u1 - u0) := by nlinarith
          have hu : 0 < u1 - u0 := by
            by_contra hcon
            push_neg at hcon
            rw [max_eq_left (by linarith)] at hpos
            linarith
          have hmax : max 0 (u1 - u0) = u1 - u0 := max_eq_right (le_of_lt hu)
          rw [hmax] at hsum
          constructor
          · push_cast
            nlinarith
          · push_cast
            nlinarith
        · rw [List.mem_singleton] at hlast
          subst hlast
          simp only at hne ⊢
          have hcast : ((m - 2 : ℕ) : ℝ) = (m : ℝ) - 2 := by
            push_cast [Nat.cast_sub hm2]
            ring
          unfold midAt at hne ⊢
          rw [hcast] at hne ⊢
          constructor
          · nlinarith
          · exact le_refl _

mutual

/-- One record per internal node of the spanning tree: the sector the node
received, paired with the sectors `assign` forwards to its children.  The
ring-radius bookkeeping of `assign` (stretch/spill) never feeds back into
the angular quantities — `use_a0/use_a1`, `angles`, `mids`, `boundaries`
depend only on the received sector, the depth, and `parent_dir` — so it is
carried separately by `radialAssign` below. -/
noncomputable def sectorRecords (cfg : RadialCfg) :
    RTree → ℕ → ℝ → ℝ → ℝ → List ((ℝ × ℝ) × List (ℝ × ℝ))
  | .node _ ch, depth, a0, a1, pd =>
    match ch with
    | [] => []
    | c :: cs =>
      ((a0, a1), boundaries cfg.pad
          (useInterval cfg depth a0 a1 pd).1
          (useInterval cfg depth a0 a1 pd).2 (c :: cs).length) ::
        sectorRecordsList cfg (c :: cs)
          (childAngles (useInterval cfg depth a0 a1 pd).1
            (useInterval cfg depth a0 a1 pd).2 (c :: cs).length)
          (boundaries cfg.pad (useInterval cfg depth a0 a1 pd).1
            (useInterval cfg depth a0 a1 pd).2 (c :: cs).length)
          (depth + 1)

/-- Recurse into each child with its forwarded sector and its own placement
angle as the new `parent_dir`. -/
noncomputable def sectorRecordsList (cfg : RadialCfg) :
    List RTree → List ℝ → List (ℝ × ℝ) → ℕ → List ((ℝ × ℝ) × List (ℝ × ℝ))
  | [], _, _, _ => []
  | c :: cs, angs, bs, depth =>
    sectorRecords cfg c depth (bs.headD (0, 0)).1 (bs.headD (0, 0)).2
        (angs.headD 0) ++
      sectorRecordsList cfg cs angs.tail bs.tail depth

end

mutual

theorem sectorRecords_ok (cfg : RadialCfg) (hp : 0 < cfg.pad)
    (hcone : 0 ≤ cfg.maxCone) (t : RTree) (depth : ℕ) (a0 a1 pd : ℝ) :
    ∀ rec ∈ sectorRecords cfg t depth a0 a1 pd,
      List.Pairwise (fun s1 s2 =>
        Disjoint (Set.Icc s1.1 s1.2) (Set.Icc s2.1 s2.2)) rec.2 ∧
      ∀ s ∈ rec.2, Set.Icc s.1 s.2 ⊆ Set.Icc rec.1.1 rec.1.2 := by
  cases t with
  | node n ch =>
    cases ch with
    | nil => intro rec hrec; simp [sectorRecords] at hrec
    | cons c cs =>
      intro rec hrec
      rw [show sectorRecords cfg (.node n (c :: cs)) depth a0 a1 pd =
        ((a0, a1), boundaries cfg.pad
            (useInterval cfg depth a0 a1 pd).1
            (useInterval cfg depth a0 a1 pd).2 (c :: cs).length) ::
          sectorRecordsList cfg (c :: cs)
            (childAngles (useInterval cfg depth a0 a1 pd).1
              (useInterval cfg depth a0 a1 pd).2 (c :: cs).length)
            (boundaries cfg.pad (useInterval cfg depth a0 a1 pd).1
              (useInterval cfg depth a0 a1 pd).2 (c :: cs).length)
            (depth + 1) from rfl] at hrec
      rcases List.mem_cons.mp hrec with rfl | htail
      · constructor
        · exact (boundaries_pairwise cfg.pad _ _ hp _).imp
            (fun hlt => Set.disjoint_left.mpr
              (fun x hx1 hx2 => absurd (lt_of_le_of_lt hx1.2
                (lt_of_lt_of_le hlt hx2.1)) (lt_irrefl x)))
        · intro s hsmem x hx
          have hne : s.1 ≤ s.2 := le_trans hx.1 hx.2
          obtain ⟨h1, h2⟩ := boundaries_within cfg.pad _ _ hp _
            (by simp) s hsmem hne
          have huse : (useInterval cfg depth a0 a1 pd).1 ≤
              (useInterval cfg depth a0 a1 pd).2 := by linarith
          obtain ⟨h3, h4⟩ := useInterval_sub cfg hp hcone depth a0 a1 pd huse
          exact Set.mem_Icc.mpr ⟨by linarith [hx.1], by linarith [hx.2]⟩
      · exact sectorRecordsList_ok cfg hp hcone (c :: cs) _ _ (depth + 1)
          rec htail

theorem sectorRecordsList_ok (cfg : RadialCfg) (hp : 0 < cfg.pad)
    (hcone : 0 ≤ cfg.maxCone) (l : List RTree) (angs : List ℝ)
    (bs : List (ℝ × ℝ)) (depth : ℕ) :
    ∀ rec ∈ sectorRecordsList cfg l angs bs depth,
      List.Pairwise (fun s1 s2 =>
        Disjoint (Set.Icc s1.1 s1.2) (Set.Icc s2.1 s2.2)) rec.2 ∧
      ∀ s ∈ rec.2, Set.Icc s.1 s.2 ⊆ Set.Icc rec.1.1 rec.1.2 := by
  cases l with
  | nil => intro rec hrec; simp [sectorRecordsList] at hrec
  | cons c cs =>
      intro rec hrec
      rw [show sectorRecordsList cfg (c :: cs) angs bs depth =
        sectorRecords cfg c depth (bs.headD (0, 0)).1 (bs.headD (0, 0)).2
            (angs.headD 0) ++
          sectorRecordsList cfg cs angs.tail bs.tail depth from rfl] at hrec
      rcases List.mem_append.mp hrec with hh | ht
      · exact sectorRecords_ok cfg hp hcone c depth _ _ _ rec hh
      · exact sectorRecordsList_ok cfg hp hcone cs angs.tail bs.tail depth
          rec ht

end

/-- C7: for every tree laid out by `arrange_radial` (root sector
`[0, 2π)`, root direction `0`), at every node the sectors forwarded to its
children are pairwise disjoint, and each child's forwarded sector is
contained in the sector its parent received (the root's own full-circle
sector is not compared to anything, having no parent).  The hypotheses are
the configuration ranges `RADIAL_PAD_ARC ∈ [2°, 24°]` and
`RADIAL_MAX_CONE ∈ [60°, 200°]`. -/
theorem C7_radial_sectors_nested_disjoint (cfg : RadialCfg)
    (hp : 0 < cfg.pad) (hcone : 0 ≤ cfg.maxCone) (t : RTree) :
    ∀ rec ∈ sectorRecords cfg t 0 0 (2 * Real.pi) 0,
      List.Pairwise (fun s1 s2 =>
        Disjoint (Set.Icc s1.1 s1.2) (Set.Icc s2.1 s2.2)) rec.2 ∧
      ∀ s ∈ rec.2, Set.Icc s.1 s.2 ⊆ Set.Icc rec.1.1 rec.1.2 :=
  sectorRecords_ok cfg hp hcone t 0 0 (2 * Real.pi) 0

/-- Witness for C7: the default configuration (pad 6°, cone 120°) on a
two-child root. -/
theorem C7_witness :
    (0 : ℝ) < Real.pi / 30 ∧ (0 : ℝ) ≤ 2 * Real.pi / 3 ∧
    ∀ rec ∈ sectorRecords
      ⟨80, 180, 216, 2 * Real.pi / 3, Real.pi / 30, 40, 540, 40⟩
      (.node 0 [.node 1 [], .node 2 []]) 0 0 (2 * Real.pi) 0,
      List.Pairwise (fun s1 s2 =>
        Disjoint (Set.Icc s1.1 s1.2) (Set.Icc s2.1 s2.2)) rec.2 ∧
      ∀ s ∈ rec.2, Set.Icc s.1 s.2 ⊆ Set.Icc rec.1.1 rec.1.2 :=
  ⟨by positivity, by positivity,
    C7_radial_sectors_nested_disjoint _ (by positivity) (by positivity) _⟩

/-- Python `int()` truncation toward zero. -/
noncomputable def pytrunc (x : ℝ) : ℤ :=
  if 0 ≤ x then ⌊x⌋ else -⌊-x⌋

/-- `delta_required(rad)`: minimum angular step between children at radius
`rad`, `2 * asin(min(0.999999, max(0.0, MIN_CHORD / max(1e-6, 2*rad))))`. -/
noncomputable def deltaRequired (cfg : RadialCfg) (rad : ℝ) : ℝ :=
  2 * Real.arcsin (min (999999 / 1000000)
    (max 0 (cfg.minChord / max (1 / 1000000) (2 * rad))))

/-- Angular capacity of one ring: `int(usable_width / delta_required(r)) + 1`.
(When `delta_required` is `0` — only possible for a non-positive
`MIN_CHORD`, where Python would raise `ZeroDivisionError` — the Lean
division returns the junk value `0`.) -/
noncomputable def capAt (cfg : RadialCfg) (uw r : ℝ) : ℤ :=
  pytrunc (uw / deltaRequired cfg r) + 1

/-- Fuel that dominates the stretch-loop iteration count: each iteration
adds `STRETCH_STEP` to `extra` and the loop stops once
`extra ≥ MAX_EXTRA_STRETCH`. -/
noncomputable def stretchFuel (cfg : RadialCfg) : ℕ :=
  (⌈cfg.maxExtra / cfg.stretchStep⌉ + 1).toNat + 1

/-- The ring-stretch loop:
`while cap < target and extra < MAX_EXTRA_STRETCH: extra += STRETCH_STEP;
cap = int(uw / delta_required(rbase + extra)) + 1`.  Returns the final
`(extra, cap)`. -/
noncomputable def stretchLoop (cfg : RadialCfg) (uw rbase : ℝ) (target : ℤ) :
    ℕ → ℝ → ℤ → ℝ × ℤ
  | 0, extra, cap => (extra, cap)
  | fuel + 1, extra, cap =>
    if cap < target ∧ extra < cfg.maxExtra then
      stretchLoop cfg uw rbase target fuel (extra + cfg.stretchStep)
        (capAt cfg uw (rbase + (extra + cfg.stretchStep)))
    else (extra, cap)

/-- The multi-ring spill loop (`while total < m and len(ring_radii) <
MAX_RINGS_PER_LEVEL`): greedily fill each ring to its capacity (with the
`cap < 2 and m - total > 1` floor of 2), then open the next ring one
`RING` further out.  Returns `(ring_radii, counts, total)`. -/
noncomputable def spillLoop (cfg : RadialCfg) (uw : ℝ) (m : ℕ) :
    ℕ → List ℝ → List ℤ → ℤ → List ℝ × List ℤ × ℤ
  | 0, rr, counts, total => (rr, counts, total)
  | fuel + 1, rr, counts, total =>
    if total < (m : ℤ) ∧ rr.length < 4 then
      if total + min (if capAt cfg uw (rr.getLastD 0) < 2 ∧
            1 < (m : ℤ) - total then 2 else capAt cfg uw (rr.getLastD 0))
          ((m : ℤ) - total) < (m : ℤ) then
        spillLoop cfg uw m fuel (rr ++ [rr.getLastD 0 + cfg.ring])
          (counts ++ [min (if capAt cfg uw (rr.getLastD 0) < 2 ∧
            1 < (m : ℤ) - total then 2 else capAt cfg uw (rr.getLastD 0))
            ((m : ℤ) - total)])
          (total + min (if capAt cfg uw (rr.getLastD 0) < 2 ∧
            1 < (m : ℤ) - total then 2 else capAt cfg uw (rr.getLastD 0))
            ((m : ℤ) - total))
      else
        spillLoop cfg uw m fuel rr
          (counts ++ [min (if capAt cfg uw (rr.getLastD 0) < 2 ∧
            1 < (m : ℤ) - total then 2 else capAt cfg uw (rr.getLastD 0))
            ((m : ℤ) - total)])
          (total + min (if capAt cfg uw (rr.getLastD 0) < 2 ∧
            1 < (m : ℤ) - total then 2 else capAt cfg uw (rr.getLastD 0))
            ((m : ℤ) - total))
    else (rr, counts, total)

/-- `r_base = max(r_parent + RING, BASE_R + RING * (depth + 1))`. -/
noncomputable def rBaseOf (cfg : RadialCfg) (rParent : ℝ) (depth : ℕ) : ℝ :=
  max (rParent + cfg.ring) (cfg.baseR + cfg.ring * ((depth : ℝ) + 1))

/-- The full ring plan of `assign` for `m` children at starting radius
`rbase`: one ring when everything fits (stretching it outward within
`MAX_EXTRA_STRETCH` if needed), otherwise spill over up to 4 rings and
place the remainder on the last ring, stretching it further if required.
Returns `(ring_radii, counts)`. -/
noncomputable def ringPlan (cfg : RadialCfg) (uw rbase : ℝ) (m : ℕ) :
    List ℝ × List ℤ :=
  if m = 1 then ([rbase], [1])
  else
    if (m : ℤ) ≤ capAt cfg uw rbase then ([rbase], [(m : ℤ)])
    else
      if (m : ℤ) ≤ (stretchLoop cfg uw rbase (m : ℤ) (stretchFuel cfg) 0
          (capAt cfg uw rbase)).2 then
        ([rbase + (stretchLoop cfg uw rbase (m : ℤ) (stretchFuel cfg) 0
          (capAt cfg uw rbase)).1], [(m : ℤ)])
      else
        if (spillLoop cfg uw m (m + 4) [rbase] [] 0).2.2 < (m : ℤ) then
          ((spillLoop cfg uw m (m + 4) [rbase] [] 0).1.dropLast ++
            [(spillLoop cfg uw m (m + 4) [rbase] [] 0).1.getLastD 0 +
              (stretchLoop cfg uw
                ((spillLoop cfg uw m (m + 4) [rbase] [] 0).1.getLastD 0)
                ((m : ℤ) - (spillLoop cfg uw m (m + 4) [rbase] [] 0).2.2)
                (stretchFuel cfg) 0
                (capAt cfg uw
                  ((spillLoop cfg uw m (m + 4) [rbase] [] 0).1.getLastD 0))).1],
           (spillLoop cfg uw m (m + 4) [rbase] [] 0).2.1 ++
            [(m : ℤ) - (spillLoop cfg uw m (m + 4) [rbase] [] 0).2.2])
        else
          ((spillLoop cfg uw m (m + 4) [rbase] [] 0).1,
           (spillLoop cfg uw m (m + 4) [rbase] [] 0).2.1)

/-- `ring_of_idx`: ring index of each child, `counts` expanded in order. -/
def ringOfIdx (counts : List ℤ) : List ℕ :=
  (List.range counts.length).flatMap fun ri =>
    List.replicate (counts.getD ri 0).toNat ri

/-- Radius assigned to each child: `ring_radii[ring_of_idx[idx]]`. -/
noncomputable def childRadii (cfg : RadialCfg) (uw rbase : ℝ) (m : ℕ) :
    List ℝ :=
  (ringOfIdx (ringPlan cfg uw rbase m).2).map fun ri =>
    (ringPlan cfg uw rbase m).1.getD ri 0

mutual

/-- The position-producing part of `assign`: place every child of `n` at
`center + r_child * (cos ang, sin ang)` (snapped), then recurse into each
child with its forwarded sector, its own angle as `parent_dir`, and its
ring radius as `r_parent`.  A childless node emits nothing. -/
noncomputable def radialAssign (cfg : RadialCfg) (center : ℝ × ℝ) :
    RTree → ℕ → ℝ → ℝ → ℝ → ℝ → List (ℕ × ℝ × ℝ)
  | .node _ ch, depth, a0, a1, pd, rp =>
    match ch with
    | [] => []
    | c :: cs =>
      radialAssignList cfg center (c :: cs)
        (childAngles (useInterval cfg depth a0 a1 pd).1
          (useInterval cfg depth a0 a1 pd).2 (c :: cs).length)
        (boundaries cfg.pad (useInterval cfg depth a0 a1 pd).1
          (useInterval cfg depth a0 a1 pd).2 (c :: cs).length)
        (childRadii cfg
          (max 0 ((useInterval cfg depth a0 a1 pd).2 -
            (useInterval cfg depth a0 a1 pd).1))
          (rBaseOf cfg rp depth) (c :: cs).length)
        (depth + 1)

/-- Child loop of `assign`: positions first child, recurses, continues. -/
noncomputable def radialAssignList (cfg : RadialCfg) (center : ℝ × ℝ) :
    List RTree → List ℝ → List (ℝ × ℝ) → List ℝ → ℕ → List (ℕ × ℝ × ℝ)
  | [], _, _, _, _ => []
  | c :: cs, angs, bs, rcs, depth =>
    (c.name,
      snap cfg.snapStep
        (center.1 + rcs.headD 0 * Real.cos (angs.headD 0),
         center.2 + rcs.headD 0 * Real.sin (angs.headD 0))) ::
      (radialAssign cfg center c depth (bs.headD (0, 0)).1 (bs.headD (0, 0)).2
        (angs.headD 0) (rcs.headD 0) ++
       radialAssignList cfg center cs angs.tail bs.tail rcs.tail depth)

end

/-- `arrange_radial`: the root is pinned to the snapped viewport center
(`self._set_node_pos(root, self._snap(center))`), then `assign(root, 0,
0.0, twopi, 0.0)` lays out the rest (root `parent_dir` is
`angle_of = {root: 0.0}`). -/
noncomputable def radialPositions (cfg : RadialCfg) (center : ℝ × ℝ)
    (t : RTree) : List (ℕ × ℝ × ℝ) :=
  (t.name, snap cfg.snapStep center) ::
    radialAssign cfg center t 0 0 (2 * Real.pi) 0 0

/-- C8 as stated is false: the root's position is the *snapped* anchor, not
the anchor itself.  With anchor `(50, 10)` and the default
`SNAP_STEP = 40`, the single output entry is `(40, 0) ≠ (50, 10)`. -/
theorem C8_counterexample :
    radialPositions ⟨80, 180, 216, 2 * Real.pi / 3, Real.pi / 30, 40, 540, 40⟩
      (50, 10) (.node 0 []) = [(0, 40, 0)] ∧
    ((40 : ℝ), (0 : ℝ)) ≠ ((50 : ℝ), (10 : ℝ)) := by
  constructor
  · have h1 : pyround ((50 : ℝ) / 40) = 1 :=
      pyround_eq_of_mem _ 1 (by norm_num) (by norm_num)
    have h2 : pyround ((10 : ℝ) / 40) = 0 :=
      pyround_eq_of_mem _ 0 (by norm_num) (by norm_num)
    simp [radialPositions, radialAssign, RTree.name, snap, h1, h2]
  · intro h
    have := congrArg Prod.fst h
    norm_num at this

/-- C8 (amended): `layout_radial` on a root with zero children emits
exactly one position — the root's — equal to the supplied anchor *snapped
to the configured grid step*. -/
theorem C8_root_only_snapped (cfg : RadialCfg) (center : ℝ × ℝ) (t : RTree)
    (h : t.children = []) :
    radialPositions cfg center t = [(t.name, snap cfg.snapStep center)] := by
  cases t with
  | node n ch =>
    cases ch with
    | nil => simp [radialPositions, radialAssign]
    | cons c cs => simp [RTree.children] at h

/-- Witness for C8 (amended): the default configuration, a bare root. -/
theorem C8_witness :
    (RTree.node 5 [] : RTree).children = [] ∧
    radialPositions ⟨80, 180, 216, 2 * Real.pi / 3, Real.pi / 30, 40, 540, 40⟩
      (100, 100) (.node 5 []) =
      [((RTree.node 5 [] : RTree).name,
        snap (40 : ℝ) (100, 100))] :=
  ⟨rfl, C8_root_only_snapped _ (100, 100) (.node 5 []) rfl⟩

/-! ## `_find_free_slot` (claims C1, C4, C5, C6)

The slot search of `add_node_smart_from_selection`.  All engine call sites
invoke it with the default parameters (`base_radius=160.0, ring=160.0,
min_chord=None, pad_deg=8.0, global_min_dist=140.0, max_rings=6`), so the
model fixes them: the `base_radius <= 0` / `ring <= 0` guards are dead and
the `min_chord` is the computed one.  `hash(...)` on a tuple containing the
node-name string is salted per process (`PYTHONHASHSEED`); the two jitter
hashes are therefore environment inputs, masked to `[0, 1023]` like
`hash(...) & 1023`. -/

/-- Python float `%`: `a - m * floor(a / m)` (result has the divisor's
sign). -/
noncomputable def fmod (a m : ℝ) : ℝ := a - m * ⌊a / m⌋

/-- `_angle_normalize`: `a % (2π)`, then add `2π` if negative (for a
positive divisor the Python `%` is already nonnegative, so the second step
is dead). -/
noncomputable def normAngle (a : ℝ) : ℝ :=
  if fmod a (2 * Real.pi) < 0 then fmod a (2 * Real.pi) + 2 * Real.pi
  else fmod a (2 * Real.pi)

/-- `math.atan2`. -/
noncomputable def atan2 (y x : ℝ) : ℝ :=
  if 0 < x then Real.arctan (y / x)
  else if x < 0 then
    (if 0 ≤ y then Real.arctan (y / x) + Real.pi
     else Real.arctan (y / x) - Real.pi)
  else if 0 < y then Real.pi / 2
  else if y < 0 then -(Real.pi / 2)
  else 0

/-- `_angle_between(p_center, p)`. -/
noncomputable def angleBetween (c p : ℝ × ℝ) : ℝ :=
  normAngle (atan2 (p.2 - c.2) (p.1 - c.1))

/-- Ascending insertion sort over `ℝ` (`sorted(angles)`); the accumulator
is processed left to right, keeping equal elements in encounter order. -/
noncomputable def insAsc (x : ℝ) : List ℝ → List ℝ
  | [] => [x]
  | y :: ys => if y ≤ x then y :: insAsc x ys else x :: y :: ys

/-- `sorted` on a list of angles. -/
noncomputable def sortAsc (l : List ℝ) : List ℝ :=
  l.foldl (fun acc x => insAsc x acc) []

/-- Stable descending insertion by gap size
(`gaps.sort(key=lambda x: x[0], reverse=True)`): an element goes after
every earlier element with a gap at least as large. -/
noncomputable def insDesc (x : ℝ × ℝ) : List (ℝ × ℝ) → List (ℝ × ℝ)
  | [] => [x]
  | y :: ys => if x.1 ≤ y.1 then y :: insDesc x ys else x :: y :: ys

/-- Stable descending sort by gap size. -/
noncomputable def sortGapsDesc (l : List (ℝ × ℝ)) : List (ℝ × ℝ) :=
  l.foldl (fun acc x => insDesc x acc) []

/-- The golden angle, `math.radians(137.50776405003785)`. -/
noncomputable def goldenAngle : ℝ :=
  (13750776405003785 / 100000000000000) * Real.pi / 180

/-- `pad = math.radians(max(2.0, pad_deg))` with the default
`pad_deg = 8.0`. -/
noncomputable def slotPad : ℝ := max 2 8 * Real.pi / 180

/-- Environment of one `_find_free_slot` call: the anchor, the graph
neighborhood, node positions, tree levels, the `last_child_angle` hint,
the size statistics (Qt bounding boxes, external), the spatial index, and
the per-process jitter hashes. -/
structure SlotEnv where
  anchorName : ℕ
  anchorPos : ℝ × ℝ
  nodes : ℕ → Option (ℝ × ℝ)
  adj : List ℕ
  level : ℕ → ℕ
  lastChildAngle : Option ℝ
  avgDiag : ℝ
  minChordRatio : ℝ
  snapStep : ℝ
  spatial : SpatialHash ℝ
  hash1 : ℝ → ℝ → ℕ
  hash2 : ℝ → ℝ → ℕ

/-- `_neighbors_angles`: sorted angles of the anchor's graph-neighbors that
are present in the node table. -/
noncomputable def slotAngles (env : SlotEnv) : List ℝ :=
  sortAsc (env.adj.filterMap fun nb =>
    (env.nodes nb).map fun q => angleBetween env.anchorPos q)

/-- The preferred direction: from the first graph-neighbor at a strictly
shallower level (the "parent") to the anchor, default `0.0`; overridden to
`last_child_angle + golden` when the hint is present. -/
noncomputable def slotPref (env : SlotEnv) : ℝ :=
  match env.lastChildAngle with
  | some la => la + goldenAngle
  | none =>
    match env.adj.find? fun nb =>
        decide (env.level nb < env.level env.anchorName) with
    | some p =>
      match env.nodes p with
      | some q => angleBetween q env.anchorPos
      | none => 0
    | none => 0

/-- The circular gaps between consecutive neighbor angles, each paired with
its start angle; the last entry wraps around through `2π`. -/
noncomputable def gapsOf (l : List ℝ) : List (ℝ × ℝ) :=
  (List.range l.length).map fun i =>
    (if i < l.length - 1 then l.getD (i + 1) 0 - l.getD i 0
     else l.getD 0 0 + 2 * Real.pi - l.getD i 0, l.getD i 0)

/-- The selected sector `(a0, width)` and its center angle: the half-plane
around the preferred direction when the anchor has no neighbors, otherwise
the largest circular gap (first under the stable descending sort), shrunk
by the padding (width floored at `1e-3`). -/
noncomputable def slotSectorCenter (env : SlotEnv) : (ℝ × ℝ) × ℝ :=
  if slotAngles env = [] then
    ((normAngle (slotPref env - Real.pi / 2 + slotPad),
      fmod (normAngle (slotPref env + Real.pi / 2 - slotPad) -
        normAngle (slotPref env - Real.pi / 2 + slotPad)) (2 * Real.pi)),
     normAngle (slotPref env))
  else
    ((fmod (((sortGapsDesc (gapsOf (slotAngles env))).headD (0, 0)).2 +
        slotPad) (2 * Real.pi),
      max (1 / 1000)
        (((sortGapsDesc (gapsOf (slotAngles env))).headD (0, 0)).1 -
          2 * slotPad)),
     normAngle (((sortGapsDesc (gapsOf (slotAngles env))).headD (0, 0)).2 +
       ((sortGapsDesc (gapsOf (slotAngles env))).headD (0, 0)).1 / 2))

/-- `min_chord` as computed for `min_chord=None`:
`max(80.0, avg_diag * 1.2 * MIN_CHORD_RATIO)`. -/
noncomputable def slotMinChord (env : SlotEnv) : ℝ :=
  max 80 (env.avgDiag * (12 / 10) * env.minChordRatio)

/-- `_need_radius(width, chord) = (chord * 0.5) / sin(max(1e-6, width)/2)`;
the `float('inf')` branch for a vanishing sine (dead for every sector the
code builds, whose width lies in `[1e-3, 2π - 2·pad]`) is modelled by the
junk value `0`. -/
noncomputable def needRadius (width chord : ℝ) : ℝ :=
  if 1 / 1000000 < Real.sin (max (1 / 1000000) width / 2) then
    chord * (1 / 2) / Real.sin (max (1 / 1000000) width / 2)
  else 0

/-- The first search radius: `max(base_radius, need_r)` rounded up to
`base_radius` plus a whole number of ring steps (defaults
`base_radius = ring = 160`). -/
noncomputable def slotR0 (env : SlotEnv) : ℝ :=
  if 160 < max 160 (needRadius (slotSectorCenter env).1.2 (slotMinChord env))
  then 160 + (⌈(max 160 (needRadius (slotSectorCenter env).1.2
      (slotMinChord env)) - 160) / 160⌉ : ℤ) * 160
  else max 160 (needRadius (slotSectorCenter env).1.2 (slotMinChord env))

/-- `cone_deg = max(60.0, 120.0 - 10.0 * len(angles))`. -/
noncomputable def slotConeDeg (env : SlotEnv) : ℝ :=
  max 60 (120 - 10 * (slotAngles env).length)

/-- `in_sector(x)`: inside the selected circular sector, and within
`cone_deg` degrees of the preferred direction (`delta` is the wrapped
angular distance). -/
noncomputable def slotInSector (env : SlotEnv) (x : ℝ) : Prop :=
  (if 2 * Real.pi - 1 / 1000 ≤ (slotSectorCenter env).1.2 then True
   else if fmod ((slotSectorCenter env).1.1 + (slotSectorCenter env).1.2)
       (2 * Real.pi) < (slotSectorCenter env).1.1 then
     (slotSectorCenter env).1.1 ≤ x ∨
       x ≤ fmod ((slotSectorCenter env).1.1 + (slotSectorCenter env).1.2)
         (2 * Real.pi)
   else (slotSectorCenter env).1.1 ≤ x ∧
     x ≤ fmod ((slotSectorCenter env).1.1 + (slotSectorCenter env).1.2)
       (2 * Real.pi)) ∧
  |fmod (normAngle (x - slotPref env) + Real.pi) (2 * Real.pi) - Real.pi| ≤
    slotConeDeg env * Real.pi / 180

/-- `angle_candidates`: the sector center first, then symmetric ±10° steps
out to `min(170°, half the sector width)` (floored at 10°, with the
`1e-9` slack).  Since the limit never exceeds 170°, seventeen steps bound
the Python `while` loop, and the step predicate is monotone in `k`, so the
`filter` agrees with it. -/
noncomputable def slotLimit (env : SlotEnv) : ℝ :=
  max 10 (min 170 ((slotSectorCenter env).1.2 * 180 / Real.pi * (1 / 2))) *
    Real.pi / 180

/-- The step counts `k` the Python `while` loop yields. -/
noncomputable def slotKs (env : SlotEnv) : List ℕ :=
  ((List.range 17).map fun k => k + 1).filter fun k =>
    decide ((k : ℝ) * (Real.pi / 18) ≤ slotLimit env + 1 / 1000000000)

noncomputable def slotCands (env : SlotEnv) : List ℝ :=
  (slotSectorCenter env).2 :: (slotKs env).flatMap fun k =>
    [normAngle ((slotSectorCenter env).2 + (k : ℝ) * (Real.pi / 18)),
     normAngle ((slotSectorCenter env).2 - (k : ℝ) * (Real.pi / 18))]

/-- `_node_radius_px`: half the bounding-box diagonal plus a 10-unit
buffer; for an unknown/absent name, half of `max(120, average size)` plus
the buffer.  (`nodeDiag` is the external Qt bounding-box diagonal; the
model stores it per node via `nodes`' positions being present.) -/
noncomputable def nodeRadiusPx (env : SlotEnv) (nodeDiag : ℕ → ℝ) :
    Option ℕ → ℝ
  | some nm =>
    if (env.nodes nm).isSome then nodeDiag nm * (1 / 2) + 10
    else max 120 env.avgDiag * (1 / 2) + 10
  | none => max 120 env.avgDiag * (1 / 2) + 10

/-- `_is_pos_free(p, min_dist)`: no spatial-index hit (that still exists in
the node table) sits closer to `p` than the sum of its cached radius
(falling back to its estimated radius) and the new node's radius
`r_new = max(min_dist * 0.5, _node_radius_px(None))`. -/
noncomputable def isPosFree (env : SlotEnv) (nodeDiag : ℕ → ℝ) (p : ℝ × ℝ)
    (minDist : ℝ) : Prop :=
  ∀ nm ∈ env.spatial.neighbors p.1 p.2
      (max (minDist * (1 / 2)) (nodeRadiusPx env nodeDiag none)),
    ∀ q : ℝ × ℝ, env.nodes nm = some q →
      ¬ (Real.sqrt ((q.1 - p.1) ^ 2 + (q.2 - p.2) ^ 2) <
        (env.spatial.radius nm).getD (nodeRadiusPx env nodeDiag (some nm)) +
          max (minDist * (1 / 2)) (nodeRadiusPx env nodeDiag none))

/-- The jitter amplitude: `0` on the first ring, else
`min(8.0, ring * 0.02)` (ring step 160 → `3.2`). -/
noncomputable def jitterAmp (ringI : ℕ) : ℝ :=
  if ringI = 0 then 0 else min 8 (160 * (2 / 100))

/-- The candidate point the code tests: anchor + `r`·(cos, sin) plus the
hash-derived jitter, snapped to the grid. -/
noncomputable def candPoint (env : SlotEnv) (ringI : ℕ) (ang r : ℝ) :
    ℝ × ℝ :=
  snap env.snapStep
    (env.anchorPos.1 + r * Real.cos ang +
      jitterAmp ringI * (1 / 2 - ((env.hash1 ang r % 1024 : ℕ) : ℝ) / 1023),
     env.anchorPos.2 + r * Real.sin ang +
      jitterAmp ringI * (1 / 2 - ((env.hash2 ang r % 1024 : ℕ) : ℝ) / 1023))

/-- Outcome of the ring/angle search: either the first accepted candidate
(with its ring index and the tested snapped point) or the exhausted-search
fallback. -/
inductive SlotResult where
  | accepted (ringI : ℕ) (ang r px py : ℝ)
  | fallback (ang r : ℝ)

open Classical in
/-- The inner candidate loop of one ring: skip candidates outside the
sector/cone, accept the first whose tested point is free. -/
noncomputable def tryAngles (env : SlotEnv) (nodeDiag : ℕ → ℝ) (ringI : ℕ)
    (r : ℝ) : List ℝ → Option (ℝ × ℝ × ℝ)
  | [] => none
  | ang :: rest =>
    if slotInSector env ang then
      if isPosFree env nodeDiag (candPoint env ringI ang r) 140 then
        some (ang, (candPoint env ringI ang r).1, (candPoint env ringI ang r).2)
      else tryAngles env nodeDiag ringI r rest
    else tryAngles env nodeDiag ringI r rest

/-- The outer ring loop (`for ring_i in range(max_rings + 1)` with
`max_rings = 6`); on exhaustion return `(ang_center, r0 + ring)`. -/
noncomputable def searchRings (env : SlotEnv) (nodeDiag : ℕ → ℝ) :
    List ℕ → SlotResult
  | [] => .fallback (slotSectorCenter env).2 (slotR0 env + 160)
  | i :: rest =>
    match tryAngles env nodeDiag i (slotR0 env + (i : ℝ) * 160)
        (slotCands env) with
    | some (ang, px, py) =>
        .accepted i ang (slotR0 env + (i : ℝ) * 160) px py
    | none => searchRings env nodeDiag rest

/-- `_find_free_slot` under the engine's (default) parameters, exposing the
full outcome. -/
noncomputable def findSlotRun (env : SlotEnv) (nodeDiag : ℕ → ℝ) :
    SlotResult :=
  searchRings env nodeDiag (List.range 7)

/-- The `(angle, radius)` pair `_find_free_slot` returns. -/
noncomputable def findSlot (env : SlotEnv) (nodeDiag : ℕ → ℝ) : ℝ × ℝ :=
  match findSlotRun env nodeDiag with
  | .accepted _ ang r _ _ => (ang, r)
  | .fallback ang r => (ang, r)

theorem tryAngles_spec (env : SlotEnv) (nodeDiag : ℕ → ℝ) (ringI : ℕ)
    (r : ℝ) (l : List ℝ) (ang px py : ℝ)
    (h : tryAngles env nodeDiag ringI r l = some (ang, px, py)) :
    slotInSector env ang ∧
    isPosFree env nodeDiag (candPoint env ringI ang r) 140 ∧
    (px, py) = candPoint env ringI ang r ∧ ang ∈ l := by
  induction l with
  | nil => simp [tryAngles] at h
  | cons a rest ih =>
      rw [tryAngles] at h
      split_ifs at h with h1 h2
      · simp only [Option.some.injEq, Prod.mk.injEq] at h
        obtain ⟨rfl, rfl, rfl⟩ := h
        exact ⟨h1, h2, rfl, List.mem_cons_self _ _⟩
      · obtain ⟨k1, k2, k3, k4⟩ := ih h
        exact ⟨k1, k2, k3, List.mem_cons_of_mem _ k4⟩
      · obtain ⟨k1, k2, k3, k4⟩ := ih h
        exact ⟨k1, k2, k3, List.mem_cons_of_mem _ k4⟩

theorem tryAngles_none (env : SlotEnv) (nodeDiag : ℕ → ℝ) (ringI : ℕ)
    (r : ℝ) (l : List ℝ)
    (h : ∀ a ∈ l, ¬ slotInSector env a) :
    tryAngles env nodeDiag ringI r l = none := by
  induction l with
  | nil => rfl
  | cons a rest ih =>
      rw [tryAngles]
      rw [if_neg (h a (List.mem_cons_self _ _))]
      exact ih fun b hb => h b (List.mem_cons_of_mem _ hb)

theorem searchRings_accepted (env : SlotEnv) (nodeDiag : ℕ → ℝ)
    (l : List ℕ) (i : ℕ) (ang r px py : ℝ)
    (h : searchRings env nodeDiag l = .accepted i ang r px py) :
    r = slotR0 env + (i : ℝ) * 160 ∧
    tryAngles env nodeDiag i (slotR0 env + (i : ℝ) * 160) (slotCands env) =
      some (ang, px, py) := by
  induction l with
  | nil => simp [searchRings] at h
  | cons j rest ih =>
      rw [searchRings] at h
      rcases htry : tryAngles env nodeDiag j (slotR0 env + (j : ℝ) * 160)
          (slotCands env) with _ | ⟨a, q1, q2⟩
      · rw [htry] at h
        exact ih h
      · rw [htry] at h
        simp only [SlotResult.accepted.injEq] at h
        obtain ⟨rfl, rfl, rfl, rfl, rfl⟩ := h
        exact ⟨rfl, htry⟩

theorem searchRings_fallback (env : SlotEnv) (nodeDiag : ℕ → ℝ)
    (l : List ℕ) (ang r : ℝ)
    (h : searchRings env nodeDiag l = .fallback ang r) :
    ang = (slotSectorCenter env).2 ∧ r = slotR0 env + 160 := by
  induction l with
  | nil =>
      rw [searchRings] at h
      simp only [SlotResult.fallback.injEq] at h
      exact ⟨h.1.symm, h.2.symm⟩
  | cons j rest ih =>
      rw [searchRings] at h
      rcases htry : tryAngles env nodeDiag j (slotR0 env + (j : ℝ) * 160)
          (slotCands env) with _ | ⟨a, q1, q2⟩
      · rw [htry] at h
        exact ih h
      · rw [htry] at h
        simp at h

/-- C4 (amended): when the ring/angle search exhausts all rings, the
fallback returns the gap-center angle at one ring-step beyond the *first*
searched radius `r0` — not beyond the last (largest) tried radius
`r0 + max_rings * ring`. -/
theorem C4_fallback_center_r0_plus_ring (env : SlotEnv) (nodeDiag : ℕ → ℝ)
    (ang r : ℝ) (h : findSlotRun env nodeDiag = .fallback ang r) :
    ang = (slotSectorCenter env).2 ∧ r = slotR0 env + 160 :=
  searchRings_fallback env nodeDiag (List.range 7) ang r h

/-- C5 (amended): every accepted candidate satisfies the code's
`in_sector` test: it lies in the selected angular gap and within
`cone_deg = max(60°, 120° − 10°·neighbor_count)` of the preferred
direction — i.e. the cone's *total* width is twice the `max(60°, …)`
figure, and there is no quarter-width-slice fallback in `_find_free_slot`
(a degenerate gap∩cone simply leads to the exhausted-search fallback). -/
theorem C5_accepted_candidates_in_cone (env : SlotEnv) (nodeDiag : ℕ → ℝ)
    (i : ℕ) (ang r px py : ℝ)
    (h : findSlotRun env nodeDiag = .accepted i ang r px py) :
    slotInSector env ang :=
  (tryAngles_spec env nodeDiag i _ _ ang px py
    (searchRings_accepted env nodeDiag (List.range 7) i ang r px py h).2).1

/-! ### Modular-angle toolbox -/

theorem fmod_nonneg (a m : ℝ) (hm : 0 < m) : 0 ≤ fmod a m := by
  unfold fmod
  have h := Int.floor_le (a / m)
  have h2 : m * ⌊a / m⌋ ≤ m * (a / m) := by
    exact mul_le_mul_of_nonneg_left h (le_of_lt hm)
  rw [mul_div_cancel₀ a (ne_of_gt hm)] at h2
  linarith

theorem fmod_lt (a m : ℝ) (hm : 0 < m) : fmod a m < m := by
  unfold fmod
  have h := Int.lt_floor_add_one (a / m)
  have h2 : m * (a / m) < m * (⌊a / m⌋ + 1) :=
    mul_lt_mul_of_pos_left h hm
  rw [mul_div_cancel₀ a (ne_of_gt hm)] at h2
  linarith

theorem normAngle_eq_fmod (a : ℝ) : normAngle a = fmod a (2 * Real.pi) := by
  unfold normAngle
  rw [if_neg (not_lt.mpr (fmod_nonneg a _ (by positivity)))]

theorem normAngle_nonneg (a : ℝ) : 0 ≤ normAngle a := by
  rw [normAngle_eq_fmod]; exact fmod_nonneg a _ (by positivity)

theorem normAngle_lt (a : ℝ) : normAngle a < 2 * Real.pi := by
  rw [normAngle_eq_fmod]; exact fmod_lt a _ (by positivity)

theorem fmod_eq_self (a m : ℝ) (h0 : 0 ≤ a) (h1 : a < m) : fmod a m = a := by
  unfold fmod
  have hm : 0 < m := lt_of_le_of_lt h0 h1
  have : ⌊a / m⌋ = 0 := by
    rw [Int.floor_eq_zero_iff]
    constructor
    · exact div_nonneg h0 (le_of_lt hm)
    · rw [div_lt_one hm]; exact h1
  rw [this]
  simp

/-- `fmod` only sees the residue class: shifting by an integer multiple of
the modulus changes nothing. -/
theorem fmod_add_int_mul (a m : ℝ) (k : ℤ) (hm : m ≠ 0) :
    fmod (a + m * k) m = fmod a m := by
  unfold fmod
  have : (a + m * k) / m = a / m + k := by field_simp; ring
  rw [this, Int.floor_add_int]
  push_cast
  ring

/-- `a - fmod a m` is an integer multiple of `m`. -/
theorem fmod_rep (a m : ℝ) : a - fmod a m = m * ⌊a / m⌋ := by
  unfold fmod; ring

theorem normAngle_rep (a : ℝ) :
    a - normAngle a = 2 * Real.pi * ⌊a / (2 * Real.pi)⌋ := by
  rw [normAngle_eq_fmod]; exact fmod_rep a _

/-- Two reals congruent mod `m` have the same `fmod`. -/
theorem fmod_congr (a b m : ℝ) (hm : m ≠ 0) (k : ℤ) (h : a = b + m * k) :
    fmod a m = fmod b m := by
  rw [h]; exact fmod_add_int_mul b m k hm

/-- The circular-interval containment at the heart of `in_sector`'s `ok`
test: a normalized angle that passes the (possibly wrapping) interval test
for a sector `(a0, w)` lies within `w` of `a0` going counterclockwise. -/
theorem fmod_sub_le_of_ok (x a0 w : ℝ) (hx0 : 0 ≤ x) (hx1 : x < 2 * Real.pi)
    (ha0 : 0 ≤ a0) (ha1 : a0 < 2 * Real.pi) (hw0 : 0 ≤ w)
    (hw1 : w < 2 * Real.pi)
    (hok : if fmod (a0 + w) (2 * Real.pi) < a0 then
        (a0 ≤ x ∨ x ≤ fmod (a0 + w) (2 * Real.pi))
      else (a0 ≤ x ∧ x ≤ fmod (a0 + w) (2 * Real.pi))) :
    fmod (x - a0) (2 * Real.pi) ≤ w := by
  have hpi : (0 : ℝ) < 2 * Real.pi := by positivity
  have hfloor : ⌊(a0 + w) / (2 * Real.pi)⌋ = 0 ∨
      ⌊(a0 + w) / (2 * Real.pi)⌋ = 1 := by
    have hlo : (0 : ℝ) ≤ (a0 + w) / (2 * Real.pi) :=
      div_nonneg (by linarith) (le_of_lt hpi)
    have hhi : (a0 + w) / (2 * Real.pi) < 2 := by
      rw [div_lt_iff hpi]; linarith
    have h1 := Int.floor_le ((a0 + w) / (2 * Real.pi))
    have h2 := Int.lt_floor_add_one ((a0 + w) / (2 * Real.pi))
    have k1 : (0 : ℤ) ≤ ⌊(a0 + w) / (2 * Real.pi)⌋ := Int.floor_nonneg.mpr hlo
    have k2 : ⌊(a0 + w) / (2 * Real.pi)⌋ < 2 := by
      have hc : (⌊(a0 + w) / (2 * Real.pi)⌋ : ℝ) < 2 := lt_of_le_of_lt h1 hhi
      exact_mod_cast hc
    omega
  have hrepr : fmod (a0 + w) (2 * Real.pi) =
      a0 + w - 2 * Real.pi * ⌊(a0 + w) / (2 * Real.pi)⌋ := by
    unfold fmod; ring
  rcases hfloor with hf | hf
  · -- no wrap: hi = a0 + w ≥ a0
    rw [hrepr, hf] at hok
    simp only [Int.cast_zero, mul_zero, sub_zero] at hok
    rw [if_neg (not_lt.mpr (by linarith))] at hok
    obtain ⟨hx2, hx3⟩ := hok
    rw [fmod_eq_self (x - a0) _ (by linarith) (by linarith)]
    linarith
  · -- wrap: hi = a0 + w - 2π < a0
    rw [hrepr, hf] at hok
    simp only [Int.cast_one, mul_one] at hok
    have hhi_lt : a0 + w - 2 * Real.pi * 1 < a0 := by linarith
    rw [if_pos (by linarith)] at hok
    rcases hok with hge | hle
    · rw [fmod_eq_self (x - a0) _ (by linarith) (by linarith)]
      -- x < 2π and w - (x - a0) = (a0 + w - 2π) + (2π - x) > hi ≥ 0
      have hhi0 : 0 ≤ a0 + w - 2 * Real.pi * 1 := by
        -- hi = fmod ≥ 0
        have := fmod_nonneg (a0 + w) (2 * Real.pi) hpi
        rw [hrepr, hf] at this
        simpa using this
      linarith
    · have : fmod (x - a0) (2 * Real.pi) = x - a0 + 2 * Real.pi := by
        have := fmod_add_int_mul (x - a0) (2 * Real.pi) 1 (ne_of_gt hpi)
        rw [← this]
        rw [fmod_eq_self]
        · push_cast; ring
        · push_cast; linarith
        · push_cast; linarith
      rw [this]
      linarith

theorem slotPad_val : slotPad = 8 * Real.pi / 180 := by
  unfold slotPad
  norm_num

theorem slotPad_pos : 0 < slotPad := by
  rw [slotPad_val]
  positivity

theorem slotR0_ge (env : SlotEnv) : 160 ≤ slotR0 env := by
  unfold slotR0
  split_ifs with h
  · have hpos : (0 : ℝ) <
        (max 160 (needRadius (slotSectorCenter env).1.2 (slotMinChord env)) -
          160) / 160 := by
      apply div_pos
      · linarith
      · norm_num
    have hc : 0 < ⌈(max 160 (needRadius (slotSectorCenter env).1.2
        (slotMinChord env)) - 160) / 160⌉ := Int.ceil_pos.mpr hpos
    have hc' : (1 : ℝ) ≤ (⌈(max 160 (needRadius (slotSectorCenter env).1.2
        (slotMinChord env)) - 160) / 160⌉ : ℤ) := by exact_mod_cast hc
    nlinarith
  · exact le_max_left _ _

theorem slotSectorCenter_snd_bounds (env : SlotEnv) :
    0 ≤ (slotSectorCenter env).2 ∧ (slotSectorCenter env).2 < 2 * Real.pi := by
  unfold slotSectorCenter
  split_ifs <;> exact ⟨normAngle_nonneg _, normAngle_lt _⟩

theorem mem_slotCands_bounds (env : SlotEnv) (x : ℝ)
    (hx : x ∈ slotCands env) : 0 ≤ x ∧ x < 2 * Real.pi := by
  unfold slotCands at hx
  rcases List.mem_cons.mp hx with rfl | hx'
  · exact slotSectorCenter_snd_bounds env
  · rw [List.mem_flatMap] at hx'
    obtain ⟨k, _, hk⟩ := hx'
    rcases List.mem_cons.mp hk with rfl | hk'
    · exact ⟨normAngle_nonneg _, normAngle_lt _⟩
    · rw [List.mem_singleton] at hk'
      subst hk'
      exact ⟨normAngle_nonneg _, normAngle_lt _⟩

theorem slotAngles_of_no_adj (env : SlotEnv) (hadj : env.adj = []) :
    slotAngles env = [] := by
  unfold slotAngles
  rw [hadj]
  rfl

theorem slotSector_empty (env : SlotEnv) (h : slotAngles env = []) :
    (slotSectorCenter env).1.1 =
      normAngle (slotPref env - Real.pi / 2 + slotPad) ∧
    (slotSectorCenter env).1.2 = Real.pi - 2 * slotPad ∧
    (slotSectorCenter env).2 = normAngle (slotPref env) := by
  have hpi := Real.pi_pos
  have hpadv := slotPad_val
  unfold slotSectorCenter
  rw [if_pos h]
  refine ⟨rfl, ?_, rfl⟩
  simp only
  have hA := normAngle_rep (slotPref env + Real.pi / 2 - slotPad)
  have hB := normAngle_rep (slotPref env - Real.pi / 2 + slotPad)
  have hcg : fmod (normAngle (slotPref env + Real.pi / 2 - slotPad) -
      normAngle (slotPref env - Real.pi / 2 + slotPad)) (2 * Real.pi) =
      fmod (Real.pi - 2 * slotPad) (2 * Real.pi) := by
    apply fmod_congr _ _ _ (by positivity)
      (⌊(slotPref env - Real.pi / 2 + slotPad) / (2 * Real.pi)⌋ -
       ⌊(slotPref env + Real.pi / 2 - slotPad) / (2 * Real.pi)⌋)
    push_cast
    linarith
  rw [hcg]
  apply fmod_eq_self
  · rw [hpadv]
    nlinarith
  · rw [hpadv]
    nlinarith

/-- C6 (amended): with zero graph-neighbors, `find_slot` returns an angle
within `π/2` of the preferred direction (modulo `2π`) and a radius that is
at least `base_radius` — but equal to it only when the chord-fit radius
`r0` stays at `base_radius` and a first-ring candidate is accepted; large
average node sizes push `r0` (and hence the result) to
`base_radius + k * ring`. -/
theorem C6_no_neighbor_slot (env : SlotEnv) (nodeDiag : ℕ → ℝ)
    (hadj : env.adj = []) :
    160 ≤ (findSlot env nodeDiag).2 ∧
    ∃ k : ℤ, |(findSlot env nodeDiag).1 - slotPref env -
      2 * Real.pi * k| ≤ Real.pi / 2 := by
  have hpi := Real.pi_pos
  have hpig := Real.pi_gt_3141592
  have hr0 := slotR0_ge env
  have hangles := slotAngles_of_no_adj env hadj
  obtain ⟨hsa0, hsw, hsc⟩ := slotSector_empty env hangles
  have hpadv := slotPad_val
  unfold findSlot
  rcases hrun : findSlotRun env nodeDiag with ⟨i, ang, r, px, py⟩ | ⟨ang, r⟩
  · -- accepted
    obtain ⟨hr, htry⟩ := searchRings_accepted env nodeDiag _ i ang r px py hrun
    obtain ⟨hins, _, _, hmem⟩ := tryAngles_spec env nodeDiag i _ _ ang px py htry
    obtain ⟨hx0, hx1⟩ := mem_slotCands_bounds env ang hmem
    constructor
    · have : (0 : ℝ) ≤ (i : ℝ) * 160 := by positivity
      simp only
      linarith
    · simp only
      obtain ⟨hok, _⟩ := hins
      rw [hsa0, hsw] at hok
      rw [if_neg (by rw [hpadv]; intro hcon; nlinarith)] at hok
      have hwle := fmod_sub_le_of_ok ang
        (normAngle (slotPref env - Real.pi / 2 + slotPad))
        (Real.pi - 2 * slotPad) hx0 hx1 (normAngle_nonneg _) (normAngle_lt _)
        (by rw [hpadv]; nlinarith) (by rw [hpadv]; nlinarith) hok
      -- shift the base point from the normalized a0 back to pref - π/2 + pad
      have hB := normAngle_rep (slotPref env - Real.pi / 2 + slotPad)
      have hcg : fmod (ang - normAngle (slotPref env - Real.pi / 2 + slotPad))
          (2 * Real.pi) =
          fmod (ang - (slotPref env - Real.pi / 2 + slotPad)) (2 * Real.pi) := by
        apply fmod_congr _ _ _ (by positivity)
          (⌊(slotPref env - Real.pi / 2 + slotPad) / (2 * Real.pi)⌋)
        linarith
      rw [hcg] at hwle
      have ht0 := fmod_nonneg (ang - (slotPref env - Real.pi / 2 + slotPad))
        (2 * Real.pi) (by positivity)
      have hrep := fmod_rep (ang - (slotPref env - Real.pi / 2 + slotPad))
        (2 * Real.pi)
      refine ⟨⌊(ang - (slotPref env - Real.pi / 2 + slotPad)) /
        (2 * Real.pi)⌋, ?_⟩
      rw [abs_le]
      have hpadpos := slotPad_pos
      constructor
      · linarith
      · linarith
  · -- fallback: the returned angle is the normalized preferred direction
    obtain ⟨ha, hrr⟩ := searchRings_fallback env nodeDiag _ ang r hrun
    constructor
    · simp only
      linarith [hrr]
    · simp only
      rw [ha, hsc]
      refine ⟨-⌊slotPref env / (2 * Real.pi)⌋, ?_⟩
      have := normAngle_rep (slotPref env)
      push_cast
      rw [abs_le]
      constructor <;> nlinarith [Real.pi_pos]

theorem candPoint_ring0 (env : SlotEnv) (ang r : ℝ) :
    candPoint env 0 ang r =
      snap env.snapStep (env.anchorPos.1 + r * Real.cos ang,
        env.anchorPos.2 + r * Real.sin ang) := by
  unfold candPoint jitterAmp
  rw [if_pos rfl]
  norm_num

/-- C1 (amended): whenever the ring/angle search accepts a candidate, the
point it actually *tested* — the anchor plus `r·(cos, sin)` plus the
per-ring jitter, snapped — keeps distance at least `cached radius + r_new`
from every node registered in a consistent spatial index; and on the first
ring (zero jitter) that tested point coincides with the point the caller
reconstructs from the returned `(angle, radius)` pair.  (On rings beyond
the first, the jittered tested point and the caller's reconstruction can
snap to different grid points, so the returned pair itself carries no
guarantee — see the counterexample.) -/
theorem C1_accepted_tested_point_safe (env : SlotEnv) (nodeDiag : ℕ → ℝ)
    (reg : Registry ℝ) (hInv : SupInv reg env.spatial)
    (hcons : ∀ n x y rr, reg n = some (x, y, rr) → env.nodes n = some (x, y))
    (i : ℕ) (ang r px py : ℝ)
    (hacc : findSlotRun env nodeDiag = .accepted i ang r px py) :
    (∀ n x y rr, reg n = some (x, y, rr) →
      rr + max (140 * (1 / 2)) (nodeRadiusPx env nodeDiag none) ≤
        Real.sqrt ((x - px) ^ 2 + (y - py) ^ 2)) ∧
    (i = 0 → (px, py) = snap env.snapStep
      (env.anchorPos.1 + r * Real.cos ang,
       env.anchorPos.2 + r * Real.sin ang)) := by
  obtain ⟨hr, htry⟩ := searchRings_accepted env nodeDiag (List.range 7)
    i ang r px py hacc
  obtain ⟨_, hfree, hpt, _⟩ := tryAngles_spec env nodeDiag i _ _ ang px py htry
  constructor
  · intro n x y rr hn
    obtain ⟨hcell, hmem⟩ := hInv
    obtain ⟨hrr0, hrad, _⟩ := hmem n x y rr hn
    have hq := hcons n x y rr hn
    have hrnew : (0 : ℝ) ≤
        max (140 * (1 / 2)) (nodeRadiusPx env nodeDiag none) := by
      have : (0 : ℝ) ≤ 140 * (1 / 2) := by norm_num
      exact le_trans this (le_max_left _ _)
    by_cases hhit : n ∈ env.spatial.neighbors
        (candPoint env i ang (slotR0 env + (i : ℝ) * 160)).1
        (candPoint env i ang (slotR0 env + (i : ℝ) * 160)).2
        (max (140 * (1 / 2)) (nodeRadiusPx env nodeDiag none))
    · have hnf := hfree n hhit (x, y) hq
      rw [hrad] at hnf
      simp only [Option.getD_some] at hnf
      push_neg at hnf
      have hpx : px = (candPoint env i ang (slotR0 env + (i : ℝ) * 160)).1 :=
        congrArg Prod.fst hpt
      have hpy : py = (candPoint env i ang (slotR0 env + (i : ℝ) * 160)).2 :=
        congrArg Prod.snd hpt
      rw [hpx, hpy]
      exact hnf
    · -- outside the hit set: the bounding boxes cannot overlap
      have hno : ¬ ((x - (candPoint env i ang (slotR0 env + (i : ℝ) * 160)).1) ^ 2 +
          (y - (candPoint env i ang (slotR0 env + (i : ℝ) * 160)).2) ^ 2 ≤
          (rr + max (140 * (1 / 2)) (nodeRadiusPx env nodeDiag none)) ^ 2) := by
        intro hover
        exact hhit (mem_neighbors_of_overlap reg env.spatial ⟨hcell, hmem⟩
          n x y rr _ _ _ hn hrnew hover)
      push_neg at hno
      have hpx : px = (candPoint env i ang (slotR0 env + (i : ℝ) * 160)).1 :=
        congrArg Prod.fst hpt
      have hpy : py = (candPoint env i ang (slotR0 env + (i : ℝ) * 160)).2 :=
        congrArg Prod.snd hpt
      rw [hpx, hpy]
      have hsum : 0 ≤ rr + max (140 * (1 / 2))
          (nodeRadiusPx env nodeDiag none) := by linarith
      have hD : (rr + max (140 * (1 / 2)) (nodeRadiusPx env nodeDiag none)) ^ 2 ≤
          (x - (candPoint env i ang (slotR0 env + (i : ℝ) * 160)).1) ^ 2 +
          (y - (candPoint env i ang (slotR0 env + (i : ℝ) * 160)).2) ^ 2 :=
        le_of_lt hno
      calc rr + max (140 * (1 / 2)) (nodeRadiusPx env nodeDiag none)
          = Real.sqrt ((rr + max (140 * (1 / 2))
              (nodeRadiusPx env nodeDiag none)) ^ 2) :=
            (Real.sqrt_sq hsum).symm
        _ ≤ _ := Real.sqrt_le_sqrt hD
  · intro hi
    subst hi
    rw [hpt, hr]
    exact candPoint_ring0 env ang (slotR0 env + ((0 : ℕ) : ℝ) * 160)

/-! ### Concrete-evaluation toolbox -/

theorem normAngle_of_mem (a : ℝ) (h0 : 0 ≤ a) (h1 : a < 2 * Real.pi) :
    normAngle a = a := by
  rw [normAngle_eq_fmod]
  exact fmod_eq_self a _ h0 h1

theorem normAngle_congr (a : ℝ) (k : ℤ) :
    normAngle (a + 2 * Real.pi * k) = normAngle a := by
  rw [normAngle_eq_fmod, normAngle_eq_fmod]
  exact fmod_add_int_mul a _ k (by positivity)

theorem insAsc_append (x : ℝ) (acc : List ℝ) (h : ∀ y ∈ acc, y ≤ x) :
    insAsc x acc = acc ++ [x] := by
  induction acc with
  | nil => rfl
  | cons y ys ih =>
      rw [insAsc, if_pos (h y (List.mem_cons_self _ _))]
      rw [ih fun z hz => h z (List.mem_cons_of_mem _ hz)]
      rfl

theorem sortAsc_aux : ∀ l : List ℝ, List.Pairwise (· ≤ ·) l →
    ∀ acc : List ℝ, (∀ a ∈ acc, ∀ b ∈ l, a ≤ b) →
      l.foldl (fun acc x => insAsc x acc) acc = acc ++ l := by
  intro l
  induction l with
  | nil => intro _ acc _; simp
  | cons x xs ih =>
      intro h acc hacc
      rw [List.pairwise_cons] at h
      rw [List.foldl_cons,
        insAsc_append x acc fun y hy => hacc y hy x (List.mem_cons_self _ _)]
      rw [ih h.2 (acc ++ [x]) fun a ha b hb => by
        rcases List.mem_append.mp ha with h1 | h2
        · exact hacc a h1 b (List.mem_cons_of_mem _ hb)
        · rw [List.mem_singleton] at h2
          subst h2
          exact h.1 b hb]
      simp

theorem sortAsc_eq_self (l : List ℝ) (h : List.Pairwise (· ≤ ·) l) :
    sortAsc l = l := by
  have key := sortAsc_aux l h [] (by simp)
  simpa [sortAsc] using key

theorem headD_insDesc (x : ℝ × ℝ) (acc : List (ℝ × ℝ)) (d : ℝ × ℝ) :
    (insDesc x acc).headD d =
      match acc with
      | [] => x
      | y :: _ => if x.1 ≤ y.1 then y else x := by
  cases acc with
  | nil => rfl
  | cons y ys =>
      show (insDesc x (y :: ys)).headD d = if x.1 ≤ y.1 then y else x
      rw [insDesc]
      split_ifs with h <;> rfl

theorem insDesc_ne_nil (x : ℝ × ℝ) (acc : List (ℝ × ℝ)) :
    insDesc x acc ≠ [] := by
  cases acc with
  | nil => simp [insDesc]
  | cons y ys =>
      rw [insDesc]
      split_ifs <;> simp

/-- The head of the stable descending sort is the running
keep-first-strict-max fold over the raw list. -/
theorem sortGapsDesc_headD (x : ℝ × ℝ) (xs : List (ℝ × ℝ)) (d : ℝ × ℝ) :
    (sortGapsDesc (x :: xs)).headD d =
      xs.foldl (fun y z => if z.1 ≤ y.1 then y else z) x := by
  suffices key : ∀ (l : List (ℝ × ℝ)) (acc : List (ℝ × ℝ)), acc ≠ [] →
      (l.foldl (fun acc x => insDesc x acc) acc).headD d =
        l.foldl (fun y z => if z.1 ≤ y.1 then y else z) (acc.headD d) by
    have h := key xs [x] (by simp)
    unfold sortGapsDesc
    rw [List.foldl_cons]
    have hx : insDesc x [] = [x] := rfl
    rw [hx] at *
    simpa using h
  intro l
  induction l with
  | nil => intro acc hacc; rfl
  | cons z zs ih =>
      intro acc hacc
      rw [List.foldl_cons, List.foldl_cons]
      rw [ih (insDesc z acc) (insDesc_ne_nil z acc)]
      congr 1
      rw [headD_insDesc]
      cases acc with
      | nil => exact absurd rfl hacc
      | cons y ys =>
          simp only [List.headD_cons]

theorem atan2_pos_x (y x : ℝ) (hx : 0 < x) :
    atan2 y x = Real.arctan (y / x) := by
  unfold atan2
  rw [if_pos hx]

theorem atan2_zero_pos (d : ℝ) (hd : 0 < d) : atan2 0 d = 0 := by
  rw [atan2_pos_x 0 d hd]
  simp [Real.arctan_zero]

theorem atan2_pos_zero (d : ℝ) (hd : 0 < d) : atan2 d 0 = Real.pi / 2 := by
  unfold atan2
  rw [if_neg (by norm_num), if_neg (by norm_num), if_pos hd]

theorem atan2_zero_neg (d : ℝ) (hd : 0 < d) : atan2 0 (-d) = Real.pi := by
  unfold atan2
  rw [if_neg (by linarith), if_pos (by linarith), if_pos (by norm_num)]
  simp [Real.arctan_zero]

theorem atan2_neg_zero (d : ℝ) (hd : 0 < d) :
    atan2 (-d) 0 = -(Real.pi / 2) := by
  unfold atan2
  rw [if_neg (by norm_num), if_neg (by norm_num), if_neg (by linarith),
    if_pos (by linarith)]

theorem atan2_diag (d : ℝ) (hd : 0 < d) : atan2 d d = Real.pi / 4 := by
  rw [atan2_pos_x d d hd, div_self (ne_of_gt hd), Real.arctan_one]

theorem atan2_anti_diag (d : ℝ) (hd : 0 < d) :
    atan2 d (-d) = 3 * Real.pi / 4 := by
  unfold atan2
  rw [if_neg (by linarith), if_pos (by linarith), if_pos (by linarith)]
  have : d / -d = -1 := by field_simp
  rw [this]
  rw [show (-1 : ℝ) = -(1) from rfl, Real.arctan_neg, Real.arctan_one]
  ring

theorem angleBetween_right (c : ℝ × ℝ) (d : ℝ) (hd : 0 < d) :
    angleBetween c (c.1 + d, c.2) = 0 := by
  unfold angleBetween
  simp only [add_sub_cancel_left, sub_self]
  rw [atan2_zero_pos d hd]
  exact normAngle_of_mem 0 (le_refl 0) (by positivity)

theorem angleBetween_up (c : ℝ × ℝ) (d : ℝ) (hd : 0 < d) :
    angleBetween c (c.1, c.2 + d) = Real.pi / 2 := by
  unfold angleBetween
  simp only [add_sub_cancel_left, sub_self]
  rw [atan2_pos_zero d hd]
  exact normAngle_of_mem _ (by positivity) (by nlinarith [Real.pi_pos])

theorem angleBetween_left (c : ℝ × ℝ) (d : ℝ) (hd : 0 < d) :
    angleBetween c (c.1 - d, c.2) = Real.pi := by
  unfold angleBetween
  simp only [sub_sub_cancel_left, sub_self]
  rw [atan2_zero_neg d hd]
  exact normAngle_of_mem _ (by positivity) (by nlinarith [Real.pi_pos])

theorem angleBetween_down (c : ℝ × ℝ) (d : ℝ) (hd : 0 < d) :
    angleBetween c (c.1, c.2 - d) = 3 * Real.pi / 2 := by
  unfold angleBetween
  rw [show c.2 - d - c.2 = -d by ring, sub_self]
  rw [atan2_neg_zero d hd]
  have : -(Real.pi / 2) = 3 * Real.pi / 2 + 2 * Real.pi * (-1 : ℤ) := by
    push_cast
    ring
  rw [this, normAngle_congr]
  exact normAngle_of_mem _ (by positivity) (by nlinarith [Real.pi_pos])

theorem angleBetween_diag (c : ℝ × ℝ) (d : ℝ) (hd : 0 < d) :
    angleBetween c (c.1 + d, c.2 + d) = Real.pi / 4 := by
  unfold angleBetween
  simp only [add_sub_cancel_left]
  rw [atan2_diag d hd]
  exact normAngle_of_mem _ (by positivity) (by nlinarith [Real.pi_pos])

theorem angleBetween_anti_diag (c : ℝ × ℝ) (d : ℝ) (hd : 0 < d) :
    angleBetween c (c.1 - d, c.2 + d) = 3 * Real.pi / 4 := by
  unfold angleBetween
  simp only [add_sub_cancel_left]
  rw [show c.1 - d - c.1 = -d by ring]
  rw [atan2_anti_diag d hd]
  exact normAngle_of_mem _ (by positivity) (by nlinarith [Real.pi_pos])

theorem sqrt_two_gt : (141 / 100 : ℝ) < Real.sqrt 2 := by
  have h := Real.sq_sqrt (show (0:ℝ) ≤ 2 by norm_num)
  nlinarith [Real.sqrt_nonneg 2]

theorem sqrt_two_lt : Real.sqrt 2 < 1415 / 1000 := by
  have h := Real.sq_sqrt (show (0:ℝ) ≤ 2 by norm_num)
  nlinarith [Real.sqrt_nonneg 2]

theorem sqrt_three_ge : (3 / 2 : ℝ) ≤ Real.sqrt 3 := by
  have h := Real.sq_sqrt (show (0:ℝ) ≤ 3 by norm_num)
  nlinarith [Real.sqrt_nonneg 3]

theorem sin37_mem : 37 * Real.pi / 180 ∈ Set.Icc (-(Real.pi/2)) (Real.pi/2) := by
  constructor <;> nlinarith [Real.pi_pos]

theorem sin37_gt_half : 1 / 2 < Real.sin (37 * Real.pi / 180) := by
  have h := Real.strictMonoOn_sin
    (Set.mem_Icc.mpr ⟨by nlinarith [Real.pi_pos], by nlinarith [Real.pi_pos]⟩)
    sin37_mem (show Real.pi / 6 < 37 * Real.pi / 180 by nlinarith [Real.pi_pos])
  rw [Real.sin_pi_div_six] at h
  exact h

theorem sin37_lt : Real.sin (37 * Real.pi / 180) < Real.sqrt 2 / 2 := by
  have h := Real.strictMonoOn_sin sin37_mem
    (Set.mem_Icc.mpr ⟨by nlinarith [Real.pi_pos], by nlinarith [Real.pi_pos]⟩)
    (show 37 * Real.pi / 180 < Real.pi / 4 by nlinarith [Real.pi_pos])
  rw [Real.sin_pi_div_four] at h
  exact h

theorem sin82_gt : Real.sqrt 3 / 2 < Real.sin (82 * Real.pi / 180) := by
  have h := Real.strictMonoOn_sin
    (Set.mem_Icc.mpr ⟨by nlinarith [Real.pi_pos], by nlinarith [Real.pi_pos]⟩)
    (Set.mem_Icc.mpr ⟨by nlinarith [Real.pi_pos], by nlinarith [Real.pi_pos]⟩)
    (show Real.pi / 3 < 82 * Real.pi / 180 by nlinarith [Real.pi_pos])
  rw [Real.sin_pi_div_three] at h
  exact h

theorem sin82_lt_one : Real.sin (82 * Real.pi / 180) < 1 := by
  have h := Real.strictMonoOn_sin
    (Set.mem_Icc.mpr ⟨by nlinarith [Real.pi_pos], by nlinarith [Real.pi_pos]⟩)
    (Set.mem_Icc.mpr ⟨by nlinarith [Real.pi_pos], by nlinarith [Real.pi_pos]⟩)
    (show 82 * Real.pi / 180 < Real.pi / 2 by nlinarith [Real.pi_pos])
  rw [Real.sin_pi_div_two] at h
  exact h

theorem gapsOf_four (a b c d : ℝ) :
    gapsOf [a, b, c, d] =
      [(b - a, a), (c - b, b), (d - c, c),
       (a + 2 * Real.pi - d, d)] := rfl

theorem gapsOf_six (a b c d e f : ℝ) :
    gapsOf [a, b, c, d, e, f] =
      [(b - a, a), (c - b, b), (d - c, c), (e - d, d), (f - e, e),
       (a + 2 * Real.pi - f, f)] := rfl

theorem spatial_insert_cell (s : SpatialHash ℝ) (n : ℕ) (x y r : ℝ) :
    (s.insert n x y r).cell = s.cell := rfl

theorem mem_grid_insert_self (s : SpatialHash ℝ) (n : ℕ) (x y r : ℝ)
    (k : ℤ × ℤ) (hk : k ∈ keysFor s.cell x y r) :
    n ∈ (s.insert n x y r).grid k := by
  show n ∈ (if k ∈ keysFor s.cell x y r then
    Insert.insert n (s.grid k) else s.grid k)
  rw [if_pos hk]
  exact Finset.mem_insert_self _ _

theorem mem_grid_insert_mono (s : SpatialHash ℝ) (n m : ℕ) (x y r : ℝ)
    (k : ℤ × ℤ) (h : m ∈ s.grid k) : m ∈ (s.insert n x y r).grid k := by
  show m ∈ (if k ∈ keysFor s.cell x y r then
    Insert.insert n (s.grid k) else s.grid k)
  split_ifs
  · exact Finset.mem_insert_of_mem h
  · exact h

theorem mem_grid_insert_elim (s : SpatialHash ℝ) (n m : ℕ) (x y r : ℝ)
    (k : ℤ × ℤ) (h : m ∈ (s.insert n x y r).grid k) :
    m = n ∨ m ∈ s.grid k := by
  have h' : m ∈ (if k ∈ keysFor s.cell x y r then
      Insert.insert n (s.grid k) else s.grid k) := h
  split_ifs at h' with hk
  · exact (Finset.mem_insert.mp h').imp id id
  · exact Or.inr h'

theorem init_neighbors (c : ℤ) (x y r : ℝ) :
    (SpatialHash.init c : SpatialHash ℝ).neighbors x y r = ∅ := by
  unfold SpatialHash.neighbors SpatialHash.init
  apply Finset.eq_empty_of_forall_not_mem
  intro m hm
  rcases Finset.mem_biUnion.mp hm with ⟨k, _, hk⟩
  exact absurd hk (Finset.not_mem_empty m)

theorem radius_insert_self (s : SpatialHash ℝ) (n : ℕ) (x y r : ℝ) :
    (s.insert n x y r).radius n = some r := by
  simp [SpatialHash.insert]

theorem radius_insert_other (s : SpatialHash ℝ) (n m : ℕ) (x y r : ℝ)
    (h : m ≠ n) : (s.insert n x y r).radius m = s.radius m := by
  simp [SpatialHash.insert, Function.update_noteq h]

theorem le_sqrt_of_sq_le (c x : ℝ) (hc : 0 ≤ c) (h : c ^ 2 ≤ x) :
    c ≤ Real.sqrt x := by
  calc c = Real.sqrt (c ^ 2) := (Real.sqrt_sq hc).symm
    _ ≤ Real.sqrt x := Real.sqrt_le_sqrt h

theorem sqrt_lt_of_lt_sq (x c : ℝ) (hx : 0 ≤ x) (hc : 0 ≤ c)
    (h : x < c ^ 2) : Real.sqrt x < c := by
  calc Real.sqrt x < Real.sqrt (c ^ 2) := Real.sqrt_lt_sqrt hx h
    _ = c := Real.sqrt_sq hc

theorem floor_div_eval (a b : ℝ) (n : ℤ) (hb : 0 < b) (h1 : (n : ℝ) * b ≤ a)
    (h2 : a < ((n : ℝ) + 1) * b) : ⌊a / b⌋ = n := by
  rw [Int.floor_eq_iff]
  constructor
  · rw [le_div_iff hb]; exact h1
  · rw [div_lt_iff hb]; push_cast; linarith

/-- If every candidate of a ring is rejected by the position-freeness test,
the inner loop yields nothing. -/
theorem tryAngles_none_of_blocked (env : SlotEnv) (nodeDiag : ℕ → ℝ)
    (ringI : ℕ) (r : ℝ) (l : List ℝ)
    (h : ∀ a ∈ l, ¬ isPosFree env nodeDiag (candPoint env ringI a r) 140) :
    tryAngles env nodeDiag ringI r l = none := by
  induction l with
  | nil => rfl
  | cons a rest ih =>
      rw [tryAngles]
      split_ifs with h1 h2
      · exact absurd h2 (h a (List.mem_cons_self _ _))
      · exact ih fun b hb => h b (List.mem_cons_of_mem _ hb)
      · exact ih fun b hb => h b (List.mem_cons_of_mem _ hb)

/-- When no candidate ever passes the sector/cone test, every ring fails and
the search falls through to the fallback. -/
theorem searchRings_all_blocked (env : SlotEnv) (nodeDiag : ℕ → ℝ)
    (h : ∀ a ∈ slotCands env, ¬ slotInSector env a) (l : List ℕ) :
    searchRings env nodeDiag l =
      .fallback (slotSectorCenter env).2 (slotR0 env + 160) := by
  induction l with
  | nil => rfl
  | cons i rest ih =>
      rw [searchRings, tryAngles_none env nodeDiag i _ _ h]
      exact ih

/-- A ring whose head candidate (the sector center) is in the sector and
tests free is accepted immediately. -/
theorem searchRings_cons_accept (env : SlotEnv) (nodeDiag : ℕ → ℝ) (i : ℕ)
    (rest : List ℕ) (hsec : slotInSector env ((slotSectorCenter env).2))
    (hfree : isPosFree env nodeDiag
      (candPoint env i ((slotSectorCenter env).2)
        (slotR0 env + (i : ℝ) * 160)) 140) :
    searchRings env nodeDiag (i :: rest) =
      .accepted i ((slotSectorCenter env).2) (slotR0 env + (i : ℝ) * 160)
        (candPoint env i ((slotSectorCenter env).2)
          (slotR0 env + (i : ℝ) * 160)).1
        (candPoint env i ((slotSectorCenter env).2)
          (slotR0 env + (i : ℝ) * 160)).2 := by
  have htry : tryAngles env nodeDiag i (slotR0 env + (i : ℝ) * 160)
      (slotCands env) = some (((slotSectorCenter env).2),
        (candPoint env i ((slotSectorCenter env).2)
          (slotR0 env + (i : ℝ) * 160)).1,
        (candPoint env i ((slotSectorCenter env).2)
          (slotR0 env + (i : ℝ) * 160)).2) := by
    unfold slotCands
    rw [tryAngles, if_pos hsec, if_pos hfree]
  rw [searchRings, htry]

/-! ### Concrete `_find_free_slot` scenarios -/

/-- A vanishing bounding-box diagonal (the new node has not been measured
yet; only its estimate matters in the scenarios below). -/
noncomputable def dZero : ℕ → ℝ := fun _ => 0

/-- Anchor with no graph-neighbors but a large average node size: the
chord-fit pushes the first search radius three ring-steps out. -/
noncomputable def envC6 : SlotEnv where
  anchorName := 0
  anchorPos := (0, 0)
  nodes := fun _ => none
  adj := []
  level := fun _ => 0
  lastChildAngle := none
  avgDiag := 1000
  minChordRatio := 4 / 5
  snapStep := 40
  spatial := SpatialHash.init 120
  hash1 := fun _ _ => 0
  hash2 := fun _ _ => 0

theorem minChordC6 : slotMinChord envC6 = 960 := by
  show max (80 : ℝ) (1000 * (12 / 10) * (4 / 5)) = 960
  norm_num

theorem freeC6 (p : ℝ × ℝ) (minDist : ℝ) : isPosFree envC6 dZero p minDist := by
  intro nm hm q hq
  rw [show envC6.spatial = SpatialHash.init 120 from rfl, init_neighbors] at hm
  exact absurd hm (Finset.not_mem_empty nm)

theorem r0C6 : slotR0 envC6 = 640 := by
  have hpi := Real.pi_gt_3141592
  have hw : (slotSectorCenter envC6).1.2 = Real.pi - 2 * slotPad :=
    (slotSector_empty envC6 (slotAngles_of_no_adj envC6 rfl)).2.1
  have hS1 : Real.sqrt 3 / 2 < Real.sin (82 * Real.pi / 180) := sin82_gt
  have hS2 : Real.sin (82 * Real.pi / 180) < 1 := sin82_lt_one
  have hS3 : (3 / 4 : ℝ) < Real.sin (82 * Real.pi / 180) := by
    have := sqrt_three_ge
    linarith
  have hneed : needRadius (Real.pi - 2 * slotPad) 960 =
      960 * (1 / 2) / Real.sin (82 * Real.pi / 180) := by
    unfold needRadius
    rw [max_eq_right (by rw [slotPad_val]; nlinarith)]
    rw [show (Real.pi - 2 * slotPad) / 2 = 82 * Real.pi / 180 by
      rw [slotPad_val]; ring]
    rw [if_pos (by linarith)]
  unfold slotR0
  rw [hw, minChordC6, hneed]
  have hgt : (480 : ℝ) < 960 * (1 / 2) / Real.sin (82 * Real.pi / 180) := by
    rw [lt_div_iff (by linarith)]
    nlinarith
  have hlt : (960 : ℝ) * (1 / 2) / Real.sin (82 * Real.pi / 180) < 640 := by
    rw [div_lt_iff (by linarith)]
    nlinarith
  rw [max_eq_right (by linarith)]
  rw [if_pos (by linarith)]
  have hceil : ⌈(960 * (1 / 2) / Real.sin (82 * Real.pi / 180) - 160) / 160⌉ =
      (3 : ℤ) := by
    rw [Int.ceil_eq_iff]
    constructor
    · push_cast
      rw [lt_div_iff (by norm_num)]
      linarith
    · push_cast
      rw [div_le_iff (by norm_num)]
      linarith
  rw [hceil]
  norm_num

theorem secC6 : slotInSector envC6 0 := by
  have hpi := Real.pi_gt_3141592
  have hpi' := Real.pi_lt_315
  have hpad := slotPad_val
  obtain ⟨ha0, hw, _⟩ :=
    slotSector_empty envC6 (slotAngles_of_no_adj envC6 rfl)
  have hpref : slotPref envC6 = 0 := rfl
  have ha0v : (slotSectorCenter envC6).1.1 = 3 * Real.pi / 2 + slotPad := by
    rw [ha0, hpref]
    rw [show (0 : ℝ) - Real.pi / 2 + slotPad =
      (3 * Real.pi / 2 + slotPad) + 2 * Real.pi * ((-1 : ℤ) : ℝ) by
        push_cast; ring]
    rw [normAngle_congr]
    exact normAngle_of_mem _ (by rw [hpad]; nlinarith) (by rw [hpad]; nlinarith)
  constructor
  · rw [if_neg (by rw [hw, hpad]; intro hcon; nlinarith)]
    have hfm : fmod ((slotSectorCenter envC6).1.1 + (slotSectorCenter envC6).1.2)
        (2 * Real.pi) = Real.pi / 2 - slotPad := by
      rw [ha0v, hw]
      rw [show 3 * Real.pi / 2 + slotPad + (Real.pi - 2 * slotPad) =
        (Real.pi / 2 - slotPad) + 2 * Real.pi * ((1 : ℤ) : ℝ) by
          push_cast; ring]
      rw [fmod_add_int_mul _ _ _ (by positivity)]
      exact fmod_eq_self _ _ (by rw [hpad]; nlinarith) (by rw [hpad]; nlinarith)
    rw [hfm, if_pos (by rw [ha0v, hpad]; nlinarith)]
    right
    rw [hpad]
    nlinarith
  · have hcone : slotConeDeg envC6 = 120 := by
      unfold slotConeDeg
      rw [slotAngles_of_no_adj envC6 rfl]
      norm_num
    rw [hcone, hpref]
    rw [show (0 : ℝ) - 0 = 0 by ring,
      normAngle_of_mem 0 le_rfl (by positivity), zero_add,
      fmod_eq_self _ _ (by positivity) (by nlinarith), sub_self, abs_zero]
    positivity

theorem runC6 : findSlotRun envC6 dZero = .accepted 0 0 640
    (candPoint envC6 0 0 640).1 (candPoint envC6 0 0 640).2 := by
  have hc : (slotSectorCenter envC6).2 = 0 := by
    rw [(slotSector_empty envC6 (slotAngles_of_no_adj envC6 rfl)).2.2,
      show slotPref envC6 = 0 from rfl]
    exact normAngle_of_mem 0 le_rfl (by positivity)
  have hr : slotR0 envC6 + ((0 : ℕ) : ℝ) * 160 = 640 := by
    rw [r0C6]; norm_num
  unfold findSlotRun
  rw [show List.range 7 = 0 :: [1, 2, 3, 4, 5, 6] from rfl]
  rw [searchRings_cons_accept envC6 dZero 0 _ (hc ▸ secC6) (freeC6 _ _)]
  rw [hc, hr]

/-- C6: counterexample to the claimed `radius == base_radius` — with no
graph-neighbors but a large average node size (`avg_diag = 1000`), the
chord-fit radius `r0` rings up to `base_radius + 3 * ring = 640`, and the
accepted first-ring slot is returned at radius `640 ≠ 160`. -/
theorem C6_counterexample :
    findSlot envC6 dZero = (0, 640) ∧ (findSlot envC6 dZero).2 ≠ 160 := by
  have h : findSlot envC6 dZero = (0, 640) := by
    unfold findSlot
    rw [runC6]
  refine ⟨h, ?_⟩
  rw [h]
  norm_num

theorem C6_witness :
    160 ≤ (findSlot envC6 dZero).2 ∧
    ∃ k : ℤ, |(findSlot envC6 dZero).1 - slotPref envC6 -
      2 * Real.pi * k| ≤ Real.pi / 2 :=
  C6_no_neighbor_slot envC6 dZero rfl

/-- Node table of the six-neighbor scenario: the anchor `0` at the origin
and six far neighbors on the axes and the two upper diagonals. -/
noncomputable def nodesC5 : ℕ → Option (ℝ × ℝ)
  | 0 => some (0, 0)
  | 1 => some (1000, 0)
  | 2 => some (700, 700)
  | 3 => some (0, 1000)
  | 4 => some (-700, 700)
  | 5 => some (-1000, 0)
  | 6 => some (0, -1000)
  | _ => none

/-- Spatial index of the six-neighbor scenario: all seven nodes inserted
with cached radius `50`. -/
noncomputable def spatialC5 : SpatialHash ℝ :=
  (((((((SpatialHash.init 120).insert 0 0 0 50).insert 1 1000 0 50).insert
    2 700 700 50).insert 3 0 1000 50).insert 4 (-700) 700 50).insert
    5 (-1000) 0 50).insert 6 0 (-1000) 50

/-- The six-neighbor `_find_free_slot` call state, parametric in the
`last_child_angle` hint. -/
noncomputable def envBase (la : ℝ) : SlotEnv where
  anchorName := 0
  anchorPos := (0, 0)
  nodes := nodesC5
  adj := [1, 2, 3, 4, 5, 6]
  level := fun _ => 0
  lastChildAngle := some la
  avgDiag := 100
  minChordRatio := 4 / 5
  snapStep := 40
  spatial := spatialC5
  hash1 := fun _ _ => 0
  hash2 := fun _ _ => 0

/-- Hint of the C4 scenario: preferred direction `45°`. -/
noncomputable def laC4 : ℝ := 45 * Real.pi / 180 - goldenAngle

/-- Hint of the C5 scenario: preferred direction `175°`. -/
noncomputable def laC5 : ℝ := 175 * Real.pi / 180 - goldenAngle

theorem anglesBase (la : ℝ) : slotAngles (envBase la) =
    [0, Real.pi / 4, Real.pi / 2, 3 * Real.pi / 4, Real.pi,
     3 * Real.pi / 2] := by
  have hpi := Real.pi_pos
  have e1 : angleBetween ((0 : ℝ), (0 : ℝ)) (1000, 0) = 0 := by
    simpa using angleBetween_right ((0 : ℝ), (0 : ℝ)) 1000 (by norm_num)
  have e2 : angleBetween ((0 : ℝ), (0 : ℝ)) (700, 700) = Real.pi / 4 := by
    simpa using angleBetween_diag ((0 : ℝ), (0 : ℝ)) 700 (by norm_num)
  have e3 : angleBetween ((0 : ℝ), (0 : ℝ)) (0, 1000) = Real.pi / 2 := by
    simpa using angleBetween_up ((0 : ℝ), (0 : ℝ)) 1000 (by norm_num)
  have e4 : angleBetween ((0 : ℝ), (0 : ℝ)) (-700, 700) =
      3 * Real.pi / 4 := by
    simpa using angleBetween_anti_diag ((0 : ℝ), (0 : ℝ)) 700 (by norm_num)
  have e5 : angleBetween ((0 : ℝ), (0 : ℝ)) (-1000, 0) = Real.pi := by
    simpa using angleBetween_left ((0 : ℝ), (0 : ℝ)) 1000 (by norm_num)
  have e6 : angleBetween ((0 : ℝ), (0 : ℝ)) (0, -1000) =
      3 * Real.pi / 2 := by
    simpa using angleBetween_down ((0 : ℝ), (0 : ℝ)) 1000 (by norm_num)
  unfold slotAngles
  have hlist : (envBase la).adj.filterMap (fun nb =>
      ((envBase la).nodes nb).map fun q =>
        angleBetween (envBase la).anchorPos q) =
      [angleBetween ((0 : ℝ), (0 : ℝ)) (1000, 0),
       angleBetween ((0 : ℝ), (0 : ℝ)) (700, 700),
       angleBetween ((0 : ℝ), (0 : ℝ)) (0, 1000),
       angleBetween ((0 : ℝ), (0 : ℝ)) (-700, 700),
       angleBetween ((0 : ℝ), (0 : ℝ)) (-1000, 0),
       angleBetween ((0 : ℝ), (0 : ℝ)) (0, -1000)] := rfl
  rw [hlist, e1, e2, e3, e4, e5, e6]
  apply sortAsc_eq_self
  have hchain : List.Chain' (· ≤ ·)
      [(0 : ℝ), Real.pi / 4, Real.pi / 2, 3 * Real.pi / 4, Real.pi,
       3 * Real.pi / 2] := by
    simp only [List.chain'_cons, List.chain'_singleton, and_true]
    refine ⟨by positivity, by linarith, by linarith, by linarith,
      by linarith⟩
  exact List.chain'_iff_pairwise.mp hchain

theorem gapsBase (la : ℝ) :
    (sortGapsDesc (gapsOf (slotAngles (envBase la)))).headD (0, 0) =
      (Real.pi / 2, Real.pi) := by
  have hpi := Real.pi_pos
  rw [anglesBase la, gapsOf_six, sortGapsDesc_headD]
  simp only [List.foldl_cons, List.foldl_nil]
  rw [if_pos (show (Real.pi / 2 - Real.pi / 4 : ℝ) ≤ Real.pi / 4 - 0 by
    linarith)]
  rw [if_pos (show (3 * Real.pi / 4 - Real.pi / 2 : ℝ) ≤ Real.pi / 4 - 0 by
    linarith)]
  rw [if_pos (show (Real.pi - 3 * Real.pi / 4 : ℝ) ≤ Real.pi / 4 - 0 by
    linarith)]
  rw [if_neg (show ¬ (3 * Real.pi / 2 - Real.pi : ℝ) ≤ Real.pi / 4 - 0 by
    intro hcon; linarith)]
  rw [if_pos (show (0 + 2 * Real.pi - 3 * Real.pi / 2 : ℝ) ≤
    3 * Real.pi / 2 - Real.pi by linarith)]
  rw [show (3 * Real.pi / 2 - Real.pi : ℝ) = Real.pi / 2 by ring]

theorem sectorBase (la : ℝ) :
    (slotSectorCenter (envBase la)).1.1 = 188 * Real.pi / 180 ∧
    (slotSectorCenter (envBase la)).1.2 = 74 * Real.pi / 180 ∧
    (slotSectorCenter (envBase la)).2 = 5 * Real.pi / 4 := by
  have hpi := Real.pi_gt_3141592
  have hpi' := Real.pi_lt_315
  have hne : slotAngles (envBase la) ≠ [] := by
    rw [anglesBase]
    simp
  unfold slotSectorCenter
  rw [if_neg hne, gapsBase la]
  refine ⟨?_, ?_, ?_⟩
  · show fmod (Real.pi + slotPad) (2 * Real.pi) = 188 * Real.pi / 180
    rw [slotPad_val]
    rw [fmod_eq_self _ _ (by nlinarith) (by nlinarith)]
    ring
  · show max (1 / 1000) (Real.pi / 2 - 2 * slotPad) = 74 * Real.pi / 180
    rw [slotPad_val]
    rw [max_eq_right (by nlinarith)]
    ring
  · show normAngle (Real.pi + Real.pi / 2 / 2) = 5 * Real.pi / 4
    rw [show Real.pi + Real.pi / 2 / 2 = 5 * Real.pi / 4 by ring]
    exact normAngle_of_mem _ (by positivity) (by nlinarith)

theorem minChordBase (la : ℝ) : slotMinChord (envBase la) = 96 := by
  show max (80 : ℝ) (100 * (12 / 10) * (4 / 5)) = 96
  norm_num

theorem r0Base (la : ℝ) : slotR0 (envBase la) = 160 := by
  have hpi := Real.pi_gt_3141592
  have hs1 := sin37_gt_half
  have hneed : needRadius (74 * Real.pi / 180) 96 =
      96 * (1 / 2) / Real.sin (37 * Real.pi / 180) := by
    unfold needRadius
    rw [max_eq_right (by nlinarith)]
    rw [show (74 * Real.pi / 180) / 2 = 37 * Real.pi / 180 by ring]
    rw [if_pos (by linarith)]
  have hle : 96 * (1 / 2) / Real.sin (37 * Real.pi / 180) ≤ 160 := by
    rw [div_le_iff (by linarith)]
    nlinarith
  unfold slotR0
  rw [(sectorBase la).2.1, minChordBase la, hneed]
  rw [max_eq_left hle]
  rw [if_neg (lt_irrefl (160 : ℝ))]

theorem coneBase (la : ℝ) : slotConeDeg (envBase la) = 60 := by
  unfold slotConeDeg
  rw [anglesBase]
  norm_num

theorem limitBase (la : ℝ) : slotLimit (envBase la) = 37 * Real.pi / 180 := by
  unfold slotLimit
  rw [(sectorBase la).2.1]
  rw [show 74 * Real.pi / 180 * 180 / Real.pi * (1 / 2) = 37 by
    field_simp
    ring]
  rw [min_eq_right (by norm_num : (37 : ℝ) ≤ 170),
    max_eq_right (by norm_num : (10 : ℝ) ≤ 37)]

theorem ksBase (la : ℝ) : slotKs (envBase la) = [1, 2, 3] := by
  have hpi := Real.pi_gt_3141592
  have hpi' := Real.pi_lt_315
  unfold slotKs
  rw [limitBase la]
  rw [show ((List.range 17).map fun k => k + 1) =
    [1, 2, 3, 4, 5, 6, 7, 8, 9, 10, 11, 12, 13, 14, 15, 16, 17] from rfl]
  simp only [List.filter_cons, List.filter_nil, decide_eq_true_eq]
  rw [if_pos (show ((1 : ℕ) : ℝ) * (Real.pi / 18) ≤
    37 * Real.pi / 180 + 1 / 1000000000 by push_cast; linarith)]
  rw [if_pos (show ((2 : ℕ) : ℝ) * (Real.pi / 18) ≤
    37 * Real.pi / 180 + 1 / 1000000000 by push_cast; linarith)]
  rw [if_pos (show ((3 : ℕ) : ℝ) * (Real.pi / 18) ≤
    37 * Real.pi / 180 + 1 / 1000000000 by push_cast; linarith)]
  rw [if_neg (show ¬ ((4 : ℕ) : ℝ) * (Real.pi / 18) ≤
    37 * Real.pi / 180 + 1 / 1000000000 by push_cast; intro hcon; linarith)]
  rw [if_neg (show ¬ ((5 : ℕ) : ℝ) * (Real.pi / 18) ≤
    37 * Real.pi / 180 + 1 / 1000000000 by push_cast; intro hcon; linarith)]
  rw [if_neg (show ¬ ((6 : ℕ) : ℝ) * (Real.pi / 18) ≤
    37 * Real.pi / 180 + 1 / 1000000000 by push_cast; intro hcon; linarith)]
  rw [if_neg (show ¬ ((7 : ℕ) : ℝ) * (Real.pi / 18) ≤
    37 * Real.pi / 180 + 1 / 1000000000 by push_cast; intro hcon; linarith)]
  rw [if_neg (show ¬ ((8 : ℕ) : ℝ) * (Real.pi / 18) ≤
    37 * Real.pi / 180 + 1 / 1000000000 by push_cast; intro hcon; linarith)]
  rw [if_neg (show ¬ ((9 : ℕ) : ℝ) * (Real.pi / 18) ≤
    37 * Real.pi / 180 + 1 / 1000000000 by push_cast; intro hcon; linarith)]
  rw [if_neg (show ¬ ((10 : ℕ) : ℝ) * (Real.pi / 18) ≤
    37 * Real.pi / 180 + 1 / 1000000000 by push_cast; intro hcon; linarith)]
  rw [if_neg (show ¬ ((11 : ℕ) : ℝ) * (Real.pi / 18) ≤
    37 * Real.pi / 180 + 1 / 1000000000 by push_cast; intro hcon; linarith)]
  rw [if_neg (show ¬ ((12 : ℕ) : ℝ) * (Real.pi / 18) ≤
    37 * Real.pi / 180 + 1 / 1000000000 by push_cast; intro hcon; linarith)]
  rw [if_neg (show ¬ ((13 : ℕ) : ℝ) * (Real.pi / 18) ≤
    37 * Real.pi / 180 + 1 / 1000000000 by push_cast; intro hcon; linarith)]
  rw [if_neg (show ¬ ((14 : ℕ) : ℝ) * (Real.pi / 18) ≤
    37 * Real.pi / 180 + 1 / 1000000000 by push_cast; intro hcon; linarith)]
  rw [if_neg (show ¬ ((15 : ℕ) : ℝ) * (Real.pi / 18) ≤
    37 * Real.pi / 180 + 1 / 1000000000 by push_cast; intro hcon; linarith)]
  rw [if_neg (show ¬ ((16 : ℕ) : ℝ) * (Real.pi / 18) ≤
    37 * Real.pi / 180 + 1 / 1000000000 by push_cast; intro hcon; linarith)]
  rw [if_neg (show ¬ ((17 : ℕ) : ℝ) * (Real.pi / 18) ≤
    37 * Real.pi / 180 + 1 / 1000000000 by push_cast; intro hcon; linarith)]

theorem candsBase (la : ℝ) : slotCands (envBase la) =
    [5 * Real.pi / 4,
     235 * Real.pi / 180, 215 * Real.pi / 180,
     245 * Real.pi / 180, 205 * Real.pi / 180,
     255 * Real.pi / 180, 195 * Real.pi / 180] := by
  have hpi := Real.pi_gt_3141592
  have hpi' := Real.pi_lt_315
  unfold slotCands
  rw [ksBase la, (sectorBase la).2.2]
  simp only [List.flatMap_cons, List.flatMap_nil, List.cons_append,
    List.nil_append, List.append_nil]
  rw [show 5 * Real.pi / 4 + ((1 : ℕ) : ℝ) * (Real.pi / 18) =
    235 * Real.pi / 180 by push_cast; ring]
  rw [show 5 * Real.pi / 4 - ((1 : ℕ) : ℝ) * (Real.pi / 18) =
    215 * Real.pi / 180 by push_cast; ring]
  rw [normAngle_of_mem (235 * Real.pi / 180) (by positivity) (by nlinarith)]
  rw [normAngle_of_mem (215 * Real.pi / 180) (by positivity) (by nlinarith)]
  rw [show 5 * Real.pi / 4 + ((2 : ℕ) : ℝ) * (Real.pi / 18) =
    245 * Real.pi / 180 by push_cast; ring]
  rw [show 5 * Real.pi / 4 - ((2 : ℕ) : ℝ) * (Real.pi / 18) =
    205 * Real.pi / 180 by push_cast; ring]
  rw [normAngle_of_mem (245 * Real.pi / 180) (by positivity) (by nlinarith)]
  rw [normAngle_of_mem (205 * Real.pi / 180) (by positivity) (by nlinarith)]
  rw [show 5 * Real.pi / 4 + ((3 : ℕ) : ℝ) * (Real.pi / 18) =
    255 * Real.pi / 180 by push_cast; ring]
  rw [show 5 * Real.pi / 4 - ((3 : ℕ) : ℝ) * (Real.pi / 18) =
    195 * Real.pi / 180 by push_cast; ring]
  rw [normAngle_of_mem (255 * Real.pi / 180) (by positivity) (by nlinarith)]
  rw [normAngle_of_mem (195 * Real.pi / 180) (by positivity) (by nlinarith)]

theorem spatialC5_mem (nm : ℕ) (k : ℤ × ℤ) (h : nm ∈ spatialC5.grid k) :
    nm ≤ 6 := by
  unfold spatialC5 at h
  rcases mem_grid_insert_elim _ _ _ _ _ _ _ h with rfl | h
  · norm_num
  rcases mem_grid_insert_elim _ _ _ _ _ _ _ h with rfl | h
  · norm_num
  rcases mem_grid_insert_elim _ _ _ _ _ _ _ h with rfl | h
  · norm_num
  rcases mem_grid_insert_elim _ _ _ _ _ _ _ h with rfl | h
  · norm_num
  rcases mem_grid_insert_elim _ _ _ _ _ _ _ h with rfl | h
  · norm_num
  rcases mem_grid_insert_elim _ _ _ _ _ _ _ h with rfl | h
  · norm_num
  rcases mem_grid_insert_elim _ _ _ _ _ _ _ h with rfl | h
  · norm_num
  simp [SpatialHash.init] at h

theorem spatialC5_radius (nm : ℕ) (h : nm ≤ 6) :
    spatialC5.radius nm = some 50 := by
  interval_cases nm <;>
    simp [spatialC5, SpatialHash.insert, Function.update]

theorem prefC4 : slotPref (envBase laC4) = 45 * Real.pi / 180 := by
  show laC4 + goldenAngle = 45 * Real.pi / 180
  unfold laC4
  ring

/-- With the preferred direction at `45°` and the selected gap centered at
`225°`, every candidate angle is at least `150°` away from the preferred
direction and fails the cone test. -/
theorem blockedC4 :
    ∀ a ∈ slotCands (envBase laC4), ¬ slotInSector (envBase laC4) a := by
  have hpi := Real.pi_gt_3141592
  have hpi' := Real.pi_lt_315
  intro a ha
  rw [candsBase laC4] at ha
  simp only [List.mem_cons, List.not_mem_nil, or_false] at ha
  rcases ha with rfl | rfl | rfl | rfl | rfl | rfl | rfl
  · intro hsec
    obtain ⟨_, hcone⟩ := hsec
    rw [coneBase, prefC4] at hcone
    rw [show (5 * Real.pi / 4 : ℝ) - 45 * Real.pi / 180 = Real.pi by
      ring] at hcone
    rw [normAngle_of_mem Real.pi (by positivity) (by nlinarith)] at hcone
    rw [show (Real.pi + Real.pi : ℝ) = 0 + 2 * Real.pi * ((1 : ℤ) : ℝ) by
      push_cast; ring] at hcone
    rw [fmod_add_int_mul _ _ _ (by positivity)] at hcone
    rw [fmod_eq_self 0 _ le_rfl (by positivity)] at hcone
    rw [zero_sub, abs_neg, abs_of_nonneg Real.pi_pos.le] at hcone
    linarith
  · intro hsec
    obtain ⟨_, hcone⟩ := hsec
    rw [coneBase, prefC4] at hcone
    rw [show (235 * Real.pi / 180 : ℝ) - 45 * Real.pi / 180 =
      190 * Real.pi / 180 by ring] at hcone
    rw [normAngle_of_mem (190 * Real.pi / 180) (by positivity)
      (by nlinarith)] at hcone
    rw [show (190 * Real.pi / 180 + Real.pi : ℝ) =
      10 * Real.pi / 180 + 2 * Real.pi * ((1 : ℤ) : ℝ) by
      push_cast; ring] at hcone
    rw [fmod_add_int_mul _ _ _ (by positivity)] at hcone
    rw [fmod_eq_self _ _ (by positivity) (by nlinarith)] at hcone
    rw [show (10 * Real.pi / 180 - Real.pi : ℝ) =
      -(170 * Real.pi / 180) by ring, abs_neg,
      abs_of_nonneg (by positivity)] at hcone
    linarith
  · intro hsec
    obtain ⟨_, hcone⟩ := hsec
    rw [coneBase, prefC4] at hcone
    rw [show (215 * Real.pi / 180 : ℝ) - 45 * Real.pi / 180 =
      170 * Real.pi / 180 by ring] at hcone
    rw [normAngle_of_mem (170 * Real.pi / 180) (by positivity)
      (by nlinarith)] at hcone
    rw [show (170 * Real.pi / 180 + Real.pi : ℝ) =
      350 * Real.pi / 180 by ring] at hcone
    rw [fmod_eq_self _ _ (by positivity) (by nlinarith)] at hcone
    rw [show (350 * Real.pi / 180 - Real.pi : ℝ) =
      170 * Real.pi / 180 by ring,
      abs_of_nonneg (by positivity)] at hcone
    linarith
  · intro hsec
    obtain ⟨_, hcone⟩ := hsec
    rw [coneBase, prefC4] at hcone
    rw [show (245 * Real.pi / 180 : ℝ) - 45 * Real.pi / 180 =
      200 * Real.pi / 180 by ring] at hcone
    rw [normAngle_of_mem (200 * Real.pi / 180) (by positivity)
      (by nlinarith)] at hcone
    rw [show (200 * Real.pi / 180 + Real.pi : ℝ) =
      20 * Real.pi / 180 + 2 * Real.pi * ((1 : ℤ) : ℝ) by
      push_cast; ring] at hcone
    rw [fmod_add_int_mul _ _ _ (by positivity)] at hcone
    rw [fmod_eq_self _ _ (by positivity) (by nlinarith)] at hcone
    rw [show (20 * Real.pi / 180 - Real.pi : ℝ) =
      -(160 * Real.pi / 180) by ring, abs_neg,
      abs_of_nonneg (by positivity)] at hcone
    linarith
  · intro hsec
    obtain ⟨_, hcone⟩ := hsec
    rw [coneBase, prefC4] at hcone
    rw [show (205 * Real.pi / 180 : ℝ) - 45 * Real.pi / 180 =
      160 * Real.pi / 180 by ring] at hcone
    rw [normAngle_of_mem (160 * Real.pi / 180) (by positivity)
      (by nlinarith)] at hcone
    rw [show (160 * Real.pi / 180 + Real.pi : ℝ) =
      340 * Real.pi / 180 by ring] at hcone
    rw [fmod_eq_self _ _ (by positivity) (by nlinarith)] at hcone
    rw [show (340 * Real.pi / 180 - Real.pi : ℝ) =
      160 * Real.pi / 180 by ring,
      abs_of_nonneg (by positivity)] at hcone
    linarith
  · intro hsec
    obtain ⟨_, hcone⟩ := hsec
    rw [coneBase, prefC4] at hcone
    rw [show (255 * Real.pi / 180 : ℝ) - 45 * Real.pi / 180 =
      210 * Real.pi / 180 by ring] at hcone
    rw [normAngle_of_mem (210 * Real.pi / 180) (by positivity)
      (by nlinarith)] at hcone
    rw [show (210 * Real.pi / 180 + Real.pi : ℝ) =
      30 * Real.pi / 180 + 2 * Real.pi * ((1 : ℤ) : ℝ) by
      push_cast; ring] at hcone
    rw [fmod_add_int_mul _ _ _ (by positivity)] at hcone
    rw [fmod_eq_self _ _ (by positivity) (by nlinarith)] at hcone
    rw [show (30 * Real.pi / 180 - Real.pi : ℝ) =
      -(150 * Real.pi / 180) by ring, abs_neg,
      abs_of_nonneg (by positivity)] at hcone
    linarith
  · intro hsec
    obtain ⟨_, hcone⟩ := hsec
    rw [coneBase, prefC4] at hcone
    rw [show (195 * Real.pi / 180 : ℝ) - 45 * Real.pi / 180 =
      150 * Real.pi / 180 by ring] at hcone
    rw [normAngle_of_mem (150 * Real.pi / 180) (by positivity)
      (by nlinarith)] at hcone
    rw [show (150 * Real.pi / 180 + Real.pi : ℝ) =
      330 * Real.pi / 180 by ring] at hcone
    rw [fmod_eq_self _ _ (by positivity) (by nlinarith)] at hcone
    rw [show (330 * Real.pi / 180 - Real.pi : ℝ) =
      150 * Real.pi / 180 by ring,
      abs_of_nonneg (by positivity)] at hcone
    linarith

theorem runC4 : findSlotRun (envBase laC4) dZero =
    .fallback (5 * Real.pi / 4) 320 := by
  unfold findSlotRun
  rw [searchRings_all_blocked (envBase laC4) dZero blockedC4]
  rw [(sectorBase laC4).2.2]
  rw [show slotR0 (envBase laC4) + 160 = 320 by rw [r0Base]; norm_num]

/-- C4: counterexample to "one ring-step beyond the *last tried* radius" —
when every candidate fails (preferred direction opposite the free gap), the
fallback radius is `r0 + ring = 320`, one step beyond the *first* searched
radius, not `r0 + max_rings * ring + ring = 1280` as one step beyond the
last (largest) tried radius `r0 + 6 * 160` would be. -/
theorem C4_counterexample :
    findSlot (envBase laC4) dZero = (5 * Real.pi / 4, 320) ∧
    slotR0 (envBase laC4) = 160 ∧
    (findSlot (envBase laC4) dZero).2 ≠
      slotR0 (envBase laC4) + 6 * 160 + 160 := by
  have h : findSlot (envBase laC4) dZero = (5 * Real.pi / 4, 320) := by
    unfold findSlot
    rw [runC4]
  refine ⟨h, r0Base laC4, ?_⟩
  rw [h, r0Base laC4]
  norm_num

theorem C4_witness :
    (5 * Real.pi / 4 : ℝ) = (slotSectorCenter (envBase laC4)).2 ∧
    (320 : ℝ) = slotR0 (envBase laC4) + 160 :=
  C4_fallback_center_r0_plus_ring (envBase laC4) dZero
    (5 * Real.pi / 4) 320 runC4

theorem prefC5 : slotPref (envBase laC5) = 175 * Real.pi / 180 := by
  show laC5 + goldenAngle = 175 * Real.pi / 180
  unfold laC5
  ring

theorem secC5 : slotInSector (envBase laC5) (5 * Real.pi / 4) := by
  have hpi := Real.pi_gt_3141592
  have hpi' := Real.pi_lt_315
  obtain ⟨ha0, hw, _⟩ := sectorBase laC5
  constructor
  · rw [if_neg (show ¬ 2 * Real.pi - 1 / 1000 ≤
      (slotSectorCenter (envBase laC5)).1.2 by
        rw [hw]; intro hcon; nlinarith)]
    have hfm : fmod ((slotSectorCenter (envBase laC5)).1.1 +
        (slotSectorCenter (envBase laC5)).1.2) (2 * Real.pi) =
        262 * Real.pi / 180 := by
      rw [ha0, hw]
      rw [show 188 * Real.pi / 180 + 74 * Real.pi / 180 =
        262 * Real.pi / 180 by ring]
      exact fmod_eq_self _ _ (by positivity) (by nlinarith)
    rw [hfm, if_neg (show ¬ (262 * Real.pi / 180 : ℝ) <
      (slotSectorCenter (envBase laC5)).1.1 by
        rw [ha0]; intro hcon; nlinarith)]
    rw [ha0]
    constructor
    · linarith
    · linarith
  · rw [coneBase, prefC5]
    rw [show (5 * Real.pi / 4 : ℝ) - 175 * Real.pi / 180 =
      50 * Real.pi / 180 by ring]
    rw [normAngle_of_mem _ (by positivity) (by nlinarith)]
    rw [show (50 * Real.pi / 180 + Real.pi : ℝ) = 230 * Real.pi / 180 by
      ring]
    rw [fmod_eq_self _ _ (by positivity) (by nlinarith)]
    rw [show (230 * Real.pi / 180 - Real.pi : ℝ) = 50 * Real.pi / 180 by
      ring, abs_of_nonneg (by positivity)]
    linarith

theorem cos_5pi4 : Real.cos (5 * Real.pi / 4) = -(Real.sqrt 2 / 2) := by
  rw [show (5 * Real.pi / 4 : ℝ) = Real.pi + Real.pi / 4 by ring]
  rw [Real.cos_add, Real.cos_pi, Real.sin_pi, Real.cos_pi_div_four,
    Real.sin_pi_div_four]
  ring

theorem sin_5pi4 : Real.sin (5 * Real.pi / 4) = -(Real.sqrt 2 / 2) := by
  rw [show (5 * Real.pi / 4 : ℝ) = Real.pi + Real.pi / 4 by ring]
  rw [Real.sin_add, Real.cos_pi, Real.sin_pi, Real.cos_pi_div_four,
    Real.sin_pi_div_four]
  ring

theorem candC5 : candPoint (envBase laC5) 0 (5 * Real.pi / 4) 160 =
    (-120, -120) := by
  rw [candPoint_ring0]
  show snap (40 : ℝ) ((0 : ℝ) + 160 * Real.cos (5 * Real.pi / 4),
    (0 : ℝ) + 160 * Real.sin (5 * Real.pi / 4)) = (-120, -120)
  rw [cos_5pi4, sin_5pi4]
  unfold snap
  rw [show ((0 : ℝ) + 160 * -(Real.sqrt 2 / 2)) / 40 = -2 * Real.sqrt 2 by
    ring]
  rw [pyround_eq_of_mem (-2 * Real.sqrt 2) (-3)
    (by push_cast; linarith [sqrt_two_lt])
    (by push_cast; linarith [sqrt_two_gt])]
  norm_num

theorem freeC5 : isPosFree (envBase laC5) dZero (-120, -120) 140 := by
  intro nm hm q hq
  unfold SpatialHash.neighbors at hm
  obtain ⟨k, hk, hg⟩ := Finset.mem_biUnion.mp hm
  rw [show (envBase laC5).spatial = spatialC5 from rfl] at hg
  have h6 := spatialC5_mem nm k hg
  rw [show (envBase laC5).spatial = spatialC5 from rfl,
    spatialC5_radius nm h6]
  simp only [Option.getD_some]
  rw [show nodeRadiusPx (envBase laC5) dZero none = 70 by
    show max (120 : ℝ) 100 * (1 / 2) + 10 = 70; norm_num]
  rw [show max ((140 : ℝ) * (1 / 2)) 70 = 70 by norm_num]
  interval_cases nm
  · rw [show (envBase laC5).nodes 0 = some ((0 : ℝ), (0 : ℝ)) from rfl] at hq
    obtain rfl := Option.some.inj hq
    exact not_lt.mpr (le_sqrt_of_sq_le _ _ (by norm_num) (by norm_num))
  · rw [show (envBase laC5).nodes 1 = some ((1000 : ℝ), (0 : ℝ)) from rfl]
      at hq
    obtain rfl := Option.some.inj hq
    exact not_lt.mpr (le_sqrt_of_sq_le _ _ (by norm_num) (by norm_num))
  · rw [show (envBase laC5).nodes 2 = some ((700 : ℝ), (700 : ℝ)) from rfl]
      at hq
    obtain rfl := Option.some.inj hq
    exact not_lt.mpr (le_sqrt_of_sq_le _ _ (by norm_num) (by norm_num))
  · rw [show (envBase laC5).nodes 3 = some ((0 : ℝ), (1000 : ℝ)) from rfl]
      at hq
    obtain rfl := Option.some.inj hq
    exact not_lt.mpr (le_sqrt_of_sq_le _ _ (by norm_num) (by norm_num))
  · rw [show (envBase laC5).nodes 4 = some ((-700 : ℝ), (700 : ℝ)) from rfl]
      at hq
    obtain rfl := Option.some.inj hq
    exact not_lt.mpr (le_sqrt_of_sq_le _ _ (by norm_num) (by norm_num))
  · rw [show (envBase laC5).nodes 5 = some ((-1000 : ℝ), (0 : ℝ)) from rfl]
      at hq
    obtain rfl := Option.some.inj hq
    exact not_lt.mpr (le_sqrt_of_sq_le _ _ (by norm_num) (by norm_num))
  · rw [show (envBase laC5).nodes 6 = some ((0 : ℝ), (-1000 : ℝ)) from rfl]
      at hq
    obtain rfl := Option.some.inj hq
    exact not_lt.mpr (le_sqrt_of_sq_le _ _ (by norm_num) (by norm_num))

theorem runC5 : findSlotRun (envBase laC5) dZero =
    .accepted 0 (5 * Real.pi / 4) 160 (-120) (-120) := by
  have hc := (sectorBase laC5).2.2
  have hr : slotR0 (envBase laC5) + ((0 : ℕ) : ℝ) * 160 = 160 := by
    rw [r0Base]
    norm_num
  unfold findSlotRun
  rw [show List.range 7 = 0 :: [1, 2, 3, 4, 5, 6] from rfl]
  rw [searchRings_cons_accept (envBase laC5) dZero 0 _
    (by rw [hc]; exact secC5)
    (by rw [hc, hr, candC5]; exact freeC5)]
  rw [hc, hr, candC5]

/-- C5: counterexample to the claimed cone width `max(60°, 120° − 10°·n)`:
with six neighbors that parameter is `60`, yet the code accepts the
gap-center candidate `50°` away from the preferred direction — the code
compares the wrapped offset against the *full* `max(60°, …)` figure, so the
cone's total width is twice the claimed one; and `_find_free_slot` contains
no quarter-width-slice fallback (a degenerate gap-cone intersection simply
leads to the exhausted-search fallback). -/
theorem C5_counterexample :
    findSlotRun (envBase laC5) dZero =
      .accepted 0 (5 * Real.pi / 4) 160 (-120) (-120) ∧
    slotConeDeg (envBase laC5) = 60 ∧
    |fmod (normAngle (5 * Real.pi / 4 - slotPref (envBase laC5)) + Real.pi)
      (2 * Real.pi) - Real.pi| = 50 * Real.pi / 180 ∧
    ¬ |fmod (normAngle (5 * Real.pi / 4 - slotPref (envBase laC5)) + Real.pi)
      (2 * Real.pi) - Real.pi| ≤ 60 / 2 * Real.pi / 180 := by
  have hpi := Real.pi_gt_3141592
  have hpi' := Real.pi_lt_315
  have hd : |fmod (normAngle (5 * Real.pi / 4 - slotPref (envBase laC5)) +
      Real.pi) (2 * Real.pi) - Real.pi| = 50 * Real.pi / 180 := by
    rw [prefC5]
    rw [show (5 * Real.pi / 4 : ℝ) - 175 * Real.pi / 180 =
      50 * Real.pi / 180 by ring]
    rw [normAngle_of_mem _ (by positivity) (by nlinarith)]
    rw [show (50 * Real.pi / 180 + Real.pi : ℝ) = 230 * Real.pi / 180 by
      ring]
    rw [fmod_eq_self _ _ (by positivity) (by nlinarith)]
    rw [show (230 * Real.pi / 180 - Real.pi : ℝ) = 50 * Real.pi / 180 by
      ring]
    exact abs_of_nonneg (by positivity)
  refine ⟨runC5, coneBase laC5, hd, ?_⟩
  rw [hd]
  intro hcon
  linarith

theorem C5_witness : slotInSector (envBase laC5) (5 * Real.pi / 4) :=
  C5_accepted_candidates_in_cone (envBase laC5) dZero 0
    (5 * Real.pi / 4) 160 (-120) (-120) runC5

/-- Node table of the jitter scenario: anchor `0` at the origin, four far
axis neighbors `1`–`4`, and an unrelated node `5` near the first search
ring. -/
noncomputable def nodesC1 : ℕ → Option (ℝ × ℝ)
  | 0 => some (0, 0)
  | 1 => some (1000, 0)
  | 2 => some (0, 1000)
  | 3 => some (-1000, 0)
  | 4 => some (0, -1000)
  | 5 => some (170, 170)
  | _ => none

/-- Spatial index of the jitter scenario: the anchor is cached with a large
radius `330` (it blocks the whole first ring), the others with `50`. -/
noncomputable def spatialC1 : SpatialHash ℝ :=
  ((((((SpatialHash.init 120).insert 0 0 0 330).insert 1 1000 0 50).insert
    2 0 1000 50).insert 3 (-1000) 0 50).insert 4 0 (-1000) 50).insert
    5 170 170 50

/-- The jitter `_find_free_slot` call state: preferred direction `45°`,
zero process hashes, average diagonal `325`. -/
noncomputable def envC1 : SlotEnv where
  anchorName := 0
  anchorPos := (0, 0)
  nodes := nodesC1
  adj := [1, 2, 3, 4]
  level := fun _ => 0
  lastChildAngle := some laC4
  avgDiag := 325
  minChordRatio := 4 / 5
  snapStep := 40
  spatial := spatialC1
  hash1 := fun _ _ => 0
  hash2 := fun _ _ => 0

theorem prefC1 : slotPref envC1 = 45 * Real.pi / 180 := by
  show laC4 + goldenAngle = 45 * Real.pi / 180
  unfold laC4
  ring

theorem anglesC1 : slotAngles envC1 =
    [0, Real.pi / 2, Real.pi, 3 * Real.pi / 2] := by
  have hpi := Real.pi_pos
  have e1 : angleBetween ((0 : ℝ), (0 : ℝ)) (1000, 0) = 0 := by
    simpa using angleBetween_right ((0 : ℝ), (0 : ℝ)) 1000 (by norm_num)
  have e2 : angleBetween ((0 : ℝ), (0 : ℝ)) (0, 1000) = Real.pi / 2 := by
    simpa using angleBetween_up ((0 : ℝ), (0 : ℝ)) 1000 (by norm_num)
  have e3 : angleBetween ((0 : ℝ), (0 : ℝ)) (-1000, 0) = Real.pi := by
    simpa using angleBetween_left ((0 : ℝ), (0 : ℝ)) 1000 (by norm_num)
  have e4 : angleBetween ((0 : ℝ), (0 : ℝ)) (0, -1000) =
      3 * Real.pi / 2 := by
    simpa using angleBetween_down ((0 : ℝ), (0 : ℝ)) 1000 (by norm_num)
  unfold slotAngles
  have hlist : envC1.adj.filterMap (fun nb =>
      (envC1.nodes nb).map fun q => angleBetween envC1.anchorPos q) =
      [angleBetween ((0 : ℝ), (0 : ℝ)) (1000, 0),
       angleBetween ((0 : ℝ), (0 : ℝ)) (0, 1000),
       angleBetween ((0 : ℝ), (0 : ℝ)) (-1000, 0),
       angleBetween ((0 : ℝ), (0 : ℝ)) (0, -1000)] := rfl
  rw [hlist, e1, e2, e3, e4]
  apply sortAsc_eq_self
  have hchain : List.Chain' (· ≤ ·)
      [(0 : ℝ), Real.pi / 2, Real.pi, 3 * Real.pi / 2] := by
    simp only [List.chain'_cons, List.chain'_singleton, and_true]
    refine ⟨by positivity, by linarith, by linarith⟩
  exact List.chain'_iff_pairwise.mp hchain

theorem gapsC1 :
    (sortGapsDesc (gapsOf (slotAngles envC1))).headD (0, 0) =
      (Real.pi / 2, 0) := by
  have hpi := Real.pi_pos
  rw [anglesC1, gapsOf_four, sortGapsDesc_headD]
  simp only [List.foldl_cons, List.foldl_nil]
  rw [if_pos (show (Real.pi - Real.pi / 2 : ℝ) ≤ Real.pi / 2 - 0 by
    linarith)]
  rw [if_pos (show (3 * Real.pi / 2 - Real.pi : ℝ) ≤ Real.pi / 2 - 0 by
    linarith)]
  rw [if_pos (show (0 + 2 * Real.pi - 3 * Real.pi / 2 : ℝ) ≤
    Real.pi / 2 - 0 by linarith)]
  rw [sub_zero]

theorem sectorC1 :
    (slotSectorCenter envC1).1.1 = 8 * Real.pi / 180 ∧
    (slotSectorCenter envC1).1.2 = 74 * Real.pi / 180 ∧
    (slotSectorCenter envC1).2 = Real.pi / 4 := by
  have hpi := Real.pi_gt_3141592
  have hpi' := Real.pi_lt_315
  have hne : slotAngles envC1 ≠ [] := by
    rw [anglesC1]
    simp
  unfold slotSectorCenter
  rw [if_neg hne, gapsC1]
  refine ⟨?_, ?_, ?_⟩
  · show fmod ((0 : ℝ) + slotPad) (2 * Real.pi) = 8 * Real.pi / 180
    rw [slotPad_val]
    rw [fmod_eq_self _ _ (by nlinarith) (by nlinarith)]
    ring
  · show max (1 / 1000) (Real.pi / 2 - 2 * slotPad) = 74 * Real.pi / 180
    rw [slotPad_val]
    rw [max_eq_right (by nlinarith)]
    ring
  · show normAngle ((0 : ℝ) + Real.pi / 2 / 2) = Real.pi / 4
    rw [show (0 : ℝ) + Real.pi / 2 / 2 = Real.pi / 4 by ring]
    exact normAngle_of_mem _ (by positivity) (by nlinarith)

theorem minChordC1 : slotMinChord envC1 = 312 := by
  show max (80 : ℝ) (325 * (12 / 10) * (4 / 5)) = 312
  norm_num

theorem r0C1 : slotR0 envC1 = 320 := by
  have hpi := Real.pi_gt_3141592
  have hs1 := sin37_gt_half
  have hs2 := sin37_lt
  have hs2' : Real.sin (37 * Real.pi / 180) < 7075 / 10000 := by
    have := sqrt_two_lt
    linarith
  have hneed : needRadius (74 * Real.pi / 180) 312 =
      312 * (1 / 2) / Real.sin (37 * Real.pi / 180) := by
    unfold needRadius
    rw [max_eq_right (by nlinarith)]
    rw [show (74 * Real.pi / 180) / 2 = 37 * Real.pi / 180 by ring]
    rw [if_pos (by linarith)]
  have hgt : (160 : ℝ) < 312 * (1 / 2) / Real.sin (37 * Real.pi / 180) := by
    rw [lt_div_iff (by linarith)]
    nlinarith
  have hle : 312 * (1 / 2) / Real.sin (37 * Real.pi / 180) ≤ 320 := by
    rw [div_le_iff (by linarith)]
    nlinarith
  unfold slotR0
  rw [(sectorC1).2.1, minChordC1, hneed]
  rw [max_eq_right (le_of_lt hgt)]
  rw [if_pos hgt]
  have hceil : ⌈(312 * (1 / 2) / Real.sin (37 * Real.pi / 180) - 160) /
      160⌉ = (1 : ℤ) := by
    rw [Int.ceil_eq_iff]
    constructor
    · push_cast
      rw [lt_div_iff (by norm_num)]
      linarith
    · push_cast
      rw [div_le_iff (by norm_num)]
      linarith
  rw [hceil]
  norm_num

theorem coneC1 : slotConeDeg envC1 = 80 := by
  unfold slotConeDeg
  rw [anglesC1]
  norm_num

theorem limitC1 : slotLimit envC1 = 37 * Real.pi / 180 := by
  unfold slotLimit
  rw [(sectorC1).2.1]
  rw [show 74 * Real.pi / 180 * 180 / Real.pi * (1 / 2) = 37 by
    field_simp
    ring]
  rw [min_eq_right (by norm_num : (37 : ℝ) ≤ 170),
    max_eq_right (by norm_num : (10 : ℝ) ≤ 37)]

theorem ksC1 : slotKs envC1 = [1, 2, 3] := by
  have hpi := Real.pi_gt_3141592
  have hpi' := Real.pi_lt_315
  unfold slotKs
  rw [limitC1]
  rw [show ((List.range 17).map fun k => k + 1) =
    [1, 2, 3, 4, 5, 6, 7, 8, 9, 10, 11, 12, 13, 14, 15, 16, 17] from rfl]
  simp only [List.filter_cons, List.filter_nil, decide_eq_true_eq]
  rw [if_pos (show ((1 : ℕ) : ℝ) * (Real.pi / 18) ≤
    37 * Real.pi / 180 + 1 / 1000000000 by push_cast; linarith)]
  rw [if_pos (show ((2 : ℕ) : ℝ) * (Real.pi / 18) ≤
    37 * Real.pi / 180 + 1 / 1000000000 by push_cast; linarith)]
  rw [if_pos (show ((3 : ℕ) : ℝ) * (Real.pi / 18) ≤
    37 * Real.pi / 180 + 1 / 1000000000 by push_cast; linarith)]
  rw [if_neg (show ¬ ((4 : ℕ) : ℝ) * (Real.pi / 18) ≤
    37 * Real.pi / 180 + 1 / 1000000000 by push_cast; intro hcon; linarith)]
  rw [if_neg (show ¬ ((5 : ℕ) : ℝ) * (Real.pi / 18) ≤
    37 * Real.pi / 180 + 1 / 1000000000 by push_cast; intro hcon; linarith)]
  rw [if_neg (show ¬ ((6 : ℕ) : ℝ) * (Real.pi / 18) ≤
    37 * Real.pi / 180 + 1 / 1000000000 by push_cast; intro hcon; linarith)]
  rw [if_neg (show ¬ ((7 : ℕ) : ℝ) * (Real.pi / 18) ≤
    37 * Real.pi / 180 + 1 / 1000000000 by push_cast; intro hcon; linarith)]
  rw [if_neg (show ¬ ((8 : ℕ) : ℝ) * (Real.pi / 18) ≤
    37 * Real.pi / 180 + 1 / 1000000000 by push_cast; intro hcon; linarith)]
  rw [if_neg (show ¬ ((9 : ℕ) : ℝ) * (Real.pi / 18) ≤
    37 * Real.pi / 180 + 1 / 1000000000 by push_cast; intro hcon; linarith)]
  rw [if_neg (show ¬ ((10 : ℕ) : ℝ) * (Real.pi / 18) ≤
    37 * Real.pi / 180 + 1 / 1000000000 by push_cast; intro hcon; linarith)]
  rw [if_neg (show ¬ ((11 : ℕ) : ℝ) * (Real.pi / 18) ≤
    37 * Real.pi / 180 + 1 / 1000000000 by push_cast; intro hcon; linarith)]
  rw [if_neg (show ¬ ((12 : ℕ) : ℝ) * (Real.pi / 18) ≤
    37 * Real.pi / 180 + 1 / 1000000000 by push_cast; intro hcon; linarith)]
  rw [if_neg (show ¬ ((13 : ℕ) : ℝ) * (Real.pi / 18) ≤
    37 * Real.pi / 180 + 1 / 1000000000 by push_cast; intro hcon; linarith)]
  rw [if_neg (show ¬ ((14 : ℕ) : ℝ) * (Real.pi / 18) ≤
    37 * Real.pi / 180 + 1 / 1000000000 by push_cast; intro hcon; linarith)]
  rw [if_neg (show ¬ ((15 : ℕ) : ℝ) * (Real.pi / 18) ≤
    37 * Real.pi / 180 + 1 / 1000000000 by push_cast; intro hcon; linarith)]
  rw [if_neg (show ¬ ((16 : ℕ) : ℝ) * (Real.pi / 18) ≤
    37 * Real.pi / 180 + 1 / 1000000000 by push_cast; intro hcon; linarith)]
  rw [if_neg (show ¬ ((17 : ℕ) : ℝ) * (Real.pi / 18) ≤
    37 * Real.pi / 180 + 1 / 1000000000 by push_cast; intro hcon; linarith)]

theorem candsC1 : slotCands envC1 =
    [Real.pi / 4,
     55 * Real.pi / 180, 35 * Real.pi / 180,
     65 * Real.pi / 180, 25 * Real.pi / 180,
     75 * Real.pi / 180, 15 * Real.pi / 180] := by
  have hpi := Real.pi_gt_3141592
  have hpi' := Real.pi_lt_315
  unfold slotCands
  rw [ksC1, (sectorC1).2.2]
  simp only [List.flatMap_cons, List.flatMap_nil, List.cons_append,
    List.nil_append, List.append_nil]
  rw [show Real.pi / 4 + ((1 : ℕ) : ℝ) * (Real.pi / 18) =
    55 * Real.pi / 180 by push_cast; ring]
  rw [show Real.pi / 4 - ((1 : ℕ) : ℝ) * (Real.pi / 18) =
    35 * Real.pi / 180 by push_cast; ring]
  rw [normAngle_of_mem (55 * Real.pi / 180) (by positivity) (by nlinarith)]
  rw [normAngle_of_mem (35 * Real.pi / 180) (by positivity)
    (by nlinarith)]
  rw [show Real.pi / 4 + ((2 : ℕ) : ℝ) * (Real.pi / 18) =
    65 * Real.pi / 180 by push_cast; ring]
  rw [show Real.pi / 4 - ((2 : ℕ) : ℝ) * (Real.pi / 18) =
    25 * Real.pi / 180 by push_cast; ring]
  rw [normAngle_of_mem (65 * Real.pi / 180) (by positivity) (by nlinarith)]
  rw [normAngle_of_mem (25 * Real.pi / 180) (by positivity)
    (by nlinarith)]
  rw [show Real.pi / 4 + ((3 : ℕ) : ℝ) * (Real.pi / 18) =
    75 * Real.pi / 180 by push_cast; ring]
  rw [show Real.pi / 4 - ((3 : ℕ) : ℝ) * (Real.pi / 18) =
    15 * Real.pi / 180 by push_cast; ring]
  rw [normAngle_of_mem (75 * Real.pi / 180) (by positivity) (by nlinarith)]
  rw [normAngle_of_mem (15 * Real.pi / 180) (by positivity)
    (by nlinarith)]

theorem spatialC1_mem (nm : ℕ) (k : ℤ × ℤ) (h : nm ∈ spatialC1.grid k) :
    nm ≤ 5 := by
  unfold spatialC1 at h
  rcases mem_grid_insert_elim _ _ _ _ _ _ _ h with rfl | h
  · norm_num
  rcases mem_grid_insert_elim _ _ _ _ _ _ _ h with rfl | h
  · norm_num
  rcases mem_grid_insert_elim _ _ _ _ _ _ _ h with rfl | h
  · norm_num
  rcases mem_grid_insert_elim _ _ _ _ _ _ _ h with rfl | h
  · norm_num
  rcases mem_grid_insert_elim _ _ _ _ _ _ _ h with rfl | h
  · norm_num
  rcases mem_grid_insert_elim _ _ _ _ _ _ _ h with rfl | h
  · norm_num
  simp [SpatialHash.init] at h

theorem radius0C1 : spatialC1.radius 0 = some 330 := by
  simp [spatialC1, SpatialHash.insert, Function.update]

theorem rqC1 :
    max ((140 : ℝ) * (1 / 2)) (nodeRadiusPx envC1 dZero none) = 345 / 2 := by
  rw [show nodeRadiusPx envC1 dZero none = 345 / 2 from by
    show max (120 : ℝ) 325 * (1 / 2) + 10 = 345 / 2
    norm_num]
  norm_num

theorem snap40_bound (v : ℝ) :
    |40 * ((pyround (v / 40) : ℤ) : ℝ) - v| ≤ 20 := by
  have h := abs_pyround_sub_le (α := ℝ) (v / 40)
  rw [abs_sub_le_iff] at h ⊢
  obtain ⟨h1, h2⟩ := h
  constructor
  · linarith
  · linarith

theorem cellInit : (SpatialHash.init (120 : ℤ) : SpatialHash ℝ).cell = 120 := by
  show max (40 : ℤ) 120 = 120
  norm_num

theorem grid0C1 : (0 : ℕ) ∈ spatialC1.grid (1, 1) := by
  unfold spatialC1
  apply mem_grid_insert_mono
  apply mem_grid_insert_mono
  apply mem_grid_insert_mono
  apply mem_grid_insert_mono
  apply mem_grid_insert_mono
  apply mem_grid_insert_self
  rw [cellInit]
  unfold keysFor
  rw [show (((120 : ℤ)) : ℝ) = (120 : ℝ) from by norm_num]
  rw [show ((0 : ℝ) - 330) = (-330 : ℝ) by ring]
  rw [show ((0 : ℝ) + 330) = (330 : ℝ) by ring]
  rw [floor_div_eval (-330) 120 (-3) (by norm_num) (by norm_num)
    (by norm_num)]
  rw [floor_div_eval 330 120 2 (by norm_num) (by norm_num) (by norm_num)]
  rw [Finset.mem_product]
  refine ⟨Finset.mem_Icc.mpr ⟨?_, ?_⟩, Finset.mem_Icc.mpr ⟨?_, ?_⟩⟩ <;>
    norm_num

theorem mem_neighbors0 (px py : ℝ) (hx1 : -20 ≤ px) (hx2 : px ≤ 340)
    (hy1 : -20 ≤ py) (hy2 : py ≤ 340) :
    (0 : ℕ) ∈ spatialC1.neighbors px py (345 / 2) := by
  unfold SpatialHash.neighbors
  apply Finset.mem_biUnion.mpr
  refine ⟨(1, 1), ?_, grid0C1⟩
  rw [show spatialC1.cell = (120 : ℤ) from cellInit]
  unfold keysFor
  rw [show (((120 : ℤ)) : ℝ) = (120 : ℝ) from by norm_num]
  rw [Finset.mem_product]
  refine ⟨Finset.mem_Icc.mpr ⟨?_, ?_⟩, Finset.mem_Icc.mpr ⟨?_, ?_⟩⟩
  · show ⌊(px - 345 / 2) / 120⌋ ≤ (1 : ℤ)
    have hlt : ⌊(px - 345 / 2) / 120⌋ < 2 := by
      rw [Int.floor_lt]
      push_cast
      rw [div_lt_iff (by norm_num)]
      linarith
    omega
  · show (1 : ℤ) ≤ ⌊(px + 345 / 2) / 120⌋
    rw [Int.le_floor]
    push_cast
    rw [le_div_iff (by norm_num)]
    linarith
  · show ⌊(py - 345 / 2) / 120⌋ ≤ (1 : ℤ)
    have hlt : ⌊(py - 345 / 2) / 120⌋ < 2 := by
      rw [Int.floor_lt]
      push_cast
      rw [div_lt_iff (by norm_num)]
      linarith
    omega
  · show (1 : ℤ) ≤ ⌊(py + 345 / 2) / 120⌋
    rw [Int.le_floor]
    push_cast
    rw [le_div_iff (by norm_num)]
    linarith

/-- On the first ring (radius `320`), every candidate point in the first
quadrant is blocked by the anchor's large cached radius. -/
theorem ring0_blocked (a : ℝ) (h0 : 0 ≤ a) (h1 : a ≤ Real.pi / 2) :
    ¬ isPosFree envC1 dZero (candPoint envC1 0 a 320) 140 := by
  intro hfree
  have hcand : candPoint envC1 0 a 320 =
      snap (40 : ℝ) ((0 : ℝ) + 320 * Real.cos a,
        (0 : ℝ) + 320 * Real.sin a) :=
    candPoint_ring0 envC1 a 320
  have hpx : (candPoint envC1 0 a 320).1 =
      40 * ((pyround (((0 : ℝ) + 320 * Real.cos a) / 40) : ℤ) : ℝ) := by
    rw [hcand]
    rfl
  have hpy : (candPoint envC1 0 a 320).2 =
      40 * ((pyround (((0 : ℝ) + 320 * Real.sin a) / 40) : ℤ) : ℝ) := by
    rw [hcand]
    rfl
  have hx := snap40_bound ((0 : ℝ) + 320 * Real.cos a)
  have hy := snap40_bound ((0 : ℝ) + 320 * Real.sin a)
  rw [abs_sub_le_iff] at hx hy
  have hc0 : 0 ≤ Real.cos a :=
    Real.cos_nonneg_of_mem_Icc ⟨by linarith [Real.pi_pos], h1⟩
  have hc1 : Real.cos a ≤ 1 := Real.cos_le_one a
  have hs0 : 0 ≤ Real.sin a :=
    Real.sin_nonneg_of_nonneg_of_le_pi h0 (by linarith [Real.pi_pos])
  have hs1 : Real.sin a ≤ 1 := Real.sin_le_one a
  have hpx1 : -20 ≤ (candPoint envC1 0 a 320).1 := by
    rw [hpx]; nlinarith [hx.1, hx.2]
  have hpx2 : (candPoint envC1 0 a 320).1 ≤ 340 := by
    rw [hpx]; nlinarith [hx.1, hx.2]
  have hpy1 : -20 ≤ (candPoint envC1 0 a 320).2 := by
    rw [hpy]; nlinarith [hy.1, hy.2]
  have hpy2 : (candPoint envC1 0 a 320).2 ≤ 340 := by
    rw [hpy]; nlinarith [hy.1, hy.2]
  have hmem := mem_neighbors0 (candPoint envC1 0 a 320).1
    (candPoint envC1 0 a 320).2 hpx1 hpx2 hpy1 hpy2
  unfold isPosFree at hfree
  rw [show envC1.spatial = spatialC1 from rfl, rqC1] at hfree
  have hcontra := hfree 0 hmem ((0 : ℝ), (0 : ℝ)) rfl
  rw [radius0C1] at hcontra
  simp only [Option.getD_some] at hcontra
  apply hcontra
  apply sqrt_lt_of_lt_sq
  · positivity
  · norm_num
  · have hb1 : (0 : ℝ) ≤ (candPoint envC1 0 a 320).1 + 20 := by linarith
    have hb2 : (0 : ℝ) ≤ 340 - (candPoint envC1 0 a 320).1 := by linarith
    have hb3 : (0 : ℝ) ≤ (candPoint envC1 0 a 320).2 + 20 := by linarith
    have hb4 : (0 : ℝ) ≤ 340 - (candPoint envC1 0 a 320).2 := by linarith
    nlinarith [mul_nonneg hb1 hb2, mul_nonneg hb3 hb4]

theorem secC1 : slotInSector envC1 (Real.pi / 4) := by
  have hpi := Real.pi_gt_3141592
  have hpi' := Real.pi_lt_315
  obtain ⟨ha0, hw, _⟩ := sectorC1
  constructor
  · rw [if_neg (show ¬ 2 * Real.pi - 1 / 1000 ≤
      (slotSectorCenter envC1).1.2 by
        rw [hw]; intro hcon; nlinarith)]
    have hfm : fmod ((slotSectorCenter envC1).1.1 +
        (slotSectorCenter envC1).1.2) (2 * Real.pi) =
        82 * Real.pi / 180 := by
      rw [ha0, hw]
      rw [show 8 * Real.pi / 180 + 74 * Real.pi / 180 =
        82 * Real.pi / 180 by ring]
      exact fmod_eq_self _ _ (by positivity) (by nlinarith)
    rw [hfm, if_neg (show ¬ (82 * Real.pi / 180 : ℝ) <
      (slotSectorCenter envC1).1.1 by
        rw [ha0]; intro hcon; nlinarith)]
    rw [ha0]
    constructor
    · linarith
    · linarith
  · rw [coneC1, prefC1]
    rw [show (Real.pi / 4 : ℝ) - 45 * Real.pi / 180 = 0 by ring]
    rw [normAngle_of_mem 0 le_rfl (by positivity), zero_add]
    rw [fmod_eq_self _ _ (by positivity) (by nlinarith)]
    rw [sub_self, abs_zero]
    positivity

theorem candC1 : candPoint envC1 1 (Real.pi / 4) 480 = (360, 360) := by
  show snap (40 : ℝ)
    ((0 : ℝ) + 480 * Real.cos (Real.pi / 4) +
      jitterAmp 1 * (1 / 2 - (((0 % 1024 : ℕ)) : ℝ) / 1023),
     (0 : ℝ) + 480 * Real.sin (Real.pi / 4) +
      jitterAmp 1 * (1 / 2 - (((0 % 1024 : ℕ)) : ℝ) / 1023)) = (360, 360)
  rw [Real.cos_pi_div_four, Real.sin_pi_div_four]
  rw [show jitterAmp 1 = 16 / 5 from by unfold jitterAmp; norm_num]
  rw [show (((0 % 1024 : ℕ)) : ℝ) = 0 from by norm_num]
  unfold snap
  rw [show ((0 : ℝ) + 480 * (Real.sqrt 2 / 2) + 16 / 5 * (1 / 2 - 0 / 1023)) /
    40 = 6 * Real.sqrt 2 + 1 / 25 by ring]
  rw [pyround_eq_of_mem (6 * Real.sqrt 2 + 1 / 25) 9
    (by push_cast; linarith [sqrt_two_gt])
    (by push_cast; linarith [sqrt_two_lt])]
  norm_num

theorem free1 : isPosFree envC1 dZero (360, 360) 140 := by
  intro nm hm q hq
  unfold SpatialHash.neighbors at hm
  obtain ⟨k, hk, hg⟩ := Finset.mem_biUnion.mp hm
  rw [show envC1.spatial = spatialC1 from rfl] at hg
  have h5 := spatialC1_mem nm k hg
  rw [show envC1.spatial = spatialC1 from rfl, rqC1]
  interval_cases nm
  · rw [radius0C1]
    simp only [Option.getD_some]
    rw [show envC1.nodes 0 = some ((0 : ℝ), (0 : ℝ)) from rfl] at hq
    obtain rfl := Option.some.inj hq
    exact not_lt.mpr (le_sqrt_of_sq_le _ _ (by norm_num) (by norm_num))
  · rw [show spatialC1.radius 1 = some (50 : ℝ) from by
      simp [spatialC1, SpatialHash.insert, Function.update]]
    simp only [Option.getD_some]
    rw [show envC1.nodes 1 = some ((1000 : ℝ), (0 : ℝ)) from rfl] at hq
    obtain rfl := Option.some.inj hq
    exact not_lt.mpr (le_sqrt_of_sq_le _ _ (by norm_num) (by norm_num))
  · rw [show spatialC1.radius 2 = some (50 : ℝ) from by
      simp [spatialC1, SpatialHash.insert, Function.update]]
    simp only [Option.getD_some]
    rw [show envC1.nodes 2 = some ((0 : ℝ), (1000 : ℝ)) from rfl] at hq
    obtain rfl := Option.some.inj hq
    exact not_lt.mpr (le_sqrt_of_sq_le _ _ (by norm_num) (by norm_num))
  · rw [show spatialC1.radius 3 = some (50 : ℝ) from by
      simp [spatialC1, SpatialHash.insert, Function.update]]
    simp only [Option.getD_some]
    rw [show envC1.nodes 3 = some ((-1000 : ℝ), (0 : ℝ)) from rfl] at hq
    obtain rfl := Option.some.inj hq
    exact not_lt.mpr (le_sqrt_of_sq_le _ _ (by norm_num) (by norm_num))
  · rw [show spatialC1.radius 4 = some (50 : ℝ) from by
      simp [spatialC1, SpatialHash.insert, Function.update]]
    simp only [Option.getD_some]
    rw [show envC1.nodes 4 = some ((0 : ℝ), (-1000 : ℝ)) from rfl] at hq
    obtain rfl := Option.some.inj hq
    exact not_lt.mpr (le_sqrt_of_sq_le _ _ (by norm_num) (by norm_num))
  · rw [show spatialC1.radius 5 = some (50 : ℝ) from by
      simp [spatialC1, SpatialHash.insert, Function.update]]
    simp only [Option.getD_some]
    rw [show envC1.nodes 5 = some ((170 : ℝ), (170 : ℝ)) from rfl] at hq
    obtain rfl := Option.some.inj hq
    exact not_lt.mpr (le_sqrt_of_sq_le _ _ (by norm_num) (by norm_num))

theorem runC1 : findSlotRun envC1 dZero =
    .accepted 1 (Real.pi / 4) 480 360 360 := by
  have hpi := Real.pi_gt_3141592
  have hpi' := Real.pi_lt_315
  have hr0 : slotR0 envC1 + ((0 : ℕ) : ℝ) * 160 = 320 := by
    rw [r0C1]
    norm_num
  have hblocked : ∀ x ∈ slotCands envC1, ¬ isPosFree envC1 dZero
      (candPoint envC1 0 x (slotR0 envC1 + ((0 : ℕ) : ℝ) * 160)) 140 := by
    intro x hx
    rw [hr0]
    rw [candsC1] at hx
    simp only [List.mem_cons, List.not_mem_nil, or_false] at hx
    rcases hx with rfl | rfl | rfl | rfl | rfl | rfl | rfl <;>
      exact ring0_blocked _ (by positivity) (by nlinarith)
  have htry0 : tryAngles envC1 dZero 0 (slotR0 envC1 + ((0 : ℕ) : ℝ) * 160)
      (slotCands envC1) = none :=
    tryAngles_none_of_blocked _ _ _ _ _ hblocked
  have hr1 : slotR0 envC1 + ((1 : ℕ) : ℝ) * 160 = 480 := by
    rw [r0C1]
    norm_num
  unfold findSlotRun
  rw [show List.range 7 = 0 :: [1, 2, 3, 4, 5, 6] from rfl]
  have hstep : searchRings envC1 dZero (0 :: [1, 2, 3, 4, 5, 6]) =
      searchRings envC1 dZero [1, 2, 3, 4, 5, 6] := by
    rw [searchRings, htry0]
  rw [hstep]
  rw [searchRings_cons_accept envC1 dZero 1 _
    (by rw [(sectorC1).2.2]; exact secC1)
    (by rw [(sectorC1).2.2, hr1, candC1]; exact free1)]
  rw [(sectorC1).2.2, hr1, candC1]

/-- C1: counterexample to the claimed guarantee for the *returned*
`(angle, radius)` pair — the search accepts on the second ring, where the
tested point carries a hash jitter of `+1.6` per coordinate and snaps to
`(360, 360)`, while the caller's reconstruction `snap(anchor + r·(cos, sin))`
snaps to `(320, 320)`: that reconstructed point sits closer to the indexed
node `5` than the sum of the two collision radii (and the index query at
the reconstructed point does report node `5`). -/
theorem C1_counterexample :
    findSlotRun envC1 dZero = .accepted 1 (Real.pi / 4) 480 360 360 ∧
    findSlot envC1 dZero = (Real.pi / 4, 480) ∧
    snap envC1.snapStep
      (envC1.anchorPos.1 + 480 * Real.cos (Real.pi / 4),
       envC1.anchorPos.2 + 480 * Real.sin (Real.pi / 4)) = (320, 320) ∧
    spatialC1.radius 5 = some 50 ∧
    envC1.nodes 5 = some (170, 170) ∧
    (5 : ℕ) ∈ spatialC1.neighbors 320 320
      (max ((140 : ℝ) * (1 / 2)) (nodeRadiusPx envC1 dZero none)) ∧
    Real.sqrt (((170 : ℝ) - 320) ^ 2 + ((170 : ℝ) - 320) ^ 2) <
      50 + max ((140 : ℝ) * (1 / 2)) (nodeRadiusPx envC1 dZero none) := by
  refine ⟨runC1, ?_, ?_, ?_, rfl, ?_, ?_⟩
  · unfold findSlot
    rw [runC1]
  · show snap (40 : ℝ)
      ((0 : ℝ) + 480 * Real.cos (Real.pi / 4),
       (0 : ℝ) + 480 * Real.sin (Real.pi / 4)) = (320, 320)
    rw [Real.cos_pi_div_four, Real.sin_pi_div_four]
    unfold snap
    rw [show ((0 : ℝ) + 480 * (Real.sqrt 2 / 2)) / 40 = 6 * Real.sqrt 2 by
      ring]
    rw [pyround_eq_of_mem (6 * Real.sqrt 2) 8
      (by push_cast; linarith [sqrt_two_gt])
      (by push_cast; linarith [sqrt_two_lt])]
    norm_num
  · simp [spatialC1, SpatialHash.insert, Function.update]
  · rw [rqC1]
    unfold SpatialHash.neighbors
    apply Finset.mem_biUnion.mpr
    refine ⟨(1, 1), ?_, ?_⟩
    · rw [show spatialC1.cell = (120 : ℤ) from cellInit]
      unfold keysFor
      rw [show (((120 : ℤ)) : ℝ) = (120 : ℝ) from by norm_num]
      rw [show ((320 : ℝ) - 345 / 2) = (295 / 2 : ℝ) by norm_num]
      rw [show ((320 : ℝ) + 345 / 2) = (985 / 2 : ℝ) by norm_num]
      rw [floor_div_eval (295 / 2) 120 1 (by norm_num) (by norm_num)
        (by norm_num)]
      rw [floor_div_eval (985 / 2) 120 4 (by norm_num) (by norm_num)
        (by norm_num)]
      rw [Finset.mem_product]
      refine ⟨Finset.mem_Icc.mpr ⟨?_, ?_⟩, Finset.mem_Icc.mpr ⟨?_, ?_⟩⟩ <;>
        norm_num
    · unfold spatialC1
      apply mem_grid_insert_self
      rw [spatial_insert_cell, spatial_insert_cell, spatial_insert_cell,
        spatial_insert_cell, spatial_insert_cell, cellInit]
      unfold keysFor
      rw [show (((120 : ℤ)) : ℝ) = (120 : ℝ) from by norm_num]
      rw [show ((170 : ℝ) - 50) = (120 : ℝ) by norm_num]
      rw [show ((170 : ℝ) + 50) = (220 : ℝ) by norm_num]
      rw [floor_div_eval 120 120 1 (by norm_num) (by norm_num) (by norm_num)]
      rw [floor_div_eval 220 120 1 (by norm_num) (by norm_num) (by norm_num)]
      rw [Finset.mem_product]
      refine ⟨Finset.mem_Icc.mpr ⟨?_, ?_⟩, Finset.mem_Icc.mpr ⟨?_, ?_⟩⟩ <;>
        norm_num
  · rw [rqC1]
    apply sqrt_lt_of_lt_sq
    · positivity
    · norm_num
    · norm_num

theorem C1_witness :
    (∀ n x y rr, (emptyReg n : Option (ℝ × ℝ × ℝ)) = some (x, y, rr) →
      rr + max (140 * (1 / 2)) (nodeRadiusPx (envBase laC5) dZero none) ≤
        Real.sqrt ((x - (-120)) ^ 2 + (y - (-120)) ^ 2)) ∧
    ((0 : ℕ) = 0 → ((-120 : ℝ), (-120 : ℝ)) = snap (envBase laC5).snapStep
      ((envBase laC5).anchorPos.1 + 160 * Real.cos (5 * Real.pi / 4),
       (envBase laC5).anchorPos.2 + 160 * Real.sin (5 * Real.pi / 4))) :=
  C1_accepted_tested_point_safe (envBase laC5) dZero emptyReg
    ⟨by show (0 : ℤ) < max 40 120; norm_num,
     fun n x y rr h => absurd h (by simp [emptyReg])⟩
    (fun n x y rr h => absurd h (by simp [emptyReg]))
    0 (5 * Real.pi / 4) 160 (-120) (-120) runC5
